import Mathlib

/-!
# Spekka: a shallow embedding of the installer, the configuration loader and the logging set-up

The development follows the Go sources `internal/config/config.go`,
`internal/cli/install.go` and `internal/cli/root.go`.

* Go's `error` results are values of `Option Error` (`none` is `nil`).
* The filesystem is an explicit state: a finite map from relative
  paths to nodes, threaded through every operation.  A failing operation
  leaves the state as it found it, and a failing step of the installer
  keeps whatever earlier steps already did.
* The clock, the faults injected into mutating system calls and the
  iteration order of Go's map are inputs of the model.
* `LoadConfig` runs on a `Host` (working directory, home directory,
  environment, files by absolute path).  Viper's handling of search paths
  (`AddConfigPath` with `absPathify`) and its search for the file follow the
  library; its candidate file names, the YAML decoding and `Unmarshal` are
  the parameter `ViperLib`, with `supportedNames` the names viper tries.
* Package-level variables of `root.go` are the fields of `Globals`.
-/

namespace Spekka

/-! ## Errors -/

/-- Error numbers the modelled system calls can report. `EACCES` stands for
every failure that does not follow from the shape of the tree (permissions,
quota, I/O). -/
inductive Errno where
  | ENOENT
  | ENOTDIR
  | EISDIR
  | EEXIST
  | ENOTEMPTY
  | EINVAL
  | EACCES
deriving DecidableEq, Repr

/-- Text of an error number, as `syscall.Errno.Error` prints it. -/
def Errno.text : Errno → String
  | .ENOENT => "no such file or directory"
  | .ENOTDIR => "not a directory"
  | .EISDIR => "is a directory"
  | .EEXIST => "file exists"
  | .ENOTEMPTY => "directory not empty"
  | .EINVAL => "invalid argument"
  | .EACCES => "permission denied"

/-- Go error values that occur in the program: `*os.PathError`, `*os.LinkError`,
`fmt.Errorf` without `%w`, and `fmt.Errorf` whose format ends in `%w`. -/
inductive Error where
  | path (op : String) (file : String) (errno : Errno)
  | link (op : String) (old : String) (new : String) (errno : Errno)
  | text (msg : String)
  | wrap (msg : String) (cause : Error)
deriving DecidableEq, Repr

/-- The string `err.Error()` returns. -/
def Error.message : Error → String
  | .path op file errno => op ++ " " ++ file ++ ": " ++ errno.text
  | .link op old new errno => op ++ " " ++ old ++ " " ++ new ++ ": " ++ errno.text
  | .text msg => msg
  | .wrap msg cause => msg ++ cause.message

/-- The chain `errors.Unwrap` walks: whether `inner` is `e` or is wrapped by it. -/
def Error.wraps : Error → Error → Bool
  | .wrap msg cause, inner => (Error.wrap msg cause == inner) || cause.wraps inner
  | e, inner => e == inner

/-- Substring test on strings, as `strings.Contains`. -/
def contains (s sub : String) : Prop := sub.data <:+: s.data

instance (s sub : String) : Decidable (contains s sub) := by
  unfold contains; infer_instance

/-! ## `internal/config`: the configuration structure and `Validate` -/

/-- Go struct `ProjectConfig`. -/
structure ProjectConfig where
  Name : String := ""
  Version : String := ""
deriving DecidableEq, Repr

/-- Go struct `StandardsConfig`. -/
structure StandardsConfig where
  Path : String := ""
  Remote : List String := []
deriving DecidableEq, Repr

/-- Go struct `ProductConfig`. -/
structure ProductConfig where
  Path : String := ""
deriving DecidableEq, Repr

/-- Go struct `SpecsConfig`. -/
structure SpecsConfig where
  Path : String := ""
deriving DecidableEq, Repr

/-- Go struct `TasksConfig`. -/
structure TasksConfig where
  Path : String := ""
deriving DecidableEq, Repr

/-- Go struct `Config`. -/
structure Config where
  Project : ProjectConfig := {}
  Standards : StandardsConfig := {}
  Product : ProductConfig := {}
  Specs : SpecsConfig := {}
  Tasks : TasksConfig := {}
deriving DecidableEq, Repr

/-- How `%v` prints a `[]string`: the elements separated by one blank, in
square brackets. -/
def fmtStrings (xs : List String) : String :=
  "[" ++ " ".intercalate xs ++ "]"

/-- The slice `missing` that `Validate` builds by four guarded appends. -/
def Config.missing (c : Config) : List String :=
  let missing : List String := []
  let missing := if c.Standards.Path = "" then missing ++ ["standards.path"] else missing
  let missing := if c.Product.Path = "" then missing ++ ["product.path"] else missing
  let missing := if c.Specs.Path = "" then missing ++ ["specs.path"] else missing
  let missing := if c.Tasks.Path = "" then missing ++ ["tasks.path"] else missing
  missing

/-- `func (c *Config) Validate() error`. -/
def Config.Validate (c : Config) : Option Error :=
  let missing := c.missing
  if missing.length > 0 then
    some (Error.text ("missing required configuration fields: " ++ fmtStrings missing))
  else
    none

/-- The error `e` is non-nil and its message contains `name`. -/
def mentions (e : Option Error) (name : String) : Prop :=
  ∃ err, e = some err ∧ contains err.message name

/-! ## The world the installer runs in -/

/-- An entry of the filesystem: a regular file with its content, or a directory. -/
inductive Node where
  | file (content : String)
  | dir
deriving DecidableEq, Repr

/-- Whether a lookup result is a regular file. -/
def isFile : Option Node → Bool
  | some (.file _) => true
  | _ => false

/-- Whether a lookup result is a directory. -/
def isDir : Option Node → Bool
  | some .dir => true
  | _ => false

/-- The filesystem below the invocation directory: the entries that exist,
keyed by their path relative to that directory (`/` separated, no trailing
separator). The invocation directory itself always exists and has no key. -/
structure FS where
  entries : List (String × Node)
deriving DecidableEq, Repr

/-- Lookup of a path: the first entry with that key. -/
def FS.get (fs : FS) (p : String) : Option Node :=
  (fs.entries.find? (fun e => e.1 = p)).map (fun e => e.2)

/-- Removal of a path. -/
def FS.remove (fs : FS) (p : String) : FS :=
  ⟨fs.entries.filter (fun e => e.1 ≠ p)⟩

/-- Creation or replacement of the entry at a path. -/
def FS.set (fs : FS) (p : String) (n : Node) : FS :=
  ⟨(p, n) :: (fs.remove p).entries⟩

/-- Scans a path left to right; at every separator that ends a non-empty
prefix, that prefix is a proper ancestor. -/
def ancestorsAux : List Char → List Char → List String
  | _, [] => []
  | acc, c :: cs =>
    if c = '/' then
      if acc.isEmpty then ancestorsAux (acc ++ [c]) cs
      else String.mk acc :: ancestorsAux (acc ++ [c]) cs
    else ancestorsAux (acc ++ [c]) cs

/-- The proper ancestors of a path, outermost first:
`ancestors "a/b/c" = ["a", "a/b"]`. -/
def ancestors (p : String) : List String :=
  ancestorsAux [] p.data

/-- Path resolution up to the last component: the outermost ancestor that
is not a directory decides the error (`ENOTDIR` for a regular file,
`ENOENT` for a missing one); `none` when every ancestor is a directory. -/
def resolveDir (fs : FS) (p : String) : Option Errno :=
  match (ancestors p).find? (fun a => !isDir (fs.get a)) with
  | none => none
  | some a => if isFile (fs.get a) then some .ENOTDIR else some .ENOENT

/-- The filesystem is a tree: every ancestor of an existing entry is a
directory. -/
def FS.WF (fs : FS) : Prop :=
  ∀ p, fs.get p ≠ none → ∀ a ∈ ancestors p, fs.get a = some .dir

/-- The mutating system calls, as far as fault injection tells them apart. -/
inductive Op where
  | mkdir (path : String)
  | writeFile (path : String)
  | rename (old : String) (new : String)
deriving DecidableEq, Repr

/-- A wall-clock reading in local time. -/
structure Time where
  year : Nat
  month : Nat
  day : Nat
  hour : Nat
  minute : Nat
  second : Nat
deriving DecidableEq, Repr

/-- Everything a run of the installer reads or changes. `out` is standard
output, one element per `fmt.Println` or `fmt.Printf` call (without the
final newline). `now` is what `time.Now()` returns. `deny` lists the
mutating system calls that fail for a reason outside the tree (reported as
`EACCES`). -/
structure World where
  fs : FS
  out : List String
  now : Time
  deny : Op → Bool

/-- One `fmt.Println(line)`. -/
def World.print (w : World) (line : String) : World :=
  { w with out := w.out ++ [line] }

/-- No mutating system call is refused for an external reason. -/
def World.NoFaults (w : World) : Prop :=
  ∀ op, w.deny op = false

/-! ### System calls -/

/-- `os.Stat`: resolve the ancestors, then look the path up. -/
def stat (w : World) (p : String) : Except Errno Node :=
  match resolveDir w.fs p with
  | some e => .error e
  | none =>
    match w.fs.get p with
    | some n => .ok n
    | none => .error .ENOENT

/-- `os.Mkdir`: the path must not exist and its parent must be a directory. -/
def mkdir (w : World) (p : String) : Except Errno World :=
  if w.deny (.mkdir p) then .error .EACCES
  else
    match resolveDir w.fs p with
    | some e => .error e
    | none =>
      match w.fs.get p with
      | some _ => .error .EEXIST
      | none => .ok { w with fs := w.fs.set p .dir }

/-- `os.MkdirAll` on the list `path :: parent :: grandparent :: ...`: if the
path is a directory there is nothing to do, if it is something else the call
fails with `ENOTDIR`; otherwise the parents are made first and then the path
itself, and a failing `Mkdir` is forgiven when the directory exists after
all. Directories made before a failure stay. -/
def mkdirAllAux : List String → World → Option Error × World
  | [], w => (none, w)
  | p :: parents, w =>
    match stat w p with
    | .ok .dir => (none, w)
    | .ok (.file _) => (some (.path "mkdir" p .ENOTDIR), w)
    | .error _ =>
      match mkdirAllAux parents w with
      | (some err, w1) => (some err, w1)
      | (none, w1) =>
        match mkdir w1 p with
        | .ok w2 => (none, w2)
        | .error errno =>
          match stat w1 p with
          | .ok .dir => (none, w1)
          | _ => (some (.path "mkdir" p errno), w1)

/-- `os.MkdirAll(path, 0755)`. -/
def MkdirAll (w : World) (p : String) : Option Error × World :=
  mkdirAllAux (p :: (ancestors p).reverse) w

/-- `os.WriteFile(path, data, 0644)`: creates the file or replaces its
content; the parent must be a directory and the path must not be one. -/
def writeFile (w : World) (p : String) (data : String) : Except Errno World :=
  if w.deny (.writeFile p) then .error .EACCES
  else
    match resolveDir w.fs p with
    | some e => .error e
    | none =>
      match w.fs.get p with
      | some .dir => .error .EISDIR
      | _ => .ok { w with fs := w.fs.set p (.file data) }

/-- Whether path `q` lies strictly below path `a`. -/
def isBelow (a q : String) : Bool :=
  decide (a ∈ ancestors q)

/-- The tree after moving the entry `old` (with everything below it) to
`new`, replacing whatever was at or below `new`. -/
def FS.move (fs : FS) (old new : String) : FS :=
  let kept := fs.entries.filter
    (fun e => !(e.1 = old || isBelow old e.1 || e.1 = new || isBelow new e.1))
  let moved := fs.entries.filterMap (fun e =>
    if e.1 = old then some (new, e.2)
    else if isBelow old e.1 then some (new ++ String.mk (e.1.data.drop old.length), e.2)
    else none)
  ⟨moved ++ kept⟩

/-- `os.Rename(old, new)`: `old` must exist and the parent of `new` must be
a directory. A regular file replaces a regular file but not a directory; a
directory replaces only an empty directory; nothing moves below itself. -/
def rename (w : World) (old new : String) : Except Errno World :=
  if w.deny (.rename old new) then .error .EACCES
  else
    match stat w old with
    | .error e => .error e
    | .ok src =>
      match resolveDir w.fs new with
      | some e => .error e
      | none =>
        if old = new then .ok w
        else
          match src, w.fs.get new with
          | .file _, some .dir => .error .EISDIR
          | .file c, _ => .ok { w with fs := (w.fs.remove old).set new (.file c) }
          | .dir, some (.file _) => .error .ENOTDIR
          | .dir, some .dir =>
            if w.fs.entries.any (fun e => isBelow new e.1) then .error .ENOTEMPTY
            else if isBelow old new then .error .EINVAL
            else .ok { w with fs := w.fs.move old new }
          | .dir, none =>
            if isBelow old new then .error .EINVAL
            else .ok { w with fs := w.fs.move old new }

/-! ### The clock -/

/-- Decimal digits of `n`, left-padded with zeros to `width` characters
(never truncated), as `appendInt` of package `time`. -/
def appendInt (n width : Nat) : String :=
  let digits := Nat.toDigits 10 n
  String.mk (List.replicate (width - digits.length) '0' ++ digits)

/-- `t.Format("20060102-150405")`: four-digit year, two-digit month and day,
a hyphen, two-digit hour, minute and second. -/
def Time.Format (t : Time) : String :=
  appendInt t.year 4 ++ appendInt t.month 2 ++ appendInt t.day 2 ++ "-" ++
  appendInt t.hour 2 ++ appendInt t.minute 2 ++ appendInt t.second 2

/-! ## `internal/cli/install.go` -/

/-- Go variable `spekkaDirectories`. -/
def spekkaDirectories : List String :=
  [ ".spekka/standards",
    ".spekka/product",
    ".spekka/specs",
    ".spekka/tasks",
    ".spekka/skills",
    ".spekka/profiles",
    ".spekka/verification",
    ".spekka/visuals" ]

/-- Go function `getConfigTemplate`. -/
def getConfigTemplate : String :=
  "# Spekka Configuration File\n" ++
  "# This file configures your Spekka project structure and settings\n" ++
  "\n" ++
  "project:\n" ++
  "  # Project name - update this to match your project\n" ++
  "  name: \"my-project\"\n" ++
  "  # Project version - semantic versioning recommended\n" ++
  "  version: \"0.1.0\"\n" ++
  "\n" ++
  "# Standards layer - coding standards and style guides\n" ++
  "standards:\n" ++
  "  # Local path to standards directory (relative to .spekka/)\n" ++
  "  path: \"standards\"\n" ++
  "  # Remote style guides (Git URLs) - examples:\n" ++
  "  # remote:\n" ++
  "  #   - \"https://github.com/your-org/go-standards.git\"\n" ++
  "  #   - \"https://github.com/your-org/frontend-standards.git\"\n" ++
  "\n" ++
  "# Product layer - product vision and user documentation\n" ++
  "product:\n" ++
  "  # Local path to product directory (relative to .spekka/)\n" ++
  "  path: \"product\"\n" ++
  "\n" ++
  "# Specifications layer - detailed feature specifications\n" ++
  "specs:\n" ++
  "  # Local path to specifications directory (relative to .spekka/)\n" ++
  "  path: \"specs\"\n" ++
  "\n" ++
  "# Tasks layer - implementation task breakdown\n" ++
  "tasks:\n" ++
  "  # Local path to tasks directory (relative to .spekka/)\n" ++
  "  path: \"tasks\"\n"

/-- Go function `getStandardsTemplate`. -/
def getStandardsTemplate : String :=
  "# Standards Directory\n" ++
  "\n" ++
  "This directory contains coding standards, style guides, and architectural patterns that define **how** code should be written in your project.\n" ++
  "\n" ++
  "## Purpose\n" ++
  "The standards layer is part of Spekka's 3-layer context system and provides:\n" ++
  "- Coding style guides and conventions\n" ++
  "- Architectural patterns and best practices  \n" ++
  "- Code review guidelines\n" ++
  "- Quality standards and metrics\n" ++
  "\n" ++
  "## Organization\n" ++
  "- Create subdirectories for different languages/frameworks (e.g., go/, frontend/, backend/)\n" ++
  "- Use markdown files for documentation\n" ++
  "- Include example code snippets and templates\n" ++
  "- Reference external style guides via Git URLs in .spekka.yaml\n" ++
  "\n" ++
  "## Git URL-based Style Guides\n" ++
  "You can import and share style guides using Git URLs (similar to Go package imports):\n" ++
  "\n" ++
  "```yaml\n" ++
  "standards:\n" ++
  "  remote:\n" ++
  "    - \"https://github.com/your-org/go-standards.git\"\n" ++
  "    - \"https://github.com/your-org/frontend-standards.git\"\n" ++
  "```\n" ++
  "\n" ++
  "## Examples\n" ++
  "- go/style-guide.md - Go coding conventions\n" ++
  "- frontend/react-patterns.md - React component patterns\n" ++
  "- backend/api-design.md - REST API design guidelines\n" ++
  "- security/guidelines.md - Security best practices\n"

/-- Go function `getProductTemplate`. -/
def getProductTemplate : String :=
  "# Product Directory\n" ++
  "\n" ++
  "This directory contains product vision, user personas, and business context that defines **why** you're building features.\n" ++
  "\n" ++
  "## Purpose\n" ++
  "The product layer is part of Spekka's 3-layer context system and provides:\n" ++
  "- Product mission and vision\n" ++
  "- User personas and journey maps\n" ++
  "- Business goals and success metrics\n" ++
  "- Market research and competitive analysis\n" ++
  "\n" ++
  "## Recommended Files\n" ++
  "- mission.md - Product mission statement and core values\n" ++
  "- roadmap.md - Product roadmap and feature priorities\n" ++
  "- personas.md - User personas and target audience\n" ++
  "- metrics.md - Key performance indicators and success metrics\n" ++
  "\n" ++
  "## Template Structure\n" ++
  "Create a mission.md file with sections like:\n" ++
  "- Vision Statement\n" ++
  "- Target Users\n" ++
  "- Core Problems Solved\n" ++
  "- Success Metrics\n" ++
  "- Competitive Landscape\n" ++
  "\n" ++
  "This context helps AI assistants understand the business rationale behind technical decisions.\n"

/-- Go function `getSpecsTemplate`. -/
def getSpecsTemplate : String :=
  "# Specifications Directory\n" ++
  "\n" ++
  "This directory contains detailed feature specifications that define **what** to build.\n" ++
  "\n" ++
  "## Purpose\n" ++
  "The specifications layer is part of Spekka's 3-layer context system and provides:\n" ++
  "- Detailed feature requirements\n" ++
  "- User stories and acceptance criteria\n" ++
  "- API specifications and data models\n" ++
  "- Integration requirements\n" ++
  "\n" ++
  "## Specification Format\n" ++
  "Use this structure for specification files:\n" ++
  "\n" ++
  "```markdown\n" ++
  "# Feature Name\n" ++
  "\n" ++
  "## Purpose\n" ++
  "Brief description of what this feature does and why it's needed.\n" ++
  "\n" ++
  "## Requirements\n" ++
  "### Requirement: Feature Name\n" ++
  "The system SHALL provide [specific capability].\n" ++
  "\n" ++
  "#### Scenario: Success case\n" ++
  "- **WHEN** user performs action\n" ++
  "- **THEN** expected result occurs\n" ++
  "- **AND** additional conditions are met\n" ++
  "\n" ++
  "#### Scenario: Error case\n" ++
  "- **WHEN** invalid input is provided\n" ++
  "- **THEN** appropriate error message is shown\n" ++
  "```\n" ++
  "\n" ++
  "## Organization\n" ++
  "- One specification file per major feature\n" ++
  "- Use clear, testable requirements\n" ++
  "- Include both positive and negative scenarios\n" ++
  "- Reference related specifications when needed\n" ++
  "\n" ++
  "## Integration with Tasks\n" ++
  "Specifications are automatically parsed by Spekka to generate implementation tasks with effort estimates and dependencies.\n"

/-- Go function `getTasksTemplate`. -/
def getTasksTemplate : String :=
  "# Tasks Directory\n" ++
  "\n" ++
  "This directory contains implementation task breakdowns with effort estimates, dependencies, and acceptance criteria.\n" ++
  "\n" ++
  "## Purpose\n" ++
  "Tasks are generated from specifications and provide:\n" ++
  "- Actionable implementation steps\n" ++
  "- Effort estimates and time tracking\n" ++
  "- Dependency management\n" ++
  "- Progress tracking and status updates\n" ++
  "\n" ++
  "## Task File Format\n" ++
  "Tasks use markdown with YAML frontmatter:\n" ++
  "\n" ++
  "```yaml---\n" ++
  "id: \"feature-login-ui\"\n" ++
  "title: \"Implement login UI component\"\n" ++
  "spec: \"user-authentication\"\n" ++
  "effort: \"4h\"\n" ++
  "status: \"todo\"\n" ++
  "assignee: \"developer@example.com\"\n" ++
  "dependencies: [\"feature-auth-api\"]\n" ++
  "---\n" ++
  "\n" ++
  "# Task: Implement Login UI Component\n" ++
  "\n" ++
  "## Description\n" ++
  "Create a reusable login component with form validation and error handling.\n" ++
  "\n" ++
  "## Acceptance Criteria\n" ++
  "- [ ] Form validates email format\n" ++
  "- [ ] Form validates password requirements\n" ++
  "- [ ] Error messages display clearly\n" ++
  "- [ ] Component is responsive\n" ++
  "- [ ] Unit tests achieve >80% coverage\n" ++
  "\n" ++
  "## Implementation Notes\n" ++
  "- Use existing design system components\n" ++
  "- Follow accessibility guidelines\n" ++
  "- Integrate with authentication API\n" ++
  "```\n" ++
  "\n" ++
  "## Status Values\n" ++
  "- todo: Not started\n" ++
  "- in-progress: Currently being worked on\n" ++
  "- review: Ready for code review\n" ++
  "- done: Completed and merged\n" ++
  "\n" ++
  "## Integration\n" ++
  "Tasks sync bidirectionally with external issue trackers (GitHub Issues, Linear, JIRA) via webhooks.\n"

/-- Go function `getSkillsTemplate`. -/
def getSkillsTemplate : String :=
  "# Skills Directory\n" ++
  "\n" ++
  "This directory contains AI agent skill definitions and specialized capabilities for different types of development work.\n" ++
  "\n" ++
  "## Purpose\n" ++
  "Skills define specialized AI agent capabilities for:\n" ++
  "- Code generation and refactoring\n" ++
  "- Testing and quality assurance\n" ++
  "- Documentation and technical writing\n" ++
  "- Code review and analysis\n" ++
  "- Deployment and DevOps tasks\n" ++
  "\n" ++
  "## Skill Definition Format\n" ++
  "Skills are defined using structured templates that specify:\n" ++
  "- Input requirements and context\n" ++
  "- Expected outputs and deliverables\n" ++
  "- Quality criteria and validation steps\n" ++
  "- Tool integrations and dependencies\n" ++
  "\n" ++
  "## Examples\n" ++
  "- code-generation.md - Code writing and implementation skills\n" ++
  "- testing.md - Test creation and quality assurance skills\n" ++
  "- documentation.md - Technical writing and documentation skills\n" ++
  "- review.md - Code review and analysis skills\n" ++
  "\n" ++
  "## Integration\n" ++
  "Skills are used by the multi-agent orchestration system to assign appropriate AI agents to different types of tasks based on their capabilities.\n"

/-- Go function `getProfilesTemplate`. -/
def getProfilesTemplate : String :=
  "# Profiles Directory\n" ++
  "\n" ++
  "This directory contains AI agent profile configurations for specialized development roles.\n" ++
  "\n" ++
  "## Purpose\n" ++
  "Profiles configure AI agents for different development roles:\n" ++
  "- Implementation agents (focused on code writing)\n" ++
  "- Review agents (focused on code quality and standards)\n" ++
  "- Testing agents (focused on test creation and validation)\n" ++
  "- Documentation agents (focused on technical writing)\n" ++
  "\n" ++
  "## Profile Configuration\n" ++
  "Each profile defines:\n" ++
  "- Agent specialization and focus areas\n" ++
  "- Context preferences and priorities\n" ++
  "- Quality standards and validation criteria\n" ++
  "- Communication style and output format\n" ++
  "\n" ++
  "## Examples\n" ++
  "- implementation.yaml - Configuration for implementation-focused agents\n" ++
  "- review.yaml - Configuration for code review agents\n" ++
  "- testing.yaml - Configuration for testing-focused agents\n" ++
  "- docs.yaml - Configuration for documentation agents\n" ++
  "\n" ++
  "## Multi-Agent Orchestration\n" ++
  "Profiles are used by the orchestration system to:\n" ++
  "- Route tasks to appropriate specialized agents\n" ++
  "- Configure agent behavior and priorities\n" ++
  "- Coordinate collaboration between agents\n" ++
  "- Aggregate results from multiple agents\n"

/-- Go function `getVerificationTemplate`. -/
def getVerificationTemplate : String :=
  "# Verification Directory\n" ++
  "\n" ++
  "This directory contains verification and quality assurance configurations, test results, and compliance documentation.\n" ++
  "\n" ++
  "## Purpose\n" ++
  "Verification provides:\n" ++
  "- Automated quality checks and validation rules\n" ++
  "- Test coverage reports and metrics\n" ++
  "- Compliance documentation and audit trails\n" ++
  "- Verification status tracking across the project lifecycle\n" ++
  "\n" ++
  "## Verification Types\n" ++
  "- spec-completeness.md - Specification completeness checks\n" ++
  "- implementation-coverage.md - Implementation coverage validation\n" ++
  "- test-coverage.md - Test coverage requirements and reports\n" ++
  "- acceptance-criteria.md - Acceptance criteria fulfillment tracking\n" ++
  "\n" ++
  "## Quality Reports\n" ++
  "- Generate automated reports on specification quality\n" ++
  "- Track implementation coverage against specifications\n" ++
  "- Monitor test coverage and quality metrics\n" ++
  "- Validate acceptance criteria fulfillment\n" ++
  "\n" ++
  "## Integration\n" ++
  "Verification integrates with:\n" ++
  "- CI/CD pipelines for automated quality gates\n" ++
  "- Issue trackers for verification status updates\n" ++
  "- Code review tools for quality enforcement\n" ++
  "- Deployment systems for release validation\n"

/-- Go function `getVisualsTemplate`. -/
def getVisualsTemplate : String :=
  "# Visuals Directory\n" ++
  "\n" ++
  "This directory contains diagrams, architecture visuals, UI mockups, and other visual documentation that supports specifications and design decisions.\n" ++
  "\n" ++
  "## Purpose\n" ++
  "Visual documentation provides:\n" ++
  "- Architecture diagrams and system overviews\n" ++
  "- UI mockups and design specifications\n" ++
  "- Flow charts and process diagrams\n" ++
  "- Data model and relationship diagrams\n" ++
  "\n" ++
  "## Supported Formats\n" ++
  "- Mermaid diagrams (embedded in markdown)\n" ++
  "- PlantUML diagrams\n" ++
  "- SVG graphics and illustrations\n" ++
  "- PNG/JPG images and screenshots\n" ++
  "\n" ++
  "## Organization\n" ++
  "- architecture/ - System architecture diagrams\n" ++
  "- ui/ - User interface mockups and designs\n" ++
  "- flows/ - Process and workflow diagrams\n" ++
  "- data/ - Data model and database diagrams\n" ++
  "\n" ++
  "## Integration\n" ++
  "Visual documentation integrates with:\n" ++
  "- Specifications (embedded diagrams and mockups)\n" ++
  "- Design systems and style guides\n" ++
  "- Documentation generation tools\n" ++
  "- Collaborative design platforms\n" ++
  "\n" ++
  "## Examples\n" ++
  "```mermaid\n" ++
  "graph TD\n" ++
  "    A[User Request] --> B[Authentication]\n" ++
  "    B --> C[Business Logic]\n" ++
  "    C --> D[Database]\n" ++
  "    D --> E[Response]\n" ++
  "```\n"

/-- `filepath.Join(dir, name)` for a clean directory path and a plain name. -/
def filepathJoin (dir name : String) : String :=
  dir ++ "/" ++ name

/-- Go function `configFileExists`: `(true, nil)` when `os.Stat` succeeds,
`(false, nil)` when it reports that the file does not exist, and
`(false, err)` for any other failure. -/
def configFileExists (w : World) : Bool × Option Error :=
  match stat w ".spekka/config.yaml" with
  | .ok _ => (true, none)
  | .error errno =>
    if errno = .ENOENT then (false, none)
    else (false, some (.path "stat" ".spekka/config.yaml" errno))

/-- Go function `runDryRun`: prints the plan and returns `nil`. -/
def runDryRun (w : World) : Option Error × World :=
  let w := w.print "Dry run mode - showing planned actions:"
  let w := w.print ""
  let w := w.print "Directories to be created:"
  let w := spekkaDirectories.foldl (fun w dir => w.print ("  - " ++ dir ++ "/")) w
  let w := w.print ""
  let w := w.print "Files to be created:"
  let w := w.print "  - .spekka/config.yaml"
  let w := spekkaDirectories.foldl (fun w dir => w.print ("  - " ++ dir ++ "/README.md")) w
  let w := w.print ""
  let w := w.print "Configuration file preview:"
  let w := w.print getConfigTemplate
  (none, w)

/-- The name `backupExistingConfig` renames the configuration file to at
time `t`. -/
def backupName (t : Time) : String :=
  ".spekka/config.yaml.backup-" ++ t.Format

/-- Go function `backupExistingConfig`. The error of `configFileExists` is
dropped, as in the source. -/
def backupExistingConfig (w : World) : Option Error × World :=
  if !(configFileExists w).1 then (none, w)
  else
    let timestamp := w.now.Format
    let backupName := ".spekka/config.yaml.backup-" ++ timestamp
    match rename w ".spekka/config.yaml" backupName with
    | .error errno => (some (.link "rename" ".spekka/config.yaml" backupName errno), w)
    | .ok w1 => (none, w1.print ("Existing configuration backed up to: " ++ backupName))

/-- The loop of `createDirectoryStructure` over the directories still to do. -/
def createDirectories : List String → World → Option Error × World
  | [], w => (none, w)
  | dir :: rest, w =>
    match MkdirAll w dir with
    | (some err, w1) => (some (.wrap ("failed to create directory " ++ dir ++ ": ") err), w1)
    | (none, w1) => createDirectories rest w1

/-- Go function `createDirectoryStructure`. -/
def createDirectoryStructure (w : World) : Option Error × World :=
  createDirectories spekkaDirectories w

/-- Go function `generateConfigFile`. -/
def generateConfigFile (w : World) : Option Error × World :=
  let config := getConfigTemplate
  match writeFile w ".spekka/config.yaml" config with
  | .error errno => (some (.path "open" ".spekka/config.yaml" errno), w)
  | .ok w1 => (none, w1)

/-- The map literal `templates` of `createTemplateFiles`, in source order. -/
def templates : List (String × String) :=
  [ (".spekka/standards/README.md", getStandardsTemplate),
    (".spekka/product/README.md", getProductTemplate),
    (".spekka/specs/README.md", getSpecsTemplate),
    (".spekka/tasks/README.md", getTasksTemplate),
    (".spekka/skills/README.md", getSkillsTemplate),
    (".spekka/profiles/README.md", getProfilesTemplate),
    (".spekka/verification/README.md", getVerificationTemplate),
    (".spekka/visuals/README.md", getVisualsTemplate) ]

/-- The first loop of `createTemplateFiles`, over the map entries still to
visit. -/
def writeTemplates : List (String × String) → World → Option Error × World
  | [], w => (none, w)
  | (filePath, content) :: rest, w =>
    match writeFile w filePath content with
    | .error errno =>
      (some (.wrap ("failed to create template file " ++ filePath ++ ": ")
        (.path "open" filePath errno)), w)
    | .ok w1 => writeTemplates rest w1

/-- The second loop of `createTemplateFiles`, over the directories still to
visit. -/
def writeGitkeeps : List String → World → Option Error × World
  | [], w => (none, w)
  | dir :: rest, w =>
    let gitkeepPath := filepathJoin dir ".gitkeep"
    match writeFile w gitkeepPath "" with
    | .error errno =>
      (some (.wrap ("failed to create .gitkeep in " ++ dir ++ ": ")
        (.path "open" gitkeepPath errno)), w)
    | .ok w1 => writeGitkeeps rest w1

/-- Go function `createTemplateFiles`. `order` is the sequence in which
`range` visits the entries of the map `templates`: Go leaves it unspecified,
so it is an input, some permutation of `templates`. -/
def createTemplateFiles (order : List (String × String)) (w : World) :
    Option Error × World :=
  match writeTemplates order w with
  | (some err, w1) => (some err, w1)
  | (none, w1) => writeGitkeeps spekkaDirectories w1

/-- Go function `displaySuccessMessage`. -/
def displaySuccessMessage (w : World) : World :=
  let w := w.print "âœ… Spekka installation completed successfully!"
  let w := w.print ""
  let w := w.print "Created directories:"
  let w := spekkaDirectories.foldl (fun w dir => w.print ("  - " ++ dir ++ "/")) w
  let w := w.print ""
  let w := w.print "Created files:"
  let w := w.print "  - .spekka/config.yaml (configuration)"
  let w := spekkaDirectories.foldl
    (fun w dir => w.print ("  - " ++ dir ++ "/README.md (template)")) w
  let w := w.print ""
  let w := w.print "ðŸš€ Next steps:"
  let w := w.print "  1. Review and customize .spekka/config.yaml for your project"
  let w := w.print "  2. Run 'spekka setup-project' to configure project-specific settings"
  let w := w.print "  3. Add your coding standards to the .spekka/standards/ directory"
  let w := w.print "  4. Document your product vision in the .spekka/product/ directory"
  let w := w.print "  5. Start creating specifications with 'spekka create-spec'"
  let w := w.print ""
  let w := w.print "ðŸ“š Documentation: https://github.com/jreitano/spekka#getting-started"
  w

/-- Go function `runInstall`, with the two flags it reads from the command
as arguments. -/
def runInstall (force dryRun : Bool) (order : List (String × String)) (w : World) :
    Option Error × World :=
  -- Check for existing installation
  match (if !force then
      (match configFileExists w with
       | (_, some err) => some (Error.wrap "failed to check for existing installation: " err)
       | (true, none) => some (Error.text
          "Spekka is already installed in this directory.\nUse --force to reinstall or choose a different directory")
       | (false, none) => none)
    else none) with
  | some err => (some err, w)
  | none =>
    if dryRun then runDryRun w
    else
      -- Backup existing config if force is used
      match (if force then backupExistingConfig w else (none, w)) with
      | (some err, w1) =>
        (some (.wrap "failed to backup existing configuration: " err), w1)
      | (none, w1) =>
        -- Create directory structure
        match createDirectoryStructure w1 with
        | (some err, w2) => (some (.wrap "failed to create directory structure: " err), w2)
        | (none, w2) =>
          -- Generate configuration file
          match generateConfigFile w2 with
          | (some err, w3) =>
            (some (.wrap "failed to generate configuration file: " err), w3)
          | (none, w3) =>
            -- Create template files
            match createTemplateFiles order w3 with
            | (some err, w4) => (some (.wrap "failed to create template files: " err), w4)
            | (none, w4) =>
              -- Display success message
              (none, displaySuccessMessage w4)

/-! ### Observations used in the statements -/

/-- Splits at every newline, as `strings.Split(s, "\n")`. -/
def splitLinesAux : List Char → List Char → List String
  | acc, [] => [String.mk acc]
  | acc, c :: cs =>
    if c = '\n' then String.mk acc :: splitLinesAux [] cs
    else splitLinesAux (acc ++ [c]) cs

/-- The lines of a text. -/
def lines (s : String) : List String :=
  splitLinesAux [] s.data

/-- Whether a path matches the pattern `.spekka/config.yaml.backup-*` of
`filepath.Glob`: the fixed prefix, then any characters but the separator. -/
def matchesBackupPattern (p : String) : Bool :=
  ".spekka/config.yaml.backup-".data.isPrefixOf p.data &&
    !(p.data.drop ".spekka/config.yaml.backup-".length).contains '/'

/-- The existing paths that match the backup pattern, each once:
`filepath.Glob(".spekka/config.yaml.backup-*")`. -/
def backupFiles (fs : FS) : List String :=
  ((fs.entries.map Prod.fst).dedup).filter (fun p => matchesBackupPattern p)

/-! ### Auxiliary notions for the proofs -/

/-- The marker files a list of directories gets, as entries for the template
loop. -/
def gitkeepEntries (dirs : List String) : List (String × String) :=
  dirs.map (fun dir => (filepathJoin dir ".gitkeep", ""))

/-- The paths `createDirectories` may create. -/
def touchedByMkdir (dirs : List String) : List String :=
  dirs.flatMap (fun p => p :: (ancestors p).reverse)

/-- The backup step of `runInstall`: taken only under `--force`. -/
def afterBackup (force : Bool) (w : World) : Option Error × World :=
  if force then backupExistingConfig w else (none, w)

/-- Every path a run of the installer may create or overwrite after the
backup step. -/
def installedPaths : List String :=
  touchedByMkdir spekkaDirectories ++ [".spekka/config.yaml"] ++
    templates.map Prod.fst ++ (gitkeepEntries spekkaDirectories).map Prod.fst

/-! ### Sample worlds -/

/-- A clock reading used in the examples: 2024-03-09 07:05:01. -/
def sampleTime : Time :=
  ⟨2024, 3, 9, 7, 5, 1⟩

/-- An empty invocation directory, with no fault injected. -/
def freshWorld : World :=
  { fs := ⟨[]⟩, out := [], now := sampleTime, deny := fun _ => false }

/-- The directory of the tests `existing installation without force` and
`force reinstallation`: `.spekka` holding a `config.yaml` with the text
`existing config`. -/
def installedWorld : World :=
  { freshWorld with
    fs := ⟨[(".spekka", .dir), (".spekka/config.yaml", .file "existing config")]⟩ }

/-- An installation that already has a backup from an earlier forced
reinstall. -/
def backedUpWorld : World :=
  { freshWorld with
    fs := ⟨[(".spekka", .dir), (".spekka/config.yaml", .file "existing config"),
      (".spekka/config.yaml.backup-20200101-000000", .file "older config")]⟩ }

/-- An installation whose configuration file is still the generated default. -/
def defaultWorld : World :=
  { freshWorld with
    fs := ⟨[(".spekka", .dir), (".spekka/config.yaml", .file getConfigTemplate)]⟩ }

/-- The installation of `installedWorld` where renaming the configuration
file to its backup name is refused. -/
def lockedWorld : World :=
  { installedWorld with
    deny := fun op => decide (op = .rename ".spekka/config.yaml" (backupName sampleTime)) }

/-! ## `internal/cli/root.go`: logging set-up -/

/-- Go type `slog.Level`, an integer. -/
abbrev Level := Int

/-- Go constant `slog.LevelDebug`. -/
def LevelDebug : Level := -4

/-- Go constant `slog.LevelInfo`. -/
def LevelInfo : Level := 0

/-- Go constant `slog.LevelWarn`. -/
def LevelWarn : Level := 4

/-- Go constant `slog.LevelError`. -/
def LevelError : Level := 8

/-- What `slog.New(slog.NewTextHandler(os.Stdout, opts))` builds, as far as
the program can tell loggers apart: a text handler on standard output with
the minimum level of `opts`. -/
structure Logger where
  level : Level
deriving DecidableEq, Repr

/-- The package-level variables of `root.go` that `setupLogging` reads or
writes, with their Go zero values; `logger` is a pointer, `none` is `nil`. -/
structure Globals where
  verbose : Bool := false
  debug : Bool := false
  quiet : Bool := false
  logLevel : Level := 0
  logger : Option Logger := none
deriving DecidableEq, Repr

/-- Go function `setupLogging`. -/
def setupLogging (g : Globals) : Globals :=
  -- Determine log level based on flags
  let logLevel :=
    if g.quiet then LevelError
    else if g.debug then LevelDebug
    else if g.verbose then LevelInfo
    else LevelInfo
  -- Create logger with appropriate level
  { g with logLevel := logLevel, logger := some { level := logLevel } }

/-- Go function `GetLogger`: the configured logger, set up on first use. -/
def GetLogger (g : Globals) : Option Logger × Globals :=
  let g := if g.logger = none then setupLogging g else g
  (g.logger, g)

/-! ## Paths: `filepath.Clean`, `filepath.Dir`, `filepath.Join` (Unix) -/

/-- Splits a path at every separator:
`splitPath "/a//b" = ["", "a", "", "b"]`. -/
def splitPathAux : List Char → List Char → List String
  | acc, [] => [String.mk acc]
  | acc, c :: cs =>
    if c = '/' then String.mk acc :: splitPathAux [] cs
    else splitPathAux (acc ++ [c]) cs

/-- The segments of a path between its separators. -/
def splitPath (p : String) : List String :=
  splitPathAux [] p.data

/-- The element loop of `filepath.Clean`. `stack` holds the elements kept so
far, last one first. Empty and `.` segments are dropped; `..` removes the
element before it, is dropped at the root, and is kept at the start of a
relative path. -/
def cleanElements (rooted : Bool) : List String → List String → List String
  | stack, [] => stack.reverse
  | stack, seg :: rest =>
    if seg = "" ∨ seg = "." then cleanElements rooted stack rest
    else if seg = ".." then
      match stack with
      | [] =>
        if rooted then cleanElements rooted [] rest
        else cleanElements rooted [".."] rest
      | top :: below =>
        if top = ".." then cleanElements rooted (".." :: top :: below) rest
        else cleanElements rooted below rest
    else cleanElements rooted (seg :: stack) rest

/-- The elements written with one separator between neighbours. -/
def joinElements : List String → List Char
  | [] => []
  | [a] => a.data
  | a :: b :: rest => a.data ++ '/' :: joinElements (b :: rest)

/-- The text of a cleaned path: a leading separator when rooted, `.` for
the empty relative path. -/
def renderPath (rooted : Bool) (elems : List String) : String :=
  String.mk
    (if rooted then '/' :: joinElements elems
     else if elems.isEmpty then ['.'] else joinElements elems)

/-- Whether a path starts with the separator. -/
def isRooted (p : String) : Bool :=
  p.data.head? = some '/'

/-- Go function `filepath.Clean`. -/
def Clean (p : String) : String :=
  renderPath (isRooted p) (cleanElements (isRooted p) [] (splitPath p))

/-- Go function `filepath.Dir`: `Clean` of the path up to and including its
last separator. -/
def Dir (p : String) : String :=
  Clean (String.mk (p.data.reverse.dropWhile (fun c => c ≠ '/')).reverse)

/-- Go function `filepath.Join`: the non-empty elements joined by
separators, then cleaned; the empty string when there is none. -/
def Join (elems : List String) : String :=
  let kept := elems.filter (fun e => e ≠ "")
  if kept.isEmpty then "" else Clean (String.mk (joinElements kept))

/-! ## `internal/config`: `LoadConfig` -/

/-- What `LoadConfig` reads from the machine it runs on: the result of
`os.Getwd()`, the result of `os.UserHomeDir()`, the filesystem by absolute
path, and the environment as `os.Getenv` reads it (the empty string for a
variable that is not set). -/
structure Host where
  getwd : Except Error String
  home : Except Error String
  files : String → Option Node
  getenv : String → String := fun _ => ""

/-- The fields of a `*viper.Viper` that `LoadConfig` sets. -/
structure Viper where
  configName : String
  configType : String
  configPaths : List String
deriving DecidableEq, Repr

/-- Go function `viper.New`: the default name is `config`, no type and no
path. -/
def Viper.New : Viper :=
  { configName := "config", configType := "", configPaths := [] }

/-- Go method `(*Viper).SetConfigName`. -/
def Viper.SetConfigName (v : Viper) (name : String) : Viper :=
  if name = "" then v else { v with configName := name }

/-- Go method `(*Viper).SetConfigType`. -/
def Viper.SetConfigType (v : Viper) (type : String) : Viper :=
  if type = "" then v else { v with configType := type }

/-! ### Environment variables in a path: `os.Expand` -/

/-- Go function `isShellSpecialVar` of package `os`. -/
def isShellSpecialVar (c : Char) : Bool :=
  c ∈ ['*', '#', '$', '@', '!', '?', '-', '0', '1', '2', '3', '4', '5', '6', '7', '8', '9']

/-- Go function `isAlphaNum` of package `os`. -/
def isAlphaNum (c : Char) : Bool :=
  c = '_' || (decide ('0' ≤ c) && decide (c ≤ '9')) || (decide ('a' ≤ c) && decide (c ≤ 'z')) ||
    (decide ('A' ≤ c) && decide (c ≤ 'Z'))

/-- The name between braces, for the text after an opening brace: the
text up to the closing brace, with the number of characters used counting
both braces. Without a closing brace, and for an empty name, the name is
empty and the opening brace (with the closing one, if there) is used up. -/
def bracedName (rest : List Char) : String × Nat :=
  let name := rest.takeWhile (fun c => c ≠ '\x7d')
  if name.length = rest.length then ("", 1)  -- Bad syntax; eat the opening brace
  else if name = [] then ("", 2)  -- Bad syntax; eat both braces
  else (String.mk name, name.length + 2)

/-- Go function `getShellName` of package `os`: the name that follows a
`$` and how many characters it takes up. -/
def getShellName : List Char → String × Nat
  | [] => ("", 0)
  | '\x7b' :: rest =>
    match rest with
    | c :: '\x7d' :: _ =>
      if isShellSpecialVar c then (String.singleton c, 3) else bracedName rest
    | _ => bracedName rest
  | c :: rest =>
    if isShellSpecialVar c then (String.singleton c, 1)
    else
      let name := (c :: rest).takeWhile isAlphaNum
      (String.mk name, name.length)

/-- The loop of `os.Expand` from a position on: a `$` that is not the last
character is replaced, with the name after it, by the value of the name;
nothing is written for bad syntax, and the `$` stays when no name follows.
The first argument bounds the iterations; `Expand` passes the length of the
text, which is enough as every iteration uses up a character. -/
def expandAux (mapping : String → String) : Nat → List Char → List Char
  | 0, s => s
  | _ + 1, [] => []
  | fuel + 1, c :: rest =>
    if c = '$' ∧ rest ≠ [] then
      let name := (getShellName rest).1
      let w := (getShellName rest).2
      let out :=
        if name = "" ∧ 0 < w then []
        else if name = "" then ['$']
        else (mapping name).data
      out ++ expandAux mapping fuel (rest.drop w)
    else c :: expandAux mapping fuel rest

/-- Go function `os.Expand`. -/
def Expand (s : String) (mapping : String → String) : String :=
  String.mk (expandAux mapping s.length s.data)

/-- Go function `os.ExpandEnv` on a machine. -/
def ExpandEnv (host : Host) (s : String) : String :=
  Expand s host.getenv

/-- Go function `absPathify` of viper: a leading `$HOME` is replaced by the
home directory of the environment, environment variables are expanded, and
the path is cleaned, after joining it to the working directory if it is
relative. When the working directory cannot be read the result is empty. -/
def absPathify (host : Host) (inPath : String) : String :=
  let inPath :=
    if inPath = "$HOME" ∨ "$HOME/".data.isPrefixOf inPath.data then
      host.getenv "HOME" ++ String.mk (inPath.data.drop 5)
    else inPath
  let inPath := ExpandEnv host inPath
  if isRooted inPath then Clean inPath
  else
    match host.getwd with
    | .ok wd => Clean (Join [wd, inPath])
    | .error _ => ""

/-- Go method `(*Viper).AddConfigPath`: a non-empty path is made absolute and
clean, and added after the paths already there unless it is one of them. -/
def Viper.AddConfigPath (v : Viper) (host : Host) (path : String) : Viper :=
  if path = "" then v
  else
    let absin := absPathify host path
    if absin ∈ v.configPaths then v
    else { v with configPaths := v.configPaths ++ [absin] }

/-- The parts of viper that are parameters of the model: the file names it
tries in a directory for a configuration name and type, in the order tried
(viper itself tries `supportedNames`: the name with each supported
extension, then the bare name), the decoding of YAML text into settings,
and `Unmarshal` from the settings into a `Config`. -/
structure ViperLib where
  fileNames : String → String → List String
  Settings : Type
  parse : String → Except Error Settings
  unmarshal : Settings → Except Error Config

/-- The files viper looks at, in order: for each search path in the order
added, each candidate name. -/
def Viper.candidates (lib : ViperLib) (v : Viper) : List String :=
  v.configPaths.flatMap (fun dir =>
    (lib.fileNames v.configName v.configType).map (fun name => Join [dir, name]))

/-- The configuration file viper settles on: the first candidate that is a
regular file. -/
def Viper.findConfigFile (lib : ViperLib) (files : String → Option Node) (v : Viper) :
    Option String :=
  (v.candidates lib).find? (fun f => isFile (files f))

/-- The errors of `ReadInConfig`, as far as `LoadConfig` tells them apart:
`viper.ConfigFileNotFoundError` and everything else. -/
inductive ReadError where
  | notFound (name : String) (locations : List String)
  | other (err : Error)
deriving DecidableEq, Repr

/-- A `ReadError` as a Go `error`. -/
def ReadError.toError : ReadError → Error
  | .notFound name locations =>
    .text ("Config File \"" ++ name ++ "\" Not Found in \"" ++ fmtStrings locations ++ "\"")
  | .other err => err

/-- Go method `(*Viper).ReadInConfig`: find the file, read it, decode it. A
decoding failure comes back as viper's `ConfigParseError`, which wraps it. -/
def Viper.ReadInConfig (lib : ViperLib) (files : String → Option Node) (v : Viper) :
    Except ReadError lib.Settings :=
  match v.findConfigFile lib files with
  | none => .error (.notFound v.configName v.configPaths)
  | some filename =>
    match files filename with
    | some (.file content) =>
      match lib.parse content with
      | .error err => .error (.other (.wrap "While parsing config: " err))
      | .ok settings => .ok settings
    | some .dir => .error (.other (.path "read" filename .EISDIR))
    | none => .error (.other (.path "open" filename .ENOENT))

/-- The loop of `LoadConfig` that adds the working directory and its
ancestors: add `searchPath`, stop when `filepath.Dir` returns it unchanged,
else go on with the parent. `none` when the iterations allowed run out. -/
def addAncestors (host : Host) : Nat → String → Viper → Option Viper
  | 0, _, _ => none
  | fuel + 1, searchPath, v =>
    let v := v.AddConfigPath host searchPath
    if searchPath = Dir searchPath then some v  -- Reached filesystem root
    else addAncestors host fuel (Dir searchPath) v

/-- The viper instance of `LoadConfig` when `ReadInConfig` is called: name
and type set, the working directory and its ancestors added, then the home
directory when `os.UserHomeDir` gives one. The loop is given three more
iterations than the working directory has characters, which is enough for
every path. -/
def configuredViper (host : Host) (wd : String) : Option Viper :=
  let v := Viper.New
  let v := v.SetConfigName ".spekka"
  let v := v.SetConfigType "yaml"
  match addAncestors host (wd.length + 3) wd v with
  | none => none
  | some v =>
    match host.home with
    | .ok home => some (v.AddConfigPath host home)
    | .error _ => some v

/-- Go function `LoadConfig`. The result is the pair `(*Config, error)`;
the outer `none` stands for a run that never leaves the ancestor loop. -/
def LoadConfig (required : Bool) (lib : ViperLib) (host : Host) :
    Option (Option Config × Option Error) :=
  match host.getwd with
  | .error err => some (none, some (.wrap "failed to get working directory: " err))
  | .ok wd =>
    match configuredViper host wd with
    | none => none
    | some v =>
      match v.ReadInConfig lib host.files with
      | .error (.notFound name locations) =>
        if required then
          some (none, some (.wrap "configuration file .spekka.yaml not found: "
            (ReadError.notFound name locations).toError))
        else
          -- Return empty config if not required
          some (some {}, none)
      | .error (.other err) => some (none, some (.wrap "failed to read configuration file: " err))
      | .ok settings =>
        match lib.unmarshal settings with
        | .error err => some (none, some (.wrap "failed to parse configuration: " err))
        | .ok cfg => some (some cfg, none)

/-- A proper directory name: not empty, not `.` or `..`, without separator. -/
def isName (s : String) : Bool :=
  s ≠ "" && s ≠ "." && s ≠ ".." && !s.data.contains '/'

/-- The clean absolute path with the given components:
`absPath ["home", "u"] = "/home/u"` and `absPath [] = "/"`. -/
def absPath (comps : List String) : String :=
  renderPath true comps

/-- The search paths the ancestor loop adds for the directory with the given
components: the directory itself, then each ancestor, nearest first, down
to the root. -/
def ancestorChain (comps : List String) : List String :=
  comps.inits.reverse.map absPath

/-- The elements of a cleaned path: `..` elements first (none when rooted),
then proper names. -/
def NormalElems (rooted : Bool) (elems : List String) : Prop :=
  ∃ k names, elems = List.replicate k ".." ++ names ∧ (∀ s ∈ names, isName s = true) ∧
    (rooted = true → k = 0)

/-! ### More sample worlds -/

/-- An empty invocation directory in which creating `.spekka/specs`, the
third manifest directory, is refused. -/
def blockedWorld : World :=
  { freshWorld with deny := fun op => decide (op = .mkdir ".spekka/specs") }

/-- An empty invocation directory in which writing `.spekka/config.yaml` is
refused. -/
def readOnlyConfigWorld : World :=
  { freshWorld with deny := fun op => decide (op = .writeFile ".spekka/config.yaml") }

/-- An installation whose `README.md` of the standards directory was edited
by its user, and whose marker file there has a note in it. -/
def customizedWorld : World :=
  { freshWorld with
    fs := ⟨[(".spekka", .dir), (".spekka/config.yaml", .file "existing config"),
      (".spekka/standards", .dir),
      (".spekka/standards/README.md", .file "team standards"),
      (".spekka/standards/.gitkeep", .file "keep me")]⟩ }

/-! ### Reading the output of the dry run -/

/-- The lines of an output after the line `header`, up to the next empty
line. -/
def listedUnder (header : String) (out : List String) : List String :=
  ((out.dropWhile (fun l => l ≠ header)).drop 1).takeWhile (fun l => l ≠ "")

/-- The path on a list line: the text after the bullet `  - `. -/
def listedPath (line : String) : String :=
  String.mk (line.data.drop 4)

/-- The path without the separator that ends it, if there is one. -/
def withoutTrailingSeparator (p : String) : String :=
  if p.data.getLast? = some '/' then String.mk p.data.dropLast else p

/-- The directory paths an output lists under `Directories to be created:`
(each is printed with a separator at its end). -/
def listedDirectories (out : List String) : List String :=
  (listedUnder "Directories to be created:" out).map
    (fun l => withoutTrailingSeparator (listedPath l))

/-- The file paths an output lists under `Files to be created:`. -/
def listedFiles (out : List String) : List String :=
  (listedUnder "Files to be created:" out).map listedPath

/-- The lines `runDryRun` prints, in order. -/
def dryRunLines : List String :=
  ["Dry run mode - showing planned actions:", "", "Directories to be created:"] ++
    spekkaDirectories.map (fun dir => "  - " ++ dir ++ "/") ++
    ["", "Files to be created:", "  - .spekka/config.yaml"] ++
    spekkaDirectories.map (fun dir => "  - " ++ dir ++ "/README.md") ++
    ["", "Configuration file preview:", getConfigTemplate]

/-- The home directory as a list of search paths to add after the paths
`known`: the home directory, absolute and clean; none when `os.UserHomeDir`
fails, when it gives the empty string, and when the path is in `known`
already. -/
def homePaths (host : Host) (known : List String) : List String :=
  match host.home with
  | .ok home =>
    if home = "" ∨ absPathify host home ∈ known then [] else [absPathify host home]
  | .error _ => []

/-- The path below the directory `wd` that an absolute path names, if it
lies below `wd`. -/
def relativeTo (wd path : String) : Option String :=
  let pre := if wd.data.getLast? = some '/' then wd.data else wd.data ++ ['/']
  if pre.isPrefixOf path.data && decide (pre.length < path.data.length) then
    some (String.mk (path.data.drop pre.length))
  else none

/-- The machine as `LoadConfig` sees it when the invocation directory of
the world `w` is the directory `wd`: paths below `wd` are looked up in the
tree of `w`, all others in `outside`. -/
def Host.ofWorld (wd : String) (home : Except Error String)
    (outside : String → Option Node) (w : World) : Host :=
  { getwd := .ok wd
    home := home
    files := fun path =>
      match relativeTo wd path with
      | some rel => w.fs.get rel
      | none => outside path }

/-! ### Sample machines -/

/-- The YAML text of the test `TestLoadConfig_InvalidYAML`. -/
def invalidYaml : String :=
  "project:\n  name: test-project\n  invalid: yaml: syntax\n"

/-- The one file name `<name>.<type>`, which is the file the docstring of
`LoadConfig` names. Viper itself tries more names, those of
`supportedNames`; this shorter list only serves to show that a result is
the same for both. -/
def documentedNames (name type : String) : List String :=
  [name ++ "." ++ type]

/-- Go variable `viper.SupportedExts`. -/
def SupportedExts : List String :=
  ["json", "toml", "yaml", "yml", "properties", "props", "prop", "hcl", "tfvars", "dotenv",
    "env", "ini"]

/-- Go method `(*Viper).searchInPath`, the names it tries in a directory
when a configuration type is set: the name with each supported extension,
in the order of `SupportedExts`, then the bare name. -/
def supportedNames (name type : String) : List String :=
  SupportedExts.map (fun ext => name ++ "." ++ ext) ++ (if type = "" then [] else [name])

/-- A stand-in for viper in the examples, for a given choice of file names:
the settings are the text itself, the text `invalidYaml` is rejected the
way a YAML decoder rejects it, and every other text decodes to the zero
configuration. -/
def sampleLib (names : String → String → List String) : ViperLib :=
  { fileNames := names
    Settings := String
    parse := fun text =>
      if text = invalidYaml then
        .error (.text "yaml: line 3: mapping values are not allowed in this context")
      else .ok text
    unmarshal := fun _ => .ok {} }

/-- The directories of the sample machines. -/
def sampleOutside (path : String) : Option Node :=
  if path ∈ ["/", "/work", "/work/project", "/home", "/home/user"] then some .dir else none

/-- A machine with working directory `/work/project`, home directory
`/home/user`, and no configuration file anywhere. -/
def bareHost : Host :=
  { getwd := .ok "/work/project", home := .ok "/home/user", files := sampleOutside }

/-- The machine of the test `TestLoadConfig_InvalidYAML`: `bareHost` with
the text `invalidYaml` in `.spekka.yaml` of the working directory. -/
def brokenYamlHost : Host :=
  { bareHost with
    files := fun path =>
      if path = "/work/project/.spekka.yaml" then some (.file invalidYaml)
      else sampleOutside path }

/-- The machine `bareHost` with an empty file `.spekka.yml`, and no other
configuration file, in the working directory. -/
def ymlHost : Host :=
  { bareHost with
    files := fun path =>
      if path = "/work/project/.spekka.yml" then some (.file "")
      else sampleOutside path }

/-- A machine whose working directory `/home/user/project` lies below the
home directory `/home/user`, with no configuration file anywhere. -/
def homeProjectHost : Host :=
  { getwd := .ok "/home/user/project", home := .ok "/home/user",
    files := fun path =>
      if path ∈ ["/", "/home", "/home/user", "/home/user/project"] then some .dir else none }

/-- The sample machine after a first installation in its empty working
directory `/work/project`. -/
def installedHost : Host :=
  Host.ofWorld "/work/project" (.ok "/home/user") sampleOutside
    (runInstall false false templates freshWorld).2

/-! ### Clock readings, instants and the order of backup names -/

/-- The decimal digits of `n` in exactly `width` places, most significant
first (the places of `n` modulo `10 ^ width`). -/
def fixedDigits : Nat → Nat → List Char
  | 0, _ => []
  | width + 1, n => fixedDigits width (n / 10) ++ [Nat.digitChar (n % 10)]

/-- The layout `YYYYMMDD-HHMMSS` as the specification words it: the year in
four places, month and day in two each, a hyphen, then hour, minute and
second in two places each, every field padded with zeros. -/
def layoutYYYYMMDD_HHMMSS (t : Time) : List Char :=
  fixedDigits 4 t.year ++ (fixedDigits 2 t.month ++ (fixedDigits 2 t.day ++ ('-' ::
    (fixedDigits 2 t.hour ++ (fixedDigits 2 t.minute ++ fixedDigits 2 t.second)))))

/-- A clock reading with a year of at most four digits and the other
fields within the calendar and the clock. -/
def Time.InRange (t : Time) : Prop :=
  t.year ≤ 9999 ∧ t.month ≤ 12 ∧ t.day ≤ 31 ∧ t.hour ≤ 23 ∧ t.minute ≤ 59 ∧ t.second ≤ 59

instance (t : Time) : Decidable t.InRange := by
  unfold Time.InRange; infer_instance

/-- Chronological order of two clock readings of one time zone (with one
offset from UTC): year first, then month, day, hour, minute and second. -/
def Time.le (a b : Time) : Prop :=
  a.year < b.year ∨ (a.year = b.year ∧
    (a.month < b.month ∨ (a.month = b.month ∧
      (a.day < b.day ∨ (a.day = b.day ∧
        (a.hour < b.hour ∨ (a.hour = b.hour ∧
          (a.minute < b.minute ∨ (a.minute = b.minute ∧ a.second ≤ b.second)))))))))

instance (a b : Time) : Decidable (a.le b) := by
  unfold Time.le; infer_instance

/-- A value of `time.Now()`: the clock reading to the second and the
nanoseconds within that second. The layout `20060102-150405` prints the
reading and drops the nanoseconds. -/
structure Instant where
  reading : Time
  nanosecond : Nat
deriving DecidableEq, Repr

/-- The name `backupExistingConfig` computes at an instant. -/
def Instant.backupName (i : Instant) : String :=
  Spekka.backupName i.reading

/-- The world in which `time.Now()` returns the instant `i`. -/
def World.atInstant (w : World) (i : Instant) : World :=
  { w with now := i.reading }

/-- An instant of the examples: 2024-03-09 07:05:01.0. -/
def firstInstant : Instant :=
  ⟨sampleTime, 0⟩

/-- Half a second after `firstInstant`. -/
def secondInstant : Instant :=
  ⟨sampleTime, 500000000⟩

/-- The installation of the test `force reinstallation` after a forced
reinstall at `firstInstant`. -/
def firstReinstall : World :=
  (runInstall true false templates (installedWorld.atInstant firstInstant)).2

/-- A second forced reinstall, at `secondInstant`, on top of the first. -/
def secondReinstall : Option Error × World :=
  runInstall true false templates (firstReinstall.atInstant secondInstant)

/-! ### Writes that can succeed -/

/-- What `os.WriteFile` needs of the world to succeed at `p`: the call is
not refused, the ancestors of `p` are directories and `p` is no directory. -/
def Writable (w : World) (p : String) : Prop :=
  w.deny (.writeFile p) = false ∧ resolveDir w.fs p = none ∧ w.fs.get p ≠ some .dir

/-- A fresh directory after `createDirectoryStructure`. -/
def preparedWorld : World :=
  (createDirectoryStructure freshWorld).2

/-- The prepared directory in which writing the `README.md` of the product
is refused. -/
def refusedTemplateWorld : World :=
  { preparedWorld with
    deny := fun op => decide (op = .writeFile ".spekka/product/README.md") }

/-- The prepared directory in which writing the `.gitkeep` of the specs is
refused. -/
def refusedGitkeepWorld : World :=
  { preparedWorld with
    deny := fun op => decide (op = .writeFile ".spekka/specs/.gitkeep") }

/-- The templates in the opposite of their order in the source. -/
def reversedOrder : List (String × String) :=
  templates.reverse

/-! ## Lemmas on the filesystem map -/

theorem FS.get_remove (fs : FS) (p q : String) :
    (fs.remove p).get q = if q = p then none else fs.get q := by
  obtain ⟨l⟩ := fs
  simp only [FS.remove, FS.get, ne_eq, decide_not]
  induction l with
  | nil => simp
  | cons e l ih =>
    by_cases h1 : e.1 = p
    · by_cases h2 : q = p
      · simp [-List.find?_filter, List.filter_cons, h1, ih, h2]
      · have hpq : ¬ p = q := fun h => h2 h.symm
        simp [-List.find?_filter, List.filter_cons, h1, ih, h2, List.find?_cons, hpq]
    · by_cases h2 : e.1 = q
      · have : ¬ q = p := fun h => h1 (h2 ▸ h)
        simp [-List.find?_filter, List.filter_cons, h1, List.find?_cons, h2, this]
      · simp [-List.find?_filter, List.filter_cons, h1, List.find?_cons, h2, ih]

theorem FS.get_set (fs : FS) (p q : String) (n : Node) :
    (fs.set p n).get q = if q = p then some n else fs.get q := by
  by_cases h : q = p
  · subst h; simp [FS.set, FS.get]
  · have h2 : ¬ p = q := fun e => h e.symm
    have := FS.get_remove fs p q
    simp only [FS.get, h, if_false] at this
    simp [-List.find?_filter, FS.set, FS.get, List.find?_cons, h, h2, this]

theorem find?_congr_mem {α : Type} (l : List α) (f g : α → Bool)
    (h : ∀ a ∈ l, f a = g a) : l.find? f = l.find? g := by
  induction l with
  | nil => rfl
  | cons x xs ih =>
    have hx : f x = g x := h x (List.mem_cons_self x xs)
    have hxs : ∀ a ∈ xs, f a = g a := fun a ha => h a (List.mem_cons_of_mem x ha)
    simp [List.find?_cons, hx, ih hxs]

/-- Path resolution only looks at the ancestors of the path. -/
theorem resolveDir_congr (fs fs' : FS) (q : String)
    (h : ∀ a ∈ ancestors q, fs'.get a = fs.get a) : resolveDir fs' q = resolveDir fs q := by
  unfold resolveDir
  have hf : (ancestors q).find? (fun a => !isDir (fs'.get a))
      = (ancestors q).find? (fun a => !isDir (fs.get a)) :=
    find?_congr_mem _ _ _ (fun a ha => by simp [h a ha])
  rw [hf]
  cases hfind : (ancestors q).find? (fun a => !isDir (fs.get a)) with
  | none => rfl
  | some a =>
    have ha : a ∈ ancestors q := List.mem_of_find?_eq_some hfind
    simp [h a ha]

theorem resolveDir_set (fs : FS) (p q : String) (n : Node) (h : p ∉ ancestors q) :
    resolveDir (fs.set p n) q = resolveDir fs q := by
  apply resolveDir_congr
  intro a ha
  have : a ≠ p := fun e => h (e ▸ ha)
  simp [FS.get_set, this]

/-- Path resolution succeeds exactly when every ancestor is a directory. -/
theorem resolveDir_eq_none (fs : FS) (q : String) :
    resolveDir fs q = none ↔ ∀ a ∈ ancestors q, fs.get a = some .dir := by
  unfold resolveDir
  cases hfind : (ancestors q).find? (fun a => !isDir (fs.get a)) with
  | none =>
    simp only [true_iff]
    intro a ha
    have := List.find?_eq_none.mp hfind a ha
    cases hg : fs.get a with
    | none => simp [hg, isDir] at this
    | some n => cases n <;> simp [hg, isDir] at this ⊢
  | some a =>
    have ha : a ∈ ancestors q := List.mem_of_find?_eq_some hfind
    have hp := List.find?_some hfind
    constructor
    · intro h
      simp only [] at h
      split at h <;> simp at h
    · intro h; simp [h a ha, isDir] at hp

theorem stat_ok_get {w : World} {p : String} {n : Node} (h : stat w p = .ok n) :
    w.fs.get p = some n := by
  unfold stat at h
  split at h
  · simp at h
  · split at h
    · simp at h; simp [*]
    · simp at h

theorem stat_eq_of_resolve {w : World} {p : String} (h : resolveDir w.fs p = none) :
    stat w p = match w.fs.get p with | some n => .ok n | none => .error .ENOENT := by
  simp [stat, h]

theorem writeFile_ok {w w1 : World} {p d : String} (h : writeFile w p d = .ok w1) :
    w1 = { w with fs := w.fs.set p (.file d) } := by
  unfold writeFile at h
  split at h
  · simp at h
  · split at h
    · simp at h
    · split at h
      · simp at h
      · simp at h; exact h.symm

theorem writeFile_succeeds {w : World} {p : String} (d : String)
    (hd : w.deny (.writeFile p) = false) (hr : resolveDir w.fs p = none)
    (hn : w.fs.get p ≠ some .dir) :
    writeFile w p d = .ok { w with fs := w.fs.set p (.file d) } := by
  unfold writeFile
  simp only [hd, hr]
  split
  · simp at *
  · rfl

theorem mkdir_ok {w w1 : World} {p : String} (h : mkdir w p = .ok w1) :
    w1 = { w with fs := w.fs.set p .dir } ∧ w.fs.get p = none  := by
  unfold mkdir at h
  split at h
  · simp at h
  · split at h
    · simp at h
    · split at h
      · simp at h
      · simp at h; exact ⟨h.symm, by assumption⟩

/-! ## Lemmas on the loops of the installer -/

/-- Outcome of the template loop on everything but the tree. -/
theorem writeTemplates_env (L : List (String × String)) (w : World) :
    (writeTemplates L w).2.out = w.out ∧ (writeTemplates L w).2.now = w.now ∧
    (writeTemplates L w).2.deny = w.deny := by
  induction L generalizing w with
  | nil => simp [writeTemplates]
  | cons e L ih =>
    obtain ⟨p, c⟩ := e
    rw [writeTemplates]
    cases h : writeFile w p c with
    | error errno => simp
    | ok w1 =>
      have := writeFile_ok h
      subst this
      simpa using ih _

/-- The template loop leaves every path alone that is not one of its keys. -/
theorem writeTemplates_frame (L : List (String × String)) (w : World) (q : String)
    (hq : q ∉ L.map Prod.fst) : (writeTemplates L w).2.fs.get q = w.fs.get q := by
  induction L generalizing w with
  | nil => simp [writeTemplates]
  | cons e L ih =>
    obtain ⟨p, c⟩ := e
    simp only [List.map_cons, List.mem_cons, not_or] at hq
    rw [writeTemplates]
    cases h : writeFile w p c with
    | error errno => simp
    | ok w1 =>
      have := writeFile_ok h
      subst this
      simp only []
      rw [ih _ hq.2]
      simp [FS.get_set, hq.1]

/-- After a successful template loop over distinct keys every key holds its
content. -/
theorem writeTemplates_content (L : List (String × String)) (w : World)
    (hok : (writeTemplates L w).1 = none) (hnd : (L.map Prod.fst).Nodup) :
    ∀ e ∈ L, (writeTemplates L w).2.fs.get e.1 = some (.file e.2) := by
  induction L generalizing w with
  | nil => simp
  | cons e L ih =>
    obtain ⟨p, c⟩ := e
    simp only [List.map_cons, List.nodup_cons] at hnd
    rw [writeTemplates] at hok ⊢
    cases h : writeFile w p c with
    | error errno => simp [h] at hok
    | ok w1 =>
      have hw := writeFile_ok h
      simp only [h] at hok ⊢
      intro e he
      rcases List.mem_cons.mp he with rfl | he
      · rw [writeTemplates_frame L w1 _ hnd.1, hw]
        simp [FS.get_set]
      · exact ih w1 hok hnd.2 e he

/-- The template loop succeeds when no write is refused, every key resolves,
no key is a directory and no key is an ancestor of a key. -/
theorem writeTemplates_succeeds (L : List (String × String)) (w : World)
    (hd : ∀ e ∈ L, w.deny (.writeFile e.1) = false)
    (hr : ∀ e ∈ L, resolveDir w.fs e.1 = none)
    (hn : ∀ e ∈ L, w.fs.get e.1 ≠ some .dir)
    (hsep : ∀ e ∈ L, ∀ e' ∈ L, e'.1 ∉ ancestors e.1) :
    (writeTemplates L w).1 = none := by
  induction L generalizing w with
  | nil => simp [writeTemplates]
  | cons e L ih =>
    obtain ⟨p, c⟩ := e
    have hmem : (p, c) ∈ (p, c) :: L := List.mem_cons_self _ _
    rw [writeTemplates, writeFile_succeeds c (hd _ hmem) (hr _ hmem) (hn _ hmem)]
    simp only []
    apply ih
    · intro e he; exact hd e (List.mem_cons_of_mem _ he)
    · intro e he
      simp only []
      rw [resolveDir_set _ _ _ _ (hsep e (List.mem_cons_of_mem _ he) _ hmem)]
      exact hr e (List.mem_cons_of_mem _ he)
    · intro e he
      simp only [FS.get_set]
      split
      · simp
      · exact hn e (List.mem_cons_of_mem _ he)
    · intro e he e' he'
      exact hsep e (List.mem_cons_of_mem _ he) e' (List.mem_cons_of_mem _ he')

/-- The marker loop is the template loop on the marker entries, up to the
wording of the error. -/
theorem writeGitkeeps_eq (dirs : List String) (w : World) :
    (writeGitkeeps dirs w).2 = (writeTemplates (gitkeepEntries dirs) w).2 ∧
    ((writeGitkeeps dirs w).1 = none ↔ (writeTemplates (gitkeepEntries dirs) w).1 = none) := by
  induction dirs generalizing w with
  | nil => simp [writeGitkeeps, writeTemplates, gitkeepEntries]
  | cons d dirs ih =>
    simp only [gitkeepEntries, List.map_cons]
    rw [writeGitkeeps, writeTemplates]
    cases h : writeFile w (filepathJoin d ".gitkeep") "" with
    | error errno => simp
    | ok w1 => simpa [gitkeepEntries] using ih w1

/-- What `MkdirAll` may change: nothing but the tree, and in the tree only
missing paths of its list, which become directories. -/
theorem mkdirAllAux_frame (l : List String) (w : World) :
    (mkdirAllAux l w).2.out = w.out ∧ (mkdirAllAux l w).2.now = w.now ∧
    (mkdirAllAux l w).2.deny = w.deny ∧
    ∀ q, (mkdirAllAux l w).2.fs.get q = w.fs.get q ∨
      (q ∈ l ∧ w.fs.get q = none ∧ (mkdirAllAux l w).2.fs.get q = some .dir) := by
  induction l generalizing w with
  | nil => simp [mkdirAllAux]
  | cons p parents ih =>
    rw [mkdirAllAux]
    obtain ⟨ih1, ih2, ih3, ih4⟩ := ih w
    split
    · simp
    · simp
    · rcases hrec : mkdirAllAux parents w with ⟨_ | err, w1⟩
      · rw [hrec] at ih1 ih2 ih3 ih4
        simp only [] at ih1 ih2 ih3 ih4 ⊢
        have frame1 : ∀ q, w1.fs.get q = w.fs.get q ∨
            (q ∈ p :: parents ∧ w.fs.get q = none ∧ w1.fs.get q = some .dir) := by
          intro q
          rcases ih4 q with h | ⟨h1, h2, h3⟩
          · exact Or.inl h
          · exact Or.inr ⟨List.mem_cons_of_mem _ h1, h2, h3⟩
        cases hmk : mkdir w1 p with
        | ok w2 =>
          obtain ⟨hw2, hnone⟩ := mkdir_ok hmk
          subst hw2
          refine ⟨ih1, ih2, ih3, ?_⟩
          intro q
          by_cases hq : q = p
          · subst hq
            right
            refine ⟨List.mem_cons_self _ _, ?_, by simp [FS.get_set]⟩
            rcases ih4 q with h | ⟨_, h2, _⟩
            · rw [← h]; exact hnone
            · exact h2
          · simpa [FS.get_set, hq] using frame1 q
        | error errno =>
          simp only []
          split <;> exact ⟨ih1, ih2, ih3, frame1⟩
      · rw [hrec] at ih1 ih2 ih3 ih4
        simp only [] at ih1 ih2 ih3 ih4 ⊢
        refine ⟨ih1, ih2, ih3, ?_⟩
        intro q
        rcases ih4 q with h | ⟨h1, h2, h3⟩
        · exact Or.inl h
        · exact Or.inr ⟨List.mem_cons_of_mem _ h1, h2, h3⟩

/-- A successful `MkdirAll` ends with its path being a directory. -/
theorem mkdirAllAux_dir (p : String) (parents : List String) (w : World)
    (hok : (mkdirAllAux (p :: parents) w).1 = none) :
    (mkdirAllAux (p :: parents) w).2.fs.get p = some .dir := by
  rw [mkdirAllAux] at hok ⊢
  cases h : stat w p with
  | ok n =>
    cases n with
    | dir => simpa [h] using stat_ok_get h
    | file c => simp [h] at hok
  | error e =>
    simp only [h] at hok ⊢
    rcases hrec : mkdirAllAux parents w with ⟨_ | err, w1⟩
    · simp only [hrec] at hok ⊢
      cases hmk : mkdir w1 p with
      | ok w2 =>
        obtain ⟨hw2, _⟩ := mkdir_ok hmk
        subst hw2
        simp [FS.get_set]
      | error errno =>
        simp only [hmk] at hok ⊢
        cases h2 : stat w1 p with
        | ok n =>
          cases n with
          | dir => simpa [h2] using stat_ok_get h2
          | file c => simp [h2] at hok
        | error e2 => simp [h2] at hok
    · simp [hrec] at hok

/-- What `createDirectories` may change, whether it succeeds or not. -/
theorem createDirectories_frame (dirs : List String) (w : World) :
    (createDirectories dirs w).2.out = w.out ∧ (createDirectories dirs w).2.now = w.now ∧
    (createDirectories dirs w).2.deny = w.deny ∧
    ∀ q, (createDirectories dirs w).2.fs.get q = w.fs.get q ∨
      (q ∈ touchedByMkdir dirs ∧ w.fs.get q = none ∧
        (createDirectories dirs w).2.fs.get q = some .dir) := by
  induction dirs generalizing w with
  | nil => simp [createDirectories]
  | cons d dirs ih =>
    rw [createDirectories]
    obtain ⟨m1, m2, m3, m4⟩ := mkdirAllAux_frame (d :: (ancestors d).reverse) w
    rcases hmk : MkdirAll w d with ⟨_ | err, w1⟩
    · simp only []
      rw [MkdirAll] at hmk
      rw [hmk] at m1 m2 m3 m4
      simp only [] at m1 m2 m3 m4
      obtain ⟨i1, i2, i3, i4⟩ := ih w1
      refine ⟨i1.trans m1, i2.trans m2, i3.trans m3, ?_⟩
      intro q
      rcases i4 q with h | ⟨h1, h2, h3⟩
      · rcases m4 q with g | ⟨g1, g2, g3⟩
        · exact Or.inl (h.trans g)
        · right
          refine ⟨?_, g2, h.trans g3⟩
          simp only [touchedByMkdir, List.flatMap_cons, List.mem_append]
          exact Or.inl g1
      · rcases m4 q with g | ⟨g1, g2, g3⟩
        · right
          refine ⟨?_, g ▸ h2, h3⟩
          simp only [touchedByMkdir, List.flatMap_cons, List.mem_append]
          exact Or.inr h1
        · rw [g3] at h2; simp at h2
    · simp only []
      rw [MkdirAll] at hmk
      rw [hmk] at m1 m2 m3 m4
      simp only [] at m1 m2 m3 m4
      refine ⟨m1, m2, m3, ?_⟩
      intro q
      rcases m4 q with g | ⟨g1, g2, g3⟩
      · exact Or.inl g
      · right
        refine ⟨?_, g2, g3⟩
        simp only [touchedByMkdir, List.flatMap_cons, List.mem_append]
        exact Or.inl g1

/-- After a successful `createDirectories` every listed path is a directory. -/
theorem createDirectories_dirs (dirs : List String) (w : World)
    (hok : (createDirectories dirs w).1 = none) :
    ∀ d ∈ dirs, (createDirectories dirs w).2.fs.get d = some .dir := by
  induction dirs generalizing w with
  | nil => simp
  | cons d dirs ih =>
    rw [createDirectories] at hok ⊢
    rcases hmk : MkdirAll w d with ⟨_ | err, w1⟩
    · simp only [hmk] at hok ⊢
      intro x hx
      rcases List.mem_cons.mp hx with rfl | hx
      · have hd : w1.fs.get x = some .dir := by
          have := mkdirAllAux_dir x (ancestors x).reverse w
          rw [MkdirAll] at hmk
          rw [hmk] at this
          exact this rfl
        rcases (createDirectories_frame dirs w1).2.2.2 x with h | ⟨_, h2, _⟩
        · rw [h, hd]
        · rw [hd] at h2; simp at h2
      · exact ih w1 hok x hx
    · simp [hmk] at hok

theorem mkdir_succeeds {w : World} {p : String}
    (hd : w.deny (.mkdir p) = false) (hr : resolveDir w.fs p = none)
    (hn : w.fs.get p = none) :
    mkdir w p = .ok { w with fs := w.fs.set p .dir } := by
  simp [mkdir, hd, hr, hn]

/-- `MkdirAll` on a path one level below a top-level directory succeeds when
neither `mkdir` is refused and neither path is a regular file. -/
theorem MkdirAll_two_level_succeeds (w : World) (p a : String)
    (hp : ancestors p = [a]) (ha : ancestors a = [])
    (hda : w.deny (.mkdir a) = false) (hdp : w.deny (.mkdir p) = false)
    (hfa : isFile (w.fs.get a) = false) (hfp : isFile (w.fs.get p) = false) :
    (MkdirAll w p).1 = none := by
  have hpa : p ≠ a := by
    intro h; rw [h, ha] at hp; simp at hp
  have hra : ∀ fs : FS, resolveDir fs a = none := by
    intro fs; simp [resolveDir, ha]
  have hrp : ∀ fs : FS, resolveDir fs p
      = if isDir (fs.get a) then none
        else if isFile (fs.get a) then some .ENOTDIR else some .ENOENT := by
    intro fs
    simp only [resolveDir, hp, List.find?_cons, List.find?_nil]
    cases h : isDir (fs.get a) <;> simp
  simp only [MkdirAll, hp, List.reverse_cons, List.reverse_nil, List.nil_append]
  cases hga : w.fs.get a with
  | none =>
    have hsp : stat w p = .error .ENOENT := by simp [stat, hrp, hga, isDir, isFile]
    have hsa : stat w a = .error .ENOENT := by simp [stat, hra, hga]
    have hma := mkdir_succeeds (w := w) (p := a) hda (hra _) hga
    simp only [mkdirAllAux, hsp, hsa, hma]
    cases hgp : w.fs.get p with
    | none =>
      simp [mkdir, hdp, hrp, FS.get_set, isDir, hpa, hgp]
    | some n =>
      cases n with
      | file c => simp [hgp, isFile] at hfp
      | dir => simp [mkdir, stat, hdp, hrp, FS.get_set, isDir, hpa, hgp]
  | some n =>
    cases n with
    | file c => simp [hga, isFile] at hfa
    | dir =>
      have hsa : stat w a = .ok .dir := by simp [stat, hra, hga]
      cases hgp : w.fs.get p with
      | none =>
        have hsp : stat w p = .error .ENOENT := by simp [stat, hrp, hga, isDir, hgp]
        simp [mkdirAllAux, hsp, hsa, mkdir, hdp, hrp, hga, isDir, hgp]
      | some n =>
        cases n with
        | file c => simp [hgp, isFile] at hfp
        | dir =>
          have hsp : stat w p = .ok .dir := by simp [stat, hrp, hga, isDir, hgp]
          simp [mkdirAllAux, hsp]

/-- `createDirectories` succeeds on such paths. -/
theorem createDirectories_succeeds (dirs : List String) (w : World)
    (h : ∀ d ∈ dirs, ∃ a, ancestors d = [a] ∧ ancestors a = [] ∧
      w.deny (.mkdir a) = false ∧ w.deny (.mkdir d) = false ∧
      isFile (w.fs.get a) = false ∧ isFile (w.fs.get d) = false) :
    (createDirectories dirs w).1 = none := by
  induction dirs generalizing w with
  | nil => simp [createDirectories]
  | cons d dirs ih =>
    obtain ⟨a, hp, ha, hda, hdp, hfa, hfp⟩ := h d (List.mem_cons_self _ _)
    have hok := MkdirAll_two_level_succeeds w d a hp ha hda hdp hfa hfp
    have hfr := mkdirAllAux_frame (d :: (ancestors d).reverse) w
    rw [createDirectories]
    rcases hmk : MkdirAll w d with ⟨_ | err, w1⟩
    · simp only []
      rw [MkdirAll] at hmk
      rw [hmk] at hfr
      obtain ⟨-, -, f3, f4⟩ := hfr
      simp only [] at f3 f4
      apply ih
      intro x hx
      obtain ⟨b, xp, xa, xda, xdp, xfa, xfp⟩ := h x (List.mem_cons_of_mem _ hx)
      have keep : ∀ q, isFile (w.fs.get q) = false → isFile (w1.fs.get q) = false := by
        intro q hq
        rcases f4 q with g | ⟨_, _, g⟩
        · rw [g]; exact hq
        · rw [g]; rfl
      exact ⟨b, xp, xa, by rw [f3]; exact xda, by rw [f3]; exact xdp, keep _ xfa, keep _ xfp⟩
    · rw [hmk] at hok; simp at hok

theorem print_fs (w : World) (s : String) : (w.print s).fs = w.fs := rfl

theorem foldl_print_fs (l : List String) (f : String → String) (w : World) :
    (l.foldl (fun w dir => w.print (f dir)) w).fs = w.fs := by
  induction l generalizing w with
  | nil => rfl
  | cons x xs ih => rw [List.foldl_cons, ih, print_fs]

theorem displaySuccessMessage_fs (w : World) : (displaySuccessMessage w).fs = w.fs := by
  simp only [displaySuccessMessage, foldl_print_fs, print_fs]

theorem runDryRun_fs (w : World) : (runDryRun w).2.fs = w.fs := by
  simp only [runDryRun, foldl_print_fs, print_fs]

theorem runDryRun_ok (w : World) : (runDryRun w).1 = none := rfl

/-- A run without `--dry-run` that returns `nil` went through all four steps. -/
theorem runInstall_ok_steps (force : Bool) (order : List (String × String)) (w : World)
    (hok : (runInstall force false order w).1 = none) :
    ∃ w1 w2 w3 w4, afterBackup force w = (none, w1) ∧
      createDirectoryStructure w1 = (none, w2) ∧ generateConfigFile w2 = (none, w3) ∧
      createTemplateFiles order w3 = (none, w4) ∧
      runInstall force false order w = (none, displaySuccessMessage w4) := by
  unfold runInstall at hok ⊢
  split at hok
  · simp at hok
  · rename_i hpre
    simp only [hpre, Bool.false_eq_true, if_false] at hok ⊢
    rcases hb : afterBackup force w with ⟨_ | e1, w1⟩
    · unfold afterBackup at hb
      simp only [hb] at hok ⊢
      rcases hc : createDirectoryStructure w1 with ⟨_ | e2, w2⟩
      · simp only [hc] at hok ⊢
        rcases hg : generateConfigFile w2 with ⟨_ | e3, w3⟩
        · simp only [hg] at hok ⊢
          rcases ht : createTemplateFiles order w3 with ⟨_ | e4, w4⟩
          · exact ⟨w1, w2, w3, w4, rfl, hc, hg, ht, by simp [ht]⟩
          · simp [ht] at hok
        · simp [hg] at hok
      · simp [hc] at hok
    · unfold afterBackup at hb
      simp [hb] at hok

theorem perm_keys {order : List (String × String)} (hperm : order.Perm templates) :
    (order.map Prod.fst).Perm (templates.map Prod.fst) :=
  hperm.map Prod.fst

/-- The tree a successful run without `--dry-run` leaves behind, in terms
of the tree `w1` after the backup step. -/
theorem runInstall_effect (force : Bool) (order : List (String × String)) (w w1 : World)
    (hperm : order.Perm templates) (hb : afterBackup force w = (none, w1))
    (hok : (runInstall force false order w).1 = none) :
    (runInstall force false order w).2.fs.get ".spekka/config.yaml"
      = some (.file getConfigTemplate) ∧
    (∀ d ∈ spekkaDirectories, (runInstall force false order w).2.fs.get d = some .dir) ∧
    (∀ e ∈ templates, (runInstall force false order w).2.fs.get e.1 = some (.file e.2)) ∧
    (∀ d ∈ spekkaDirectories,
      (runInstall force false order w).2.fs.get (filepathJoin d ".gitkeep") = some (.file "")) ∧
    (∀ q, q ∉ installedPaths → (runInstall force false order w).2.fs.get q = w1.fs.get q) := by
  obtain ⟨v1, w2, w3, w4, h1, h2, h3, h4, h5⟩ := runInstall_ok_steps force order w hok
  rw [hb] at h1
  obtain rfl : w1 = v1 := by simpa using h1
  rw [h5]
  simp only [displaySuccessMessage_fs]
  -- directories
  have hdirs : ∀ d ∈ spekkaDirectories, w2.fs.get d = some .dir := by
    have := createDirectories_dirs spekkaDirectories w1
    rw [createDirectoryStructure] at h2
    rw [h2] at this
    exact this rfl
  have hdframe : ∀ q, q ∉ touchedByMkdir spekkaDirectories → w2.fs.get q = w1.fs.get q := by
    intro q hq
    have := (createDirectories_frame spekkaDirectories w1).2.2.2 q
    rw [createDirectoryStructure] at h2
    rw [h2] at this
    rcases this with g | ⟨g, _, _⟩
    · exact g
    · exact absurd g hq
  -- configuration file
  have hw3 : w3 = { w2 with fs := w2.fs.set ".spekka/config.yaml" (.file getConfigTemplate) } := by
    unfold generateConfigFile at h3
    cases hwf : writeFile w2 ".spekka/config.yaml" getConfigTemplate with
    | error errno => simp [hwf] at h3
    | ok w3' =>
      simp only [hwf, Prod.mk.injEq, true_and] at h3
      rw [← h3]
      exact writeFile_ok hwf
  -- templates and markers
  unfold createTemplateFiles at h4
  rcases ht : writeTemplates order w3 with ⟨_ | e, wt⟩
  · simp only [ht] at h4
    have hgk := writeGitkeeps_eq spekkaDirectories wt
    rw [h4] at hgk
    simp only [true_iff] at hgk
    obtain ⟨hw4, hgok⟩ := hgk
    have hkeys := perm_keys hperm
    have hnd : (order.map Prod.fst).Nodup := hkeys.nodup_iff.mpr (by decide)
    have htc : ∀ e ∈ order, wt.fs.get e.1 = some (.file e.2) := by
      have := writeTemplates_content order w3 (by rw [ht]) hnd
      rw [ht] at this
      exact this
    have htf : ∀ q, q ∉ templates.map Prod.fst → wt.fs.get q = w3.fs.get q := by
      intro q hq
      have := writeTemplates_frame order w3 q (fun h => hq (hkeys.mem_iff.mp h))
      rw [ht] at this
      exact this
    have hgc : ∀ e ∈ gitkeepEntries spekkaDirectories, w4.fs.get e.1 = some (.file e.2) := by
      rw [hw4]
      exact writeTemplates_content _ wt hgok (by decide)
    have hgf : ∀ q, q ∉ (gitkeepEntries spekkaDirectories).map Prod.fst →
        w4.fs.get q = wt.fs.get q := by
      intro q hq
      rw [hw4]
      exact writeTemplates_frame _ wt q hq
    refine ⟨?_, ?_, ?_, ?_, ?_⟩
    · rw [hgf _ (by decide), htf _ (by decide), hw3]
      simp [FS.get_set]
    · intro d hd
      have h1 : d ∉ (gitkeepEntries spekkaDirectories).map Prod.fst := by
        revert d; decide
      have h2 : d ∉ templates.map Prod.fst := by revert d; decide
      have h3 : d ≠ ".spekka/config.yaml" := by revert d; decide
      rw [hgf _ h1, htf _ h2, hw3]
      simp [FS.get_set, h3, hdirs d hd]
    · intro e he
      have h1 : e.1 ∉ (gitkeepEntries spekkaDirectories).map Prod.fst := by
        revert e; decide
      rw [hgf _ h1]
      exact htc e (hperm.mem_iff.mpr he)
    · intro d hd
      exact hgc (filepathJoin d ".gitkeep", "") (List.mem_map.mpr ⟨d, hd, rfl⟩)
    · intro q hq
      simp only [installedPaths, List.mem_append, List.mem_singleton, not_or] at hq
      obtain ⟨⟨⟨q1, q2⟩, q3⟩, q4⟩ := hq
      rw [hgf _ q4, htf _ q3, hw3]
      simp [FS.get_set, q2, hdframe q q1]
  · simp [ht] at h4

/-! ## The tree shape is kept -/

theorem mkdir_WF {w w1 : World} {p : String} (hwf : w.fs.WF) (h : mkdir w p = .ok w1) :
    w1.fs.WF := by
  have hres : resolveDir w.fs p = none := by
    unfold mkdir at h
    split at h
    · simp at h
    · split at h
      · simp at h
      · rename_i hr; exact hr
  obtain ⟨rfl, _⟩ := mkdir_ok h
  intro q hq a ha
  simp only [FS.get_set] at hq ⊢
  by_cases hap : a = p
  · simp [hap]
  · simp only [hap, if_false]
    by_cases hqp : q = p
    · subst hqp
      exact (resolveDir_eq_none _ _).mp hres a ha
    · simp only [hqp, if_false] at hq
      exact hwf q hq a ha

theorem mkdirAllAux_WF (l : List String) (w : World) (hwf : w.fs.WF) :
    (mkdirAllAux l w).2.fs.WF := by
  induction l generalizing w with
  | nil => simpa [mkdirAllAux] using hwf
  | cons p parents ih =>
    rw [mkdirAllAux]
    split
    · exact hwf
    · exact hwf
    · have := ih w hwf
      rcases hrec : mkdirAllAux parents w with ⟨_ | err, w1⟩
      · rw [hrec] at this
        simp only [] at this ⊢
        cases hmk : mkdir w1 p with
        | ok w2 => exact mkdir_WF this hmk
        | error errno =>
          simp only []
          split <;> exact this
      · rw [hrec] at this
        exact this

theorem createDirectories_WF (dirs : List String) (w : World) (hwf : w.fs.WF) :
    (createDirectories dirs w).2.fs.WF := by
  induction dirs generalizing w with
  | nil => simpa [createDirectories] using hwf
  | cons d dirs ih =>
    rw [createDirectories]
    have := mkdirAllAux_WF (d :: (ancestors d).reverse) w hwf
    rcases hmk : MkdirAll w d with ⟨_ | err, w1⟩
    · rw [MkdirAll] at hmk
      rw [hmk] at this
      exact ih w1 this
    · rw [MkdirAll] at hmk
      rw [hmk] at this
      exact this

/-- In a tree without `.spekka` nothing below `.spekka` exists. -/
theorem fresh_below {fs : FS} (hwf : fs.WF) (hfresh : fs.get ".spekka" = none)
    (q : String) (hq : ".spekka" ∈ ancestors q) : fs.get q = none := by
  by_contra h
  have := hwf q h ".spekka" hq
  rw [hfresh] at this
  simp at this

/-! ## Facts about the fixed paths, by evaluation -/

theorem templates_ancestors : ∀ e ∈ templates, ∀ a ∈ ancestors e.1,
    a = ".spekka" ∨ a ∈ spekkaDirectories := by decide

theorem templates_fresh : ∀ e ∈ templates, e.1 ≠ ".spekka/config.yaml" ∧
    e.1 ∉ touchedByMkdir spekkaDirectories ∧ ".spekka" ∈ ancestors e.1 := by decide

theorem templates_separate : ∀ e ∈ templates, ∀ e' ∈ templates, e'.1 ∉ ancestors e.1 := by
  decide

theorem gitkeeps_ancestors : ∀ e ∈ gitkeepEntries spekkaDirectories, ∀ a ∈ ancestors e.1,
    a = ".spekka" ∨ a ∈ spekkaDirectories := by decide

theorem gitkeeps_fresh : ∀ e ∈ gitkeepEntries spekkaDirectories,
    e.1 ∉ templates.map Prod.fst ∧ e.1 ≠ ".spekka/config.yaml" ∧
    e.1 ∉ touchedByMkdir spekkaDirectories ∧ ".spekka" ∈ ancestors e.1 := by decide

theorem directories_not_templates : ∀ a ∈ spekkaDirectories, a ∉ templates.map Prod.fst := by
  decide

/-- A first installation succeeds: in a tree without `.spekka`, with no
injected fault, `runInstall` without flags returns `nil`. -/
theorem runInstall_fresh_succeeds (w : World) (order : List (String × String))
    (hwf : w.fs.WF) (hfresh : w.fs.get ".spekka" = none) (hnf : w.NoFaults)
    (hperm : order.Perm templates) :
    (runInstall false false order w).1 = none := by
  have hnone := fresh_below hwf hfresh
  -- pre-check
  have hcfg : configFileExists w = (false, none) := by
    have hr : resolveDir w.fs ".spekka/config.yaml" = some .ENOENT := by
      have ha : ancestors ".spekka/config.yaml" = [".spekka"] := by decide
      simp [resolveDir, ha, hfresh, isDir, isFile]
    simp [configFileExists, stat, hr]
  -- directories
  have hdok : (createDirectories spekkaDirectories w).1 = none := by
    apply createDirectories_succeeds
    intro d hd
    refine ⟨".spekka", ?_, by decide, hnf _, hnf _, by simp [hfresh, isFile], ?_⟩
    · revert d; decide
    · rw [hnone d (by revert d; decide)]; rfl
  rcases hc : createDirectories spekkaDirectories w with ⟨_ | e2, w2⟩
  swap
  · rw [hc] at hdok; simp at hdok
  have hfr := createDirectories_frame spekkaDirectories w
  have hdirs := createDirectories_dirs spekkaDirectories w hdok
  have hwf2 := createDirectories_WF spekkaDirectories w hwf
  rw [hc] at hfr hdirs hwf2
  obtain ⟨-, -, hdeny2, hframe2⟩ := hfr
  simp only [] at hdeny2 hframe2 hdirs hwf2
  have hroot : w2.fs.get ".spekka" = some .dir :=
    hwf2 ".spekka/standards" (by rw [hdirs _ (by decide)]; simp) ".spekka" (by decide)
  have hsame : ∀ q, q ∉ touchedByMkdir spekkaDirectories → w2.fs.get q = w.fs.get q := by
    intro q hq
    rcases hframe2 q with g | ⟨g, _, _⟩
    · exact g
    · exact absurd g hq
  -- configuration file
  have hwc := writeFile_succeeds (w := w2) (p := ".spekka/config.yaml") getConfigTemplate
    (by rw [hdeny2]; exact hnf _)
    ((resolveDir_eq_none _ _).mpr (by
      have ha : ancestors ".spekka/config.yaml" = [".spekka"] := by decide
      simpa [ha] using hroot))
    (by rw [hsame _ (by decide), hnone _ (by decide)]; simp)
  have hg : generateConfigFile w2 = (none,
      { w2 with fs := w2.fs.set ".spekka/config.yaml" (.file getConfigTemplate) }) := by
    simp [generateConfigFile, hwc]
  generalize hw3 : ({ w2 with fs := w2.fs.set ".spekka/config.yaml" (.file getConfigTemplate) }
    : World) = w3 at hg
  have hget3 : ∀ q, q ≠ ".spekka/config.yaml" → w3.fs.get q = w2.fs.get q := by
    intro q hq; rw [← hw3]; simp [FS.get_set, hq]
  have hdeny3 : w3.deny = w.deny := by rw [← hw3]; exact hdeny2
  have hisdir3 : ∀ a, a = ".spekka" ∨ a ∈ spekkaDirectories → w3.fs.get a = some .dir := by
    intro a ha
    rcases ha with rfl | ha
    · rw [hget3 _ (by decide)]; exact hroot
    · rw [hget3 _ (by revert a; decide)]; exact hdirs a ha
  -- templates
  have hkeys := perm_keys hperm
  have htok : (writeTemplates order w3).1 = none := by
    apply writeTemplates_succeeds
    · intro e _; rw [hdeny3]; exact hnf _
    · intro e he
      apply (resolveDir_eq_none _ _).mpr
      intro a ha
      exact hisdir3 a (templates_ancestors e (hperm.mem_iff.mp he) a ha)
    · intro e he
      obtain ⟨k1, k2, k3⟩ := templates_fresh e (hperm.mem_iff.mp he)
      rw [hget3 _ k1, hsame _ k2, hnone _ k3]
      simp
    · intro e he e' he'
      exact templates_separate e (hperm.mem_iff.mp he) e' (hperm.mem_iff.mp he')
  rcases ht : writeTemplates order w3 with ⟨_ | e4, wt⟩
  swap
  · rw [ht] at htok; simp at htok
  have henv := writeTemplates_env order w3
  have htf : ∀ q, q ∉ templates.map Prod.fst → wt.fs.get q = w3.fs.get q := by
    intro q hq
    have := writeTemplates_frame order w3 q (fun h => hq (hkeys.mem_iff.mp h))
    rw [ht] at this
    exact this
  rw [ht] at henv
  obtain ⟨-, -, hdenyt⟩ := henv
  simp only [] at hdenyt
  -- markers
  have hgok : (writeTemplates (gitkeepEntries spekkaDirectories) wt).1 = none := by
    apply writeTemplates_succeeds
    · intro e _; rw [hdenyt, hdeny3]; exact hnf _
    · intro e he
      apply (resolveDir_eq_none _ _).mpr
      intro a ha
      have hin : a = ".spekka" ∨ a ∈ spekkaDirectories := gitkeeps_ancestors e he a ha
      have hnk : a ∉ templates.map Prod.fst := by
        rcases hin with rfl | hin
        · decide
        · exact directories_not_templates a hin
      rw [htf a hnk]
      exact hisdir3 a hin
    · intro e he
      obtain ⟨k0, k1, k2, k3⟩ := gitkeeps_fresh e he
      rw [htf _ k0, hget3 _ k1, hsame _ k2, hnone _ k3]
      simp
    · decide
  have hgk := (writeGitkeeps_eq spekkaDirectories wt).2.mpr hgok
  rcases hwg : writeGitkeeps spekkaDirectories wt with ⟨_ | e5, w4⟩
  swap
  · rw [hwg] at hgk; simp at hgk
  simp [runInstall, hcfg, createDirectoryStructure, hc, hg, createTemplateFiles, ht, hwg]

/-! ## The backup name -/

theorem digitChar_ne_slash (n : Nat) : Nat.digitChar (n % 10) ≠ '/' := by
  have h : n % 10 < 10 := Nat.mod_lt _ (by decide)
  generalize n % 10 = d at h
  interval_cases d <;> decide

theorem toDigitsCore_no_slash (fuel n : Nat) (ds : List Char) (h : ∀ c ∈ ds, c ≠ '/') :
    ∀ c ∈ Nat.toDigitsCore 10 fuel n ds, c ≠ '/' := by
  induction fuel generalizing n ds with
  | zero => simpa [Nat.toDigitsCore] using h
  | succ fuel ih =>
    have hds : ∀ c ∈ Nat.digitChar (n % 10) :: ds, c ≠ '/' := by
      intro c hc
      rcases List.mem_cons.mp hc with rfl | hc
      · exact digitChar_ne_slash n
      · exact h c hc
    simp only [Nat.toDigitsCore]
    split
    · exact hds
    · exact ih _ _ hds

theorem appendInt_no_slash (n width : Nat) : '/' ∉ (appendInt n width).data := by
  intro hmem
  simp only [appendInt, List.mem_append, List.mem_replicate] at hmem
  rcases hmem with ⟨_, h⟩ | h
  · exact absurd h (by decide)
  · exact toDigitsCore_no_slash _ _ [] (by simp) _ h rfl

theorem Format_no_slash (t : Time) : '/' ∉ t.Format.data := by
  simp only [Time.Format, String.data_append, List.mem_append, not_or]
  refine ⟨⟨⟨⟨⟨⟨?_, ?_⟩, ?_⟩, ?_⟩, ?_⟩, ?_⟩, ?_⟩
  all_goals first | exact appendInt_no_slash _ _ | decide

theorem backupName_data (t : Time) :
    (backupName t).data = ".spekka/config.yaml.backup-".data ++ t.Format.data := by
  simp [backupName, String.data_append]

/-- The backup name matches the pattern the tests look backups up with. -/
theorem backupName_matches (t : Time) : matchesBackupPattern (backupName t) = true := by
  have hdrop : (backupName t).data.drop ".spekka/config.yaml.backup-".length = t.Format.data := by
    rw [backupName_data]
    exact List.drop_left' rfl
  have hpre : ".spekka/config.yaml.backup-".data.isPrefixOf (backupName t).data = true := by
    rw [backupName_data, List.isPrefixOf_iff_prefix]
    exact List.prefix_append _ _
  have hns := Format_no_slash t
  simp only [matchesBackupPattern, hpre, hdrop, Bool.true_and, Bool.not_eq_true',
    List.contains_eq_any_beq, List.any_eq_false]
  intro c hc
  simp only [beq_iff_eq]
  rintro rfl
  exact hns hc

theorem installedPaths_no_backup : ∀ q ∈ installedPaths, matchesBackupPattern q = false := by
  decide

/-- The backup name is none of the paths the later steps write. -/
theorem backupName_not_installed (t : Time) : backupName t ∉ installedPaths := by
  intro h
  have h1 := installedPaths_no_backup _ h
  rw [backupName_matches] at h1
  simp at h1

theorem backupName_ne_config (t : Time) : ".spekka/config.yaml" ≠ backupName t := by
  intro h
  have h1 := backupName_matches t
  rw [← h] at h1
  revert h1
  decide

/-! ## The claims -/

set_option maxRecDepth 100000 in
/-- C1: `Validate` returns no error exactly when the four paths
`Standards.Path`, `Product.Path`, `Specs.Path` and `Tasks.Path` are all
non-empty; the `Project` fields and `Standards.Remote` do not enter the
result. -/
theorem validate_ok_iff (c : Config) :
    (c.Validate = none ↔
      (c.Standards.Path ≠ "" ∧ c.Product.Path ≠ "" ∧ c.Specs.Path ≠ "" ∧ c.Tasks.Path ≠ "")) ∧
    (∀ (project : ProjectConfig) (remote : List String),
      ({ c with Project := project, Standards := { c.Standards with Remote := remote } }
        : Config).Validate = c.Validate) := by
  constructor
  · by_cases h1 : c.Standards.Path = "" <;> by_cases h2 : c.Product.Path = "" <;>
    by_cases h3 : c.Specs.Path = "" <;> by_cases h4 : c.Tasks.Path = "" <;>
    simp [Config.Validate, Config.missing, h1, h2, h3, h4]
  · intro project remote
    rfl

set_option maxRecDepth 100000 in
/-- C2: for each of the four sections, the error of `Validate` mentions the
field name `<section>.path` exactly when that section's path is empty, so
one error names every missing field. -/
theorem validate_names_missing (c : Config) :
    (mentions c.Validate "standards.path" ↔ c.Standards.Path = "") ∧
    (mentions c.Validate "product.path" ↔ c.Product.Path = "") ∧
    (mentions c.Validate "specs.path" ↔ c.Specs.Path = "") ∧
    (mentions c.Validate "tasks.path" ↔ c.Tasks.Path = "") := by
  by_cases h1 : c.Standards.Path = "" <;> by_cases h2 : c.Product.Path = "" <;>
  by_cases h3 : c.Specs.Path = "" <;> by_cases h4 : c.Tasks.Path = "" <;>
  simp [mentions, Config.Validate, Config.missing, h1, h2, h3, h4, Error.message, fmtStrings,
    String.intercalate, String.intercalate.go] <;> decide

set_option maxRecDepth 1000000 in
/-- The default configuration has the lines `project:` and `standards:`. -/
theorem getConfigTemplate_sections :
    "project:" ∈ lines getConfigTemplate ∧ "standards:" ∈ lines getConfigTemplate := by
  decide

/-- C3: in a tree without `.spekka`, with every system call succeeding,
`runInstall` without flags returns no error; afterwards each of the eight
directories of `spekkaDirectories` exists and holds a `README.md` and a
`.gitkeep` file, and `.spekka/config.yaml` holds `getConfigTemplate`, which
has the lines `project:` and `standards:`. -/
theorem install_fresh (w : World) (order : List (String × String))
    (hwf : w.fs.WF) (hfresh : w.fs.get ".spekka" = none) (hnf : w.NoFaults)
    (hperm : order.Perm templates) :
    (runInstall false false order w).1 = none ∧
    spekkaDirectories.length = 8 ∧
    (∀ dir ∈ spekkaDirectories,
      (runInstall false false order w).2.fs.get dir = some .dir ∧
      isFile ((runInstall false false order w).2.fs.get (filepathJoin dir "README.md")) = true ∧
      isFile ((runInstall false false order w).2.fs.get (filepathJoin dir ".gitkeep")) = true) ∧
    (runInstall false false order w).2.fs.get ".spekka/config.yaml"
      = some (.file getConfigTemplate) ∧
    "project:" ∈ lines getConfigTemplate ∧ "standards:" ∈ lines getConfigTemplate := by
  have hok := runInstall_fresh_succeeds w order hwf hfresh hnf hperm
  obtain ⟨e1, e2, e3, e4, -⟩ := runInstall_effect false order w w hperm rfl hok
  refine ⟨hok, rfl, ?_, e1, getConfigTemplate_sections⟩
  intro dir hdir
  refine ⟨e2 dir hdir, ?_, ?_⟩
  · have hmem : ∃ e ∈ templates, e.1 = filepathJoin dir "README.md" := by
      revert dir; decide
    obtain ⟨e, he, hpath⟩ := hmem
    rw [← hpath, e3 e he]
    rfl
  · rw [e4 dir hdir]
    rfl

theorem freshWorld_WF : freshWorld.fs.WF := by
  intro p h
  exact absurd rfl h

/-- Witness for C3: the empty directory of the test `fresh installation
success`, with the templates visited in source order. -/
theorem install_fresh_witness :
    freshWorld.fs.get ".spekka" = none ∧
    (runInstall false false templates freshWorld).1 = none ∧
    (runInstall false false templates freshWorld).2.fs.get ".spekka/config.yaml"
      = some (.file getConfigTemplate) :=
  have h := install_fresh freshWorld templates freshWorld_WF rfl (fun _ => rfl)
    (List.Perm.refl _)
  ⟨rfl, h.1, h.2.2.2.1⟩

/-- In a tree, an existing entry is found by `os.Stat`. -/
theorem stat_ok_of_WF {w : World} {p : String} {n : Node} (hwf : w.fs.WF)
    (h : w.fs.get p = some n) : stat w p = .ok n := by
  have hr : resolveDir w.fs p = none :=
    (resolveDir_eq_none _ _).mpr (hwf p (by rw [h]; simp))
  simp [stat, hr, h]

theorem configFileExists_of_stat {w : World} {n : Node}
    (h : stat w ".spekka/config.yaml" = .ok n) : configFileExists w = (true, none) := by
  simp [configFileExists, h]

set_option maxRecDepth 100000 in
/-- C4: when `.spekka/config.yaml` exists (`os.Stat` finds it), `runInstall`
without `--force` returns an error whose message contains `already installed`
and tells the user to use `--force`, and it returns the world it was given:
nothing in the filesystem changes, with or without `--dry-run`. -/
theorem install_refuses_existing (w : World) (dryRun : Bool) (order : List (String × String))
    (n : Node) (hexists : stat w ".spekka/config.yaml" = .ok n) :
    ∃ err, runInstall false dryRun order w = (some err, w) ∧
      contains err.message "already installed" ∧
      contains err.message "Use --force to reinstall" := by
  refine ⟨Error.text
    "Spekka is already installed in this directory.\nUse --force to reinstall or choose a different directory",
    ?_, by decide, by decide⟩
  simp [runInstall, configFileExists_of_stat hexists]

set_option maxRecDepth 100000 in
/-- Witness for C4: the directory of the test `existing installation without
force`, run with `--dry-run`. -/
theorem install_refuses_existing_witness :
    stat installedWorld ".spekka/config.yaml" = .ok (.file "existing config") ∧
    ∃ err, runInstall false true templates installedWorld = (some err, installedWorld) ∧
      contains err.message "already installed" ∧
      contains err.message "Use --force to reinstall" :=
  ⟨rfl, install_refuses_existing installedWorld true templates _ rfl⟩

/-- The backup step on a regular configuration file, when it succeeds: the
file is at the backup name and no longer at its own. -/
theorem backupExistingConfig_file (w : World) (c : String)
    (hst : stat w ".spekka/config.yaml" = .ok (.file c))
    (hok : (backupExistingConfig w).1 = none) :
    (backupExistingConfig w).2.fs
      = (w.fs.remove ".spekka/config.yaml").set (backupName w.now) (.file c) := by
  have hne := backupName_ne_config w.now
  unfold backupExistingConfig at hok ⊢
  simp only [configFileExists_of_stat hst, Bool.not_true, Bool.false_eq_true, if_false] at hok ⊢
  change (match rename w ".spekka/config.yaml" (backupName w.now) with
    | .error errno => _ | .ok w1 => _ : Option Error × World).1 = none at hok
  change (match rename w ".spekka/config.yaml" (backupName w.now) with
    | .error errno => _ | .ok w1 => _ : Option Error × World).2.fs = _
  cases hr : rename w ".spekka/config.yaml" (backupName w.now) with
  | error errno => simp [hr] at hok
  | ok w1 =>
    simp only [print_fs]
    unfold rename at hr
    simp only [hst, hne, if_false] at hr
    split at hr
    · simp at hr
    · split at hr
      · simp at hr
      · cases hg : w.fs.get (backupName w.now) with
        | none =>
          simp only [hg] at hr
          simp at hr
          rw [← hr]
        | some n =>
          cases n with
          | dir => simp [hg] at hr
          | file c2 =>
            simp only [hg] at hr
            simp at hr
            rw [← hr]

/-- C5: when `.spekka/config.yaml` is a file with content `c` and a forced
installation (no dry run) goes through without a failing system call, the
backup step has moved the file to `.spekka/config.yaml.backup-<timestamp>`
before anything is written (after that step the backup holds `c` and the
configuration path is vacant), and at the end the backup still holds exactly
`c` while `.spekka/config.yaml` holds exactly `getConfigTemplate`. -/
theorem force_backs_up_then_writes (w : World) (order : List (String × String)) (c : String)
    (hexists : stat w ".spekka/config.yaml" = .ok (.file c))
    (hperm : order.Perm templates)
    (hok : (runInstall true false order w).1 = none) :
    (∃ w1, backupExistingConfig w = (none, w1) ∧
      w1.fs.get (backupName w.now) = some (.file c) ∧
      w1.fs.get ".spekka/config.yaml" = none) ∧
    (runInstall true false order w).2.fs.get (backupName w.now) = some (.file c) ∧
    (runInstall true false order w).2.fs.get ".spekka/config.yaml"
      = some (.file getConfigTemplate) := by
  obtain ⟨w1, -, -, -, hb, -, -, -, -⟩ := runInstall_ok_steps true order w hok
  have hb' : backupExistingConfig w = (none, w1) := by simpa [afterBackup] using hb
  have hfs := backupExistingConfig_file w c hexists (by rw [hb'])
  rw [hb'] at hfs
  simp only [] at hfs
  have hbk : w1.fs.get (backupName w.now) = some (.file c) := by
    rw [hfs]; simp [FS.get_set]
  have hcf : w1.fs.get ".spekka/config.yaml" = none := by
    rw [hfs]; simp [FS.get_set, FS.get_remove, backupName_ne_config]
  obtain ⟨e1, -, -, -, e5⟩ := runInstall_effect true order w w1 hperm hb hok
  exact ⟨⟨w1, hb', hbk, hcf⟩, by rw [e5 _ (backupName_not_installed _)]; exact hbk, e1⟩

set_option maxRecDepth 1000000 in
/-- Witness for C5: the directory of the test `force reinstallation`. -/
theorem force_backs_up_then_writes_witness :
    stat installedWorld ".spekka/config.yaml" = .ok (.file "existing config") ∧
    (runInstall true false templates installedWorld).1 = none ∧
    (runInstall true false templates installedWorld).2.fs.get
      ".spekka/config.yaml.backup-20240309-070501" = some (.file "existing config") ∧
    (runInstall true false templates installedWorld).2.fs.get ".spekka/config.yaml"
      = some (.file getConfigTemplate) :=
  have h := force_backs_up_then_writes installedWorld templates "existing config" rfl
    (List.Perm.refl _) (by decide)
  ⟨rfl, by decide, h.2.1, h.2.2⟩

/-! ### Backups are listed by their pattern -/

theorem get_ne_none_iff (fs : FS) (p : String) :
    fs.get p ≠ none ↔ p ∈ fs.entries.map Prod.fst := by
  obtain ⟨l⟩ := fs
  simp only [FS.get]
  induction l with
  | nil => simp
  | cons e l ih =>
    by_cases h : e.1 = p
    · simp [List.find?_cons, h]
    · have h2 : ¬ p = e.1 := fun g => h g.symm
      simp only [List.find?_cons, h, decide_False, List.map_cons, List.mem_cons, h2, false_or]
      exact ih

theorem mem_backupFiles (fs : FS) (p : String) :
    p ∈ backupFiles fs ↔ matchesBackupPattern p = true ∧ fs.get p ≠ none := by
  simp only [backupFiles, List.mem_filter, List.mem_dedup, get_ne_none_iff]
  tauto

theorem backupFiles_nodup (fs : FS) : (backupFiles fs).Nodup :=
  (List.nodup_dedup _).filter _

theorem length_eq_one_of_only {l : List String} {b : String} (hnd : l.Nodup)
    (h : ∀ p, p ∈ l ↔ p = b) : l.length = 1 := by
  match l, hnd, h with
  | [], _, h => exact absurd ((h b).mpr rfl) (by simp)
  | [x], _, _ => rfl
  | x :: y :: rest, hnd, h =>
    have hx : x = b := (h x).mp (by simp)
    have hy : y = b := (h y).mp (by simp)
    simp [hx, hy] at hnd

/-! ### Ancestors are proper prefixes that end at a separator -/

theorem ancestorsAux_data (cs acc : List Char) (a : String)
    (h : a ∈ ancestorsAux acc cs) :
    ∃ pre rest, cs = pre ++ '/' :: rest ∧ a.data = acc ++ pre := by
  induction cs generalizing acc with
  | nil => simp [ancestorsAux] at h
  | cons c cs ih =>
    have step : a ∈ ancestorsAux (acc ++ [c]) cs →
        ∃ pre rest, c :: cs = pre ++ '/' :: rest ∧ a.data = acc ++ pre := by
      intro h'
      obtain ⟨pre, rest, h1, h2⟩ := ih _ h'
      exact ⟨c :: pre, rest, by simp [h1], by simp [h2]⟩
    rw [ancestorsAux] at h
    split at h
    · rename_i hc
      split at h
      · exact step h
      · rcases List.mem_cons.mp h with rfl | h
        · exact ⟨[], cs, by simp [hc], by simp⟩
        · exact step h
    · exact step h

theorem ancestors_data {a q : String} (h : a ∈ ancestors q) :
    ∃ rest, q.data = a.data ++ '/' :: rest := by
  obtain ⟨pre, rest, h1, h2⟩ := ancestorsAux_data q.data [] a h
  refine ⟨rest, ?_⟩
  rw [h1, h2]
  simp

/-- No path with a separator right after the backup name matches the
backup pattern. -/
theorem not_matches_below_backup (t : Time) (k : String) (rest : List Char)
    (hk : k.data = (backupName t).data ++ '/' :: rest) : matchesBackupPattern k = false := by
  have hdrop : k.data.drop ".spekka/config.yaml.backup-".length
      = t.Format.data ++ '/' :: rest := by
    rw [hk, backupName_data, List.append_assoc]
    exact List.drop_left' rfl
  simp [matchesBackupPattern, hdrop]

/-- No path below `.spekka/config.yaml` matches the backup pattern. -/
theorem not_matches_below_config (k : String) (rest : List Char)
    (hk : k.data = ".spekka/config.yaml".data ++ '/' :: rest) :
    matchesBackupPattern k = false := by
  simp [matchesBackupPattern, hk, List.isPrefixOf]

theorem mem_keys_move (fs : FS) (old new p : String) :
    p ∈ (fs.move old new).entries.map Prod.fst ↔
      (∃ e ∈ fs.entries, (e.1 = old ∧ p = new) ∨
        (e.1 ≠ old ∧ isBelow old e.1 = true ∧
          p = new ++ String.mk (e.1.data.drop old.length))) ∨
      (∃ e ∈ fs.entries, e.1 = p ∧
        ¬ (p = old ∨ isBelow old p = true ∨ p = new ∨ isBelow new p = true)) := by
  simp only [FS.move, List.map_append, List.mem_append, List.mem_map, List.mem_filterMap,
    List.mem_filter]
  constructor
  · rintro (⟨⟨k, n⟩, ⟨e, he, hsome⟩, rfl⟩ | ⟨e, ⟨he, hkeep⟩, rfl⟩)
    · left
      refine ⟨e, he, ?_⟩
      by_cases h1 : e.1 = old
      · simp [h1] at hsome
        exact Or.inl ⟨h1, hsome.1.symm⟩
      · by_cases h2 : isBelow old e.1 = true
        · simp [h1, h2] at hsome
          exact Or.inr ⟨h1, h2, hsome.1.symm⟩
        · simp [h1, h2] at hsome
    · right
      refine ⟨e, he, rfl, ?_⟩
      simp at hkeep ⊢
      tauto
  · rintro (⟨e, he, h⟩ | ⟨e, he, rfl, hkeep⟩)
    · left
      rcases h with ⟨h1, hpn⟩ | ⟨h1, h2, hpn⟩
      · exact ⟨(new, e.2), ⟨e, he, by simp [h1]⟩, hpn.symm⟩
      · exact ⟨(new ++ String.mk (e.1.data.drop old.length), e.2),
          ⟨e, he, by simp [h1, h2]⟩, hpn.symm⟩
    · right
      refine ⟨e, ⟨he, ?_⟩, rfl⟩
      simp at hkeep ⊢
      tauto

/-- Moving the configuration entry to its backup name adds that name to the
paths matching the backup pattern and changes nothing else among them. -/
theorem move_backup_pattern (fs : FS) (t : Time) (p : String)
    (hold : fs.get ".spekka/config.yaml" ≠ none) (hp : matchesBackupPattern p = true) :
    (fs.move ".spekka/config.yaml" (backupName t)).get p ≠ none ↔
      (fs.get p ≠ none ∨ p = backupName t) := by
  rw [get_ne_none_iff, get_ne_none_iff, mem_keys_move]
  have hpold : p ≠ ".spekka/config.yaml" := by
    rintro rfl; revert hp; decide
  have hnb_old : ¬ isBelow ".spekka/config.yaml" p = true := by
    intro h
    obtain ⟨rest, hr⟩ := ancestors_data (of_decide_eq_true h)
    rw [not_matches_below_config p rest hr] at hp
    simp at hp
  have hnb_new : ¬ isBelow (backupName t) p = true := by
    intro h
    obtain ⟨rest, hr⟩ := ancestors_data (of_decide_eq_true h)
    rw [not_matches_below_backup t p rest hr] at hp
    simp at hp
  constructor
  · rintro (⟨e, he, ⟨_, rfl⟩ | ⟨_, h2, rfl⟩⟩ | ⟨e, he, rfl, _⟩)
    · exact Or.inr rfl
    · exfalso
      obtain ⟨rest, hr⟩ := ancestors_data (of_decide_eq_true h2)
      have hk : (backupName t ++ String.mk (e.1.data.drop ".spekka/config.yaml".length)).data
          = (backupName t).data ++ '/' :: rest := by
        rw [String.data_append, hr]
        congr 1
      rw [not_matches_below_backup t _ rest hk] at hp
      simp at hp
    · exact Or.inl (List.mem_map.mpr ⟨e, he, rfl⟩)
  · intro h
    by_cases hpn : p = backupName t
    · left
      obtain ⟨e, he, hk⟩ := List.mem_map.mp ((get_ne_none_iff _ _).mp hold)
      exact ⟨e, he, Or.inl ⟨hk, hpn⟩⟩
    · right
      rcases h with h | h
      · obtain ⟨e, he, hk⟩ := List.mem_map.mp h
        exact ⟨e, he, hk, by simp [hpold, hnb_old, hpn, hnb_new]⟩
      · exact absurd h hpn

/-- The backup step, when `os.Stat` finds the configuration entry and the
step succeeds: among the paths matching the backup pattern, the backup name
is added and nothing else changes. -/
theorem backupExistingConfig_pattern (w : World) (n : Node)
    (hst : stat w ".spekka/config.yaml" = .ok n)
    (hok : (backupExistingConfig w).1 = none) (p : String)
    (hp : matchesBackupPattern p = true) :
    (backupExistingConfig w).2.fs.get p ≠ none ↔
      (w.fs.get p ≠ none ∨ p = backupName w.now) := by
  have hpold : p ≠ ".spekka/config.yaml" := by
    rintro rfl; revert hp; decide
  cases n with
  | file c =>
    rw [backupExistingConfig_file w c hst hok]
    by_cases hpn : p = backupName w.now
    · simp [FS.get_set, hpn]
    · simp [FS.get_set, FS.get_remove, hpn, hpold]
  | dir =>
    have hne := backupName_ne_config w.now
    have hold : w.fs.get ".spekka/config.yaml" ≠ none := by
      rw [stat_ok_get hst]; simp
    unfold backupExistingConfig at hok ⊢
    simp only [configFileExists_of_stat hst, Bool.not_true, Bool.false_eq_true, if_false] at hok ⊢
    change (match rename w ".spekka/config.yaml" (backupName w.now) with
      | .error errno => _ | .ok w1 => _ : Option Error × World).1 = none at hok
    change (match rename w ".spekka/config.yaml" (backupName w.now) with
      | .error errno => _ | .ok w1 => _ : Option Error × World).2.fs.get p ≠ none ↔ _
    cases hr : rename w ".spekka/config.yaml" (backupName w.now) with
    | error errno => simp [hr] at hok
    | ok w1 =>
      simp only [print_fs]
      have hw1 : w1.fs = w.fs.move ".spekka/config.yaml" (backupName w.now) := by
        unfold rename at hr
        simp only [hst, hne, if_false] at hr
        split at hr
        · simp at hr
        · split at hr
          · simp at hr
          · cases hg : w.fs.get (backupName w.now) with
            | none =>
              simp only [hg] at hr
              split at hr
              · simp at hr
              · simp at hr; rw [← hr]
            | some m =>
              cases m with
              | file c2 => simp [hg] at hr
              | dir =>
                simp only [hg] at hr
                split at hr
                · simp at hr
                · split at hr
                  · simp at hr
                  · simp at hr; rw [← hr]
      rw [hw1]
      exact move_backup_pattern w.fs w.now p hold hp

set_option maxRecDepth 1000000 in
/-- Counterexample to C6 as stated: an installation that already has a
backup from an earlier forced reinstall ends a successful forced reinstall
with two files matching `.spekka/config.yaml.backup-*`, not one. -/
theorem one_backup_counterexample :
    stat backedUpWorld ".spekka/config.yaml" = .ok (.file "existing config") ∧
    (runInstall true false templates backedUpWorld).1 = none ∧
    backupFiles (runInstall true false templates backedUpWorld).2.fs
      = [".spekka/config.yaml.backup-20240309-070501",
         ".spekka/config.yaml.backup-20200101-000000"] ∧
    (backupFiles (runInstall true false templates backedUpWorld).2.fs).length ≠ 1 := by
  refine ⟨rfl, ?_, ?_, ?_⟩ <;> decide

/-- C6, amended: when `.spekka/config.yaml` exists and a forced
installation (no dry run) succeeds, the paths matching
`.spekka/config.yaml.backup-*` afterwards are those that matched before
together with the new backup name; so exactly one such path exists when
none existed before. -/
theorem force_adds_one_backup (w : World) (order : List (String × String)) (n : Node)
    (hexists : stat w ".spekka/config.yaml" = .ok n)
    (hperm : order.Perm templates)
    (hok : (runInstall true false order w).1 = none) :
    (∀ p, p ∈ backupFiles (runInstall true false order w).2.fs ↔
      (p ∈ backupFiles w.fs ∨ p = backupName w.now)) ∧
    (backupFiles w.fs = [] →
      (backupFiles (runInstall true false order w).2.fs).length = 1) := by
  obtain ⟨w1, -, -, -, hb, -, -, -, -⟩ := runInstall_ok_steps true order w hok
  have hb' : backupExistingConfig w = (none, w1) := by simpa [afterBackup] using hb
  have hpat := backupExistingConfig_pattern w n hexists (by rw [hb'])
  rw [hb'] at hpat
  simp only [] at hpat
  obtain ⟨-, -, -, -, e5⟩ := runInstall_effect true order w w1 hperm hb hok
  have hmem : ∀ p, p ∈ backupFiles (runInstall true false order w).2.fs ↔
      (p ∈ backupFiles w.fs ∨ p = backupName w.now) := by
    intro p
    simp only [mem_backupFiles]
    constructor
    · rintro ⟨hm, hg⟩
      have hni : p ∉ installedPaths := fun h => by
        rw [installedPaths_no_backup p h] at hm; simp at hm
      rw [e5 p hni] at hg
      rcases (hpat p hm).mp hg with h | h
      · exact Or.inl ⟨hm, h⟩
      · exact Or.inr h
    · intro h
      have hm : matchesBackupPattern p = true := by
        rcases h with ⟨hm, _⟩ | rfl
        · exact hm
        · exact backupName_matches _
      have hni : p ∉ installedPaths := fun h => by
        rw [installedPaths_no_backup p h] at hm; simp at hm
      refine ⟨hm, ?_⟩
      rw [e5 p hni]
      apply (hpat p hm).mpr
      rcases h with ⟨_, hg⟩ | rfl
      · exact Or.inl hg
      · exact Or.inr rfl
  refine ⟨hmem, fun hnone => ?_⟩
  apply length_eq_one_of_only (backupFiles_nodup _) (b := backupName w.now)
  intro p
  rw [hmem p, hnone]
  simp

set_option maxRecDepth 1000000 in
/-- Witness for C6, amended: the directory of the test `force
reinstallation`, which has no backup yet. -/
theorem force_adds_one_backup_witness :
    stat installedWorld ".spekka/config.yaml" = .ok (.file "existing config") ∧
    backupFiles installedWorld.fs = [] ∧
    (backupFiles (runInstall true false templates installedWorld).2.fs).length = 1 :=
  ⟨rfl, by decide,
    (force_adds_one_backup installedWorld templates (.file "existing config") rfl
      (List.Perm.refl _) (by decide)).2 (by decide)⟩

set_option maxRecDepth 1000000 in
/-- Counterexample to C7 as stated: when the existing configuration file is
still the generated default, a successful forced reinstall leaves
`.spekka/config.yaml` with the very content it had before. -/
theorem content_differs_counterexample :
    defaultWorld.fs.get ".spekka/config.yaml" = some (.file getConfigTemplate) ∧
    (runInstall true false templates defaultWorld).1 = none ∧
    (runInstall true false templates defaultWorld).2.fs.get ".spekka/config.yaml"
      = defaultWorld.fs.get ".spekka/config.yaml" := by
  refine ⟨rfl, ?_, ?_⟩ <;> decide

/-- C7, amended: after a successful forced installation (no dry run) over a
configuration file with content `c`, `.spekka/config.yaml` holds
`getConfigTemplate`; its content differs from `c` exactly when `c` is not
the default itself. -/
theorem force_writes_default (w : World) (order : List (String × String)) (c : String)
    (hexists : stat w ".spekka/config.yaml" = .ok (.file c))
    (hperm : order.Perm templates)
    (hok : (runInstall true false order w).1 = none) :
    (runInstall true false order w).2.fs.get ".spekka/config.yaml"
      = some (.file getConfigTemplate) ∧
    ((runInstall true false order w).2.fs.get ".spekka/config.yaml" ≠ some (.file c) ↔
      c ≠ getConfigTemplate) := by
  have _ := hexists
  obtain ⟨w1, -, -, -, hb, -, -, -, -⟩ := runInstall_ok_steps true order w hok
  obtain ⟨e1, -⟩ := runInstall_effect true order w w1 hperm hb hok
  refine ⟨e1, ?_⟩
  rw [e1]
  simp only [ne_eq, Option.some.injEq, Node.file.injEq]
  exact ⟨fun h g => h g.symm, fun h g => h g.symm⟩

set_option maxRecDepth 1000000 in
/-- Witness for C7, amended: the directory of the test `force
reinstallation`. -/
theorem force_writes_default_witness :
    stat installedWorld ".spekka/config.yaml" = .ok (.file "existing config") ∧
    (runInstall true false templates installedWorld).2.fs.get ".spekka/config.yaml"
      = some (.file getConfigTemplate) :=
  ⟨rfl, (force_writes_default installedWorld templates "existing config" rfl
    (List.Perm.refl _) (by decide)).1⟩

/-- C8: with `--dry-run`, whatever the tree and whether or not `--force` is
given, `runInstall` leaves the filesystem exactly as it was: no directory,
configuration file, README or marker is created and no backup rename is
made. -/
theorem dry_run_keeps_filesystem (w : World) (force : Bool) (order : List (String × String)) :
    (runInstall force true order w).2.fs = w.fs := by
  unfold runInstall
  split
  · rfl
  · simp only [if_true]
    exact runDryRun_fs w

set_option maxRecDepth 100000 in
/-- Counterexample to C9 as stated: with `.spekka/config.yaml` present and
no `--force`, a dry run does not return success; it returns the
already-installed error. -/
theorem dry_run_success_counterexample :
    stat installedWorld ".spekka/config.yaml" = .ok (.file "existing config") ∧
    (runInstall false true templates installedWorld).1 = some (Error.text
      "Spekka is already installed in this directory.\nUse --force to reinstall or choose a different directory") ∧
    (runInstall false true templates installedWorld).1 ≠ none := by
  refine ⟨rfl, ?_, ?_⟩ <;> decide

/-- C9, amended: a dry run returns success exactly when `--force` is given
or `os.Stat` reports that `.spekka/config.yaml` does not exist; the check
for an existing installation comes before the dry run. -/
theorem dry_run_success_iff (w : World) (force : Bool) (order : List (String × String)) :
    (runInstall force true order w).1 = none ↔
      (force = true ∨ stat w ".spekka/config.yaml" = .error .ENOENT) := by
  cases force with
  | true => simp [runInstall, runDryRun_ok]
  | false =>
    cases hst : stat w ".spekka/config.yaml" with
    | ok n => simp [runInstall, configFileExists, hst]
    | error e =>
      by_cases he : e = .ENOENT
      · subst he
        simp [runInstall, configFileExists, hst, runDryRun_ok]
      · simp [runInstall, configFileExists, hst, he]

/-- C10: when `.spekka/config.yaml` exists and renaming it to the backup
name fails, a forced installation returns an error that wraps the rename
failure and returns the world it was given: no directory is created, no
file is written, and the old configuration file keeps its content. -/
theorem backup_failure_aborts (w : World) (order : List (String × String)) (n : Node)
    (errno : Errno) (hexists : stat w ".spekka/config.yaml" = .ok n)
    (hfail : rename w ".spekka/config.yaml" (backupName w.now) = .error errno) :
    runInstall true false order w
      = (some (.wrap "failed to backup existing configuration: "
          (.link "rename" ".spekka/config.yaml" (backupName w.now) errno)), w) ∧
    (∀ err, (runInstall true false order w).1 = some err →
      err.wraps (.link "rename" ".spekka/config.yaml" (backupName w.now) errno) = true) ∧
    (runInstall true false order w).2.fs.get ".spekka/config.yaml" = some n := by
  have hb : backupExistingConfig w
      = (some (.link "rename" ".spekka/config.yaml" (backupName w.now) errno), w) := by
    unfold backupExistingConfig
    simp only [configFileExists_of_stat hexists, Bool.not_true, Bool.false_eq_true, if_false]
    change (match rename w ".spekka/config.yaml" (backupName w.now) with
      | .error errno => _ | .ok w1 => _ : Option Error × World) = _
    rw [hfail]
    rfl
  have hrun : runInstall true false order w
      = (some (.wrap "failed to backup existing configuration: "
          (.link "rename" ".spekka/config.yaml" (backupName w.now) errno)), w) := by
    simp [runInstall, hb]
  refine ⟨hrun, ?_, ?_⟩
  · intro err herr
    rw [hrun] at herr
    simp only [Option.some.injEq] at herr
    subst herr
    simp [Error.wraps]
  · rw [hrun]
    exact stat_ok_get hexists

set_option maxRecDepth 1000000 in
/-- Witness for C10: the directory of the test `force reinstallation` with
the rename refused. -/
theorem backup_failure_aborts_witness :
    stat lockedWorld ".spekka/config.yaml" = .ok (.file "existing config") ∧
    rename lockedWorld ".spekka/config.yaml" (backupName lockedWorld.now) = .error .EACCES ∧
    (runInstall true false templates lockedWorld).2.fs = lockedWorld.fs ∧
    (runInstall true false templates lockedWorld).1.map Error.message = some
      "failed to backup existing configuration: rename .spekka/config.yaml .spekka/config.yaml.backup-20240309-070501: permission denied" :=
  have h := backup_failure_aborts lockedWorld templates (.file "existing config") .EACCES
    rfl rfl
  ⟨rfl, rfl, by rw [h.1], by rw [h.1]; decide⟩

/-! ## Logging -/

/-- C20: for every combination of the flags, `setupLogging` sets `logLevel`
to `Error` when `quiet` is set (whatever `debug` and `verbose` are),
otherwise to `Debug` when `debug` is set, otherwise to `Info`; changing
`verbose` never changes the level; and `GetLogger` afterwards returns a
non-nil logger, the one with that level. -/
theorem setupLogging_level (g : Globals) :
    (setupLogging g).logLevel
      = (if g.quiet then LevelError else if g.debug then LevelDebug else LevelInfo) ∧
    (∀ v : Bool, (setupLogging { g with verbose := v }).logLevel = (setupLogging g).logLevel) ∧
    (GetLogger (setupLogging g)).1 = some { level := (setupLogging g).logLevel } ∧
    (GetLogger (setupLogging g)).1 ≠ none := by
  refine ⟨?_, ?_, ?_, ?_⟩
  · simp only [setupLogging]
    split <;> simp
  · intro v
    simp only [setupLogging]
    cases v <;> cases g.verbose <;> simp
  · simp [GetLogger, setupLogging]
  · simp [GetLogger, setupLogging]

/-! ## Directory creation: failure and repetition -/

theorem createDirectories_append (pre rest : List String) (w : World) :
    createDirectories (pre ++ rest) w =
      match createDirectories pre w with
      | (some err, w1) => (some err, w1)
      | (none, w1) => createDirectories rest w1 := by
  induction pre generalizing w with
  | nil => simp [createDirectories]
  | cons d pre ih =>
    simp only [List.cons_append, createDirectories]
    rcases hmk : MkdirAll w d with ⟨_ | err, w1⟩
    · simp only []
      exact ih w1
    · simp

theorem contains_middle (a d b : String) : contains (a ++ d ++ b) d := by
  unfold contains
  exact ⟨a.data, b.data, by simp [String.data_append]⟩

theorem spekkaDirectories_nodup : spekkaDirectories.Nodup := by decide

theorem spekkaDirectories_ancestors :
    ∀ p ∈ spekkaDirectories, ∀ a ∈ ancestors p, a ∉ spekkaDirectories := by decide

/-- A manifest directory after position `k` is not touched by creating the
directories up to position `k`. -/
theorem later_directory_untouched {pre post : List String} {d x : String}
    (hsplit : spekkaDirectories = pre ++ d :: post) (hx : x ∈ post) :
    x ∉ touchedByMkdir (pre ++ [d]) := by
  have hnd := spekkaDirectories_nodup
  rw [hsplit] at hnd
  have hxmem : x ∈ spekkaDirectories := by
    rw [hsplit]; simp [hx]
  have hxne : x ∉ pre ++ [d] := by
    intro h
    have h1 : (pre ++ [d]).Disjoint post := by
      have : pre ++ d :: post = (pre ++ [d]) ++ post := by simp
      rw [this] at hnd
      exact (List.nodup_append.mp hnd).2.2
    exact h1 h hx
  intro h
  simp only [touchedByMkdir, List.mem_flatMap, List.mem_cons, List.mem_reverse] at h
  obtain ⟨p, hp, hxp | hxp⟩ := h
  · exact hxne (hxp ▸ hp)
  · have hpm : p ∈ spekkaDirectories := by
      rw [hsplit]
      rcases List.mem_append.mp hp with h1 | h1
      · simp [h1]
      · simp at h1; simp [h1]
    exact spekkaDirectories_ancestors p hpm x hxp hxmem

/-- C19: when creating the directory at some position of
`spekkaDirectories` fails (after all earlier ones were created),
`createDirectoryStructure` returns an error whose message contains that
directory's path and which wraps the underlying error; the result is the
world right after the failing `MkdirAll`, in which the earlier directories
exist and every later one is as it was at the start. -/
theorem createDirectoryStructure_failure (w w1 w2 : World) (pre post : List String)
    (d : String) (err : Error)
    (hsplit : spekkaDirectories = pre ++ d :: post)
    (hpre : createDirectories pre w = (none, w1))
    (hfail : MkdirAll w1 d = (some err, w2)) :
    createDirectoryStructure w
      = (some (.wrap ("failed to create directory " ++ d ++ ": ") err), w2) ∧
    contains (Error.wrap ("failed to create directory " ++ d ++ ": ") err).message d ∧
    (Error.wrap ("failed to create directory " ++ d ++ ": ") err).wraps err = true ∧
    (∀ x ∈ pre, w2.fs.get x = some .dir) ∧
    (∀ x ∈ post, w2.fs.get x = w.fs.get x) := by
  have hrun : createDirectories (pre ++ [d]) w
      = (some (.wrap ("failed to create directory " ++ d ++ ": ") err), w2) := by
    rw [createDirectories_append, hpre]
    simp [createDirectories, hfail]
  refine ⟨?_, ?_, ?_, ?_, ?_⟩
  · have h2 : spekkaDirectories = (pre ++ [d]) ++ post := by rw [hsplit]; simp
    rw [createDirectoryStructure, h2, createDirectories_append, hrun]
  · simp only [Error.message]
    rw [String.append_assoc]
    exact contains_middle _ _ _
  · cases err <;> simp [Error.wraps]
  · intro x hx
    have hdir : w1.fs.get x = some .dir := by
      have := createDirectories_dirs pre w (by rw [hpre])
      rw [hpre] at this
      exact this x hx
    have hfr := (mkdirAllAux_frame (d :: (ancestors d).reverse) w1).2.2.2 x
    rw [MkdirAll] at hfail
    rw [hfail] at hfr
    rcases hfr with g | ⟨_, g, _⟩
    · rw [g, hdir]
    · rw [hdir] at g; simp at g
  · intro x hx
    have hnt := later_directory_untouched hsplit hx
    have hfr := (createDirectories_frame (pre ++ [d]) w).2.2.2 x
    rw [hrun] at hfr
    rcases hfr with g | ⟨g, _, _⟩
    · exact g
    · exact absurd g hnt

set_option maxRecDepth 1000000 in
/-- Witness for C19: in an empty directory where `mkdir .spekka/specs` is
refused, the third directory fails. -/
theorem createDirectoryStructure_failure_witness :
    (createDirectoryStructure blockedWorld).1.map Error.message = some
      "failed to create directory .spekka/specs: mkdir .spekka/specs: permission denied" ∧
    (createDirectoryStructure blockedWorld).2.fs.get ".spekka/product" = some .dir ∧
    (createDirectoryStructure blockedWorld).2.fs.get ".spekka/tasks" = none := by
  have h := createDirectoryStructure_failure blockedWorld
    (createDirectories [".spekka/standards", ".spekka/product"] blockedWorld).2
    (MkdirAll (createDirectories [".spekka/standards", ".spekka/product"] blockedWorld).2
      ".spekka/specs").2
    [".spekka/standards", ".spekka/product"]
    [".spekka/tasks", ".spekka/skills", ".spekka/profiles", ".spekka/verification",
      ".spekka/visuals"]
    ".spekka/specs" (.path "mkdir" ".spekka/specs" .EACCES) rfl
    (Prod.ext (by decide) rfl) (Prod.ext (by decide) rfl)
  have h2 := congrArg Prod.snd h.1
  simp only [] at h2
  refine ⟨by rw [h.1]; decide, ?_, ?_⟩
  · rw [h2]; exact h.2.2.2.1 _ (by decide)
  · rw [h2, h.2.2.2.2 _ (by decide)]; rfl

/-- A successful `MkdirAll` ends with `os.Stat` finding a directory at its
path. -/
theorem mkdirAllAux_stat (p : String) (parents : List String) (w : World)
    (hok : (mkdirAllAux (p :: parents) w).1 = none) :
    stat (mkdirAllAux (p :: parents) w).2 p = .ok .dir := by
  rw [mkdirAllAux] at hok ⊢
  cases h : stat w p with
  | ok n =>
    cases n with
    | dir => simp [h]
    | file c => simp [h] at hok
  | error e =>
    simp only [h] at hok ⊢
    rcases hrec : mkdirAllAux parents w with ⟨_ | err, w1⟩
    · simp only [hrec] at hok ⊢
      cases hmk : mkdir w1 p with
      | ok w2 =>
        have hres : resolveDir w1.fs p = none := by
          unfold mkdir at hmk
          split at hmk
          · simp at hmk
          · split at hmk
            · simp at hmk
            · rename_i hr; exact hr
        obtain ⟨hw2, _⟩ := mkdir_ok hmk
        subst hw2
        have hr2 : resolveDir (w1.fs.set p .dir) p = none := by
          apply (resolveDir_eq_none _ _).mpr
          intro a ha
          simp only [FS.get_set]
          split
          · rfl
          · exact (resolveDir_eq_none _ _).mp hres a ha
        simp [stat, hr2, FS.get_set]
      | error errno =>
        simp only [hmk] at hok ⊢
        cases h2 : stat w1 p with
        | ok n =>
          cases n with
          | dir => simp [h2]
          | file c => simp [h2] at hok
        | error e2 => simp [h2] at hok
    · simp [hrec] at hok

/-- `os.Stat` keeps its answer when existing entries are left alone. -/
theorem stat_ok_mono {w w' : World} {p : String} {n : Node}
    (hkeep : ∀ q, w.fs.get q ≠ none → w'.fs.get q = w.fs.get q)
    (h : stat w p = .ok n) : stat w' p = .ok n := by
  have hres : resolveDir w.fs p = none := by
    unfold stat at h
    split at h
    · simp at h
    · assumption
  have hget := stat_ok_get h
  have hres' : resolveDir w'.fs p = none := by
    apply (resolveDir_eq_none _ _).mpr
    intro a ha
    have hdir := (resolveDir_eq_none _ _).mp hres a ha
    rw [hkeep a (by rw [hdir]; simp), hdir]
  have hget' : w'.fs.get p = some n := by
    rw [hkeep p (by rw [hget]; simp), hget]
  simp [stat, hres', hget']

/-- `createDirectories` leaves existing entries alone. -/
theorem createDirectories_keeps (dirs : List String) (w : World) (q : String)
    (hq : w.fs.get q ≠ none) : (createDirectories dirs w).2.fs.get q = w.fs.get q := by
  rcases (createDirectories_frame dirs w).2.2.2 q with g | ⟨_, g, _⟩
  · exact g
  · exact absurd g hq

/-- After a successful `createDirectories`, `os.Stat` finds a directory at
every listed path. -/
theorem createDirectories_stat (dirs : List String) (w : World)
    (hok : (createDirectories dirs w).1 = none) :
    ∀ d ∈ dirs, stat (createDirectories dirs w).2 d = .ok .dir := by
  induction dirs generalizing w with
  | nil => simp
  | cons d dirs ih =>
    rw [createDirectories] at hok ⊢
    rcases hmk : MkdirAll w d with ⟨_ | err, w1⟩
    · simp only [hmk] at hok ⊢
      intro x hx
      rcases List.mem_cons.mp hx with rfl | hx
      · have hst : stat w1 x = .ok .dir := by
          have := mkdirAllAux_stat x (ancestors x).reverse w
          rw [MkdirAll] at hmk
          rw [hmk] at this
          exact this rfl
        exact stat_ok_mono (fun q hq => createDirectories_keeps dirs w1 q hq) hst
      · exact ih w1 hok x hx
    · simp [hmk] at hok

/-- `createDirectories` changes nothing when every listed path is already a
directory. -/
theorem createDirectories_noop (dirs : List String) (w : World)
    (h : ∀ d ∈ dirs, stat w d = .ok .dir) : createDirectories dirs w = (none, w) := by
  induction dirs with
  | nil => rfl
  | cons d dirs ih =>
    have hd : stat w d = .ok .dir := h d (List.mem_cons_self _ _)
    have hmk : MkdirAll w d = (none, w) := by
      simp [MkdirAll, mkdirAllAux, hd]
    rw [createDirectories, hmk]
    exact ih (fun x hx => h x (List.mem_cons_of_mem _ hx))

/-- C15: whenever `createDirectoryStructure` succeeds, running it again on
the resulting world succeeds too and returns that world unchanged; after a
success the eight manifest directories and their parent `.spekka` are
directories, and every entry that existed before (so every file inside
them) is as it was. -/
theorem createDirectoryStructure_idempotent (w : World)
    (hok : (createDirectoryStructure w).1 = none) :
    createDirectoryStructure (createDirectoryStructure w).2
      = (none, (createDirectoryStructure w).2) ∧
    (∀ d ∈ spekkaDirectories, (createDirectoryStructure w).2.fs.get d = some .dir) ∧
    (createDirectoryStructure w).2.fs.get ".spekka" = some .dir ∧
    (∀ q, w.fs.get q ≠ none → (createDirectoryStructure w).2.fs.get q = w.fs.get q) := by
  have hst := createDirectories_stat spekkaDirectories w hok
  refine ⟨?_, ?_, ?_, ?_⟩
  · exact createDirectories_noop spekkaDirectories _ hst
  · exact createDirectories_dirs spekkaDirectories w hok
  · have h1 := hst ".spekka/standards" (by decide)
    unfold stat at h1
    split at h1
    · simp at h1
    · rename_i hr
      exact (resolveDir_eq_none _ _).mp hr ".spekka" (by decide)
  · intro q hq
    exact createDirectories_keeps spekkaDirectories w q hq

set_option maxRecDepth 1000000 in
/-- Witness for C15: directory creation in the installation of the test
`force reinstallation`, which already has `.spekka` and a file in it. -/
theorem createDirectoryStructure_idempotent_witness :
    (createDirectoryStructure installedWorld).1 = none ∧
    createDirectoryStructure (createDirectoryStructure installedWorld).2
      = (none, (createDirectoryStructure installedWorld).2) ∧
    (createDirectoryStructure installedWorld).2.fs.get ".spekka/config.yaml"
      = some (.file "existing config") :=
  have h := createDirectoryStructure_idempotent installedWorld (by decide)
  ⟨by decide, h.1, by rw [h.2.2.2 _ (by decide)]; rfl⟩

/-! ## The steps of `runInstall` in order -/

theorem templates_not_directories :
    ∀ d ∈ spekkaDirectories, d ∉ templates.map Prod.fst ∧
      d ∉ (gitkeepEntries spekkaDirectories).map Prod.fst ∧ d ≠ ".spekka/config.yaml" := by
  decide

theorem templates_untouched_by_mkdir :
    ∀ p ∈ templates.map Prod.fst ++ (gitkeepEntries spekkaDirectories).map Prod.fst,
      p ∉ touchedByMkdir spekkaDirectories := by
  decide

theorem config_not_template :
    ".spekka/config.yaml" ∉ templates.map Prod.fst ∧
    ".spekka/config.yaml" ∉ (gitkeepEntries spekkaDirectories).map Prod.fst := by
  decide

/-- `createTemplateFiles`, whatever its outcome, leaves every path alone
that is neither a template key nor a marker file. -/
theorem createTemplateFiles_frame (order : List (String × String)) (w : World) (q : String)
    (hperm : order.Perm templates)
    (h1 : q ∉ templates.map Prod.fst)
    (h2 : q ∉ (gitkeepEntries spekkaDirectories).map Prod.fst) :
    (createTemplateFiles order w).2.fs.get q = w.fs.get q := by
  have hq : q ∉ order.map Prod.fst := fun h => h1 ((perm_keys hperm).mem_iff.mp h)
  have hfr := writeTemplates_frame order w q hq
  unfold createTemplateFiles
  rcases ht : writeTemplates order w with ⟨_ | e, wt⟩
  · rw [ht] at hfr
    simp only [] at hfr ⊢
    rw [(writeGitkeeps_eq spekkaDirectories wt).1, writeTemplates_frame _ wt q h2, hfr]
  · rw [ht] at hfr
    exact hfr

/-- C16: `runInstall` (no dry run, pre-check passed) runs backup, directory
creation, configuration file and templates in this order. When a step fails
the run returns that step's error, wrapped, together with the world that
step left: nothing later runs and nothing earlier is undone. In particular,
when writing `.spekka/config.yaml` fails after the directories were made,
all manifest directories exist and no `README.md` or `.gitkeep` path has
changed since the backup step; when the templates fail, the directories
and the new configuration file stay. -/
theorem runInstall_stops_at_failure (force : Bool) (order : List (String × String))
    (w : World) (hperm : order.Perm templates)
    (hpre : force = true ∨ configFileExists w = (false, none)) :
    (∀ err w1, afterBackup force w = (some err, w1) →
      runInstall force false order w
        = (some (.wrap "failed to backup existing configuration: " err), w1)) ∧
    (∀ w1 err w2, afterBackup force w = (none, w1) →
      createDirectoryStructure w1 = (some err, w2) →
      runInstall force false order w
        = (some (.wrap "failed to create directory structure: " err), w2) ∧
      w2.fs.get ".spekka/config.yaml" = w1.fs.get ".spekka/config.yaml") ∧
    (∀ w1 w2 err w3, afterBackup force w = (none, w1) →
      createDirectoryStructure w1 = (none, w2) →
      generateConfigFile w2 = (some err, w3) →
      runInstall force false order w
        = (some (.wrap "failed to generate configuration file: " err), w2) ∧
      (∀ d ∈ spekkaDirectories,
        (runInstall force false order w).2.fs.get d = some .dir) ∧
      (∀ p ∈ templates.map Prod.fst ++ (gitkeepEntries spekkaDirectories).map Prod.fst,
        (runInstall force false order w).2.fs.get p = w1.fs.get p)) ∧
    (∀ w1 w2 w3 err w4, afterBackup force w = (none, w1) →
      createDirectoryStructure w1 = (none, w2) →
      generateConfigFile w2 = (none, w3) →
      createTemplateFiles order w3 = (some err, w4) →
      runInstall force false order w
        = (some (.wrap "failed to create template files: " err), w4) ∧
      (∀ d ∈ spekkaDirectories, w4.fs.get d = some .dir) ∧
      w4.fs.get ".spekka/config.yaml" = some (.file getConfigTemplate)) := by
  have hcheck : (if (!force) = true then
      (match configFileExists w with
       | (_, some err) => some (Error.wrap "failed to check for existing installation: " err)
       | (true, none) => some (Error.text
          "Spekka is already installed in this directory.\nUse --force to reinstall or choose a different directory")
       | (false, none) => none)
    else none) = none := by
    rcases hpre with h | h
    · simp [h]
    · simp [h]
  have hdirs : ∀ w1 w2, createDirectoryStructure w1 = (none, w2) →
      ∀ d ∈ spekkaDirectories, w2.fs.get d = some .dir := by
    intro w1 w2 h2
    have := createDirectories_dirs spekkaDirectories w1
    rw [createDirectoryStructure] at h2
    rw [h2] at this
    exact this rfl
  have hframe : ∀ w1 e w2, createDirectoryStructure w1 = (e, w2) →
      ∀ q, q ∉ touchedByMkdir spekkaDirectories → w2.fs.get q = w1.fs.get q := by
    intro w1 e w2 h2 q hq
    have := (createDirectories_frame spekkaDirectories w1).2.2.2 q
    rw [createDirectoryStructure] at h2
    rw [h2] at this
    rcases this with g | ⟨g, _, _⟩
    · exact g
    · exact absurd g hq
  refine ⟨?_, ?_, ?_, ?_⟩
  · intro err w1 hb
    unfold afterBackup at hb
    unfold runInstall
    simp only [hcheck, Bool.false_eq_true, if_false, hb]
  · intro w1 err w2 hb h2
    unfold afterBackup at hb
    refine ⟨?_, hframe w1 _ w2 h2 _ (by decide)⟩
    unfold runInstall
    simp only [hcheck, Bool.false_eq_true, if_false, hb, h2]
  · intro w1 w2 err w3 hb h2 h3
    unfold afterBackup at hb
    have hw3 : w3 = w2 := by
      unfold generateConfigFile at h3
      cases hwf : writeFile w2 ".spekka/config.yaml" getConfigTemplate with
      | error errno => simp [hwf] at h3; exact h3.2.symm
      | ok w3' => simp [hwf] at h3
    subst hw3
    have hrun : runInstall force false order w
        = (some (.wrap "failed to generate configuration file: " err), w3) := by
      unfold runInstall
      simp only [hcheck, Bool.false_eq_true, if_false, hb, h2, h3]
    refine ⟨hrun, ?_, ?_⟩
    · rw [hrun]
      exact hdirs w1 w3 h2
    · intro p hp
      rw [hrun]
      exact hframe w1 _ w3 h2 p (templates_untouched_by_mkdir p hp)
  · intro w1 w2 w3 err w4 hb h2 h3 h4
    unfold afterBackup at hb
    have hw3 : w3 = { w2 with fs := w2.fs.set ".spekka/config.yaml" (.file getConfigTemplate) } := by
      unfold generateConfigFile at h3
      cases hwf : writeFile w2 ".spekka/config.yaml" getConfigTemplate with
      | error errno => simp [hwf] at h3
      | ok w3' =>
        simp only [hwf, Prod.mk.injEq, true_and] at h3
        rw [← h3]
        exact writeFile_ok hwf
    have hfr := fun q => createTemplateFiles_frame order w3 q hperm
    rw [h4] at hfr
    simp only [] at hfr
    refine ⟨?_, ?_, ?_⟩
    · unfold runInstall
      simp only [hcheck, Bool.false_eq_true, if_false, hb, h2, h3, h4]
    · intro d hd
      obtain ⟨k1, k2, k3⟩ := templates_not_directories d hd
      rw [hfr d k1 k2, hw3]
      simp [FS.get_set, k3, hdirs w1 w2 h2 d hd]
    · rw [hfr _ config_not_template.1 config_not_template.2, hw3]
      simp [FS.get_set]

set_option maxRecDepth 1000000 in
/-- Witness for C16: an empty directory in which writing
`.spekka/config.yaml` is refused. The run fails at the third step with the
directories in place and no template written. -/
theorem runInstall_stops_at_failure_witness :
    configFileExists readOnlyConfigWorld = (false, none) ∧
    (runInstall false false templates readOnlyConfigWorld).1.map Error.message = some
      "failed to generate configuration file: open .spekka/config.yaml: permission denied" ∧
    (runInstall false false templates readOnlyConfigWorld).2.fs.get ".spekka/visuals"
      = some .dir ∧
    (runInstall false false templates readOnlyConfigWorld).2.fs.get ".spekka/visuals/README.md"
      = none := by
  have h := (runInstall_stops_at_failure false templates readOnlyConfigWorld
    (List.Perm.refl _) (Or.inr (by decide))).2.2.1
    readOnlyConfigWorld (createDirectoryStructure readOnlyConfigWorld).2
    (.path "open" ".spekka/config.yaml" .EACCES)
    (createDirectoryStructure readOnlyConfigWorld).2
    rfl (Prod.ext (by decide) rfl) (Prod.ext (by decide) rfl)
  refine ⟨by decide, by rw [h.1]; decide, h.2.1 _ (by decide), ?_⟩
  rw [h.2.2 _ (by decide)]
  rfl

/-! ## What `--force` overwrites and what the dry run lists -/

set_option maxRecDepth 1000000 in
/-- C12, the code at the failing input: a forced reinstall over an
installation whose `README.md` and `.gitkeep` in `.spekka/standards` have
their own content succeeds, backs up the configuration file only, and
replaces both files; their old content is in no file afterwards. -/
theorem force_overwrites_templates :
    customizedWorld.fs.get ".spekka/standards/README.md" = some (.file "team standards") ∧
    customizedWorld.fs.get ".spekka/standards/.gitkeep" = some (.file "keep me") ∧
    (runInstall true false templates customizedWorld).1 = none ∧
    (runInstall true false templates customizedWorld).2.fs.get ".spekka/standards/README.md"
      = some (.file getStandardsTemplate) ∧
    (runInstall true false templates customizedWorld).2.fs.get ".spekka/standards/.gitkeep"
      = some (.file "") ∧
    (∀ e ∈ (runInstall true false templates customizedWorld).2.fs.entries,
      e.2 ≠ .file "team standards" ∧ e.2 ≠ .file "keep me") ∧
    (runInstall true false templates customizedWorld).2.fs.get
      ".spekka/config.yaml.backup-20240309-070501" = some (.file "existing config") := by
  have hok : (runInstall true false templates customizedWorld).1 = none := by decide
  obtain ⟨w1, -, -, -, hb, -⟩ := runInstall_ok_steps true templates customizedWorld hok
  obtain ⟨-, -, e3, -, -⟩ :=
    runInstall_effect true templates customizedWorld w1 (List.Perm.refl _) hb hok
  refine ⟨rfl, rfl, hok, ?_, ?_, ?_, ?_⟩
  · exact e3 (".spekka/standards/README.md", getStandardsTemplate) (List.mem_cons_self _ _)
  · decide
  · decide
  · decide

theorem print_out (w : World) (s : String) : (w.print s).out = w.out ++ [s] := rfl

theorem foldl_print_out (l : List String) (f : String → String) (w : World) :
    (l.foldl (fun w dir => w.print (f dir)) w).out = w.out ++ l.map f := by
  induction l generalizing w with
  | nil => simp
  | cons x xs ih => rw [List.foldl_cons, ih, print_out]; simp

/-- The output of `runDryRun` is what was there followed by `dryRunLines`. -/
theorem runDryRun_out (w : World) : (runDryRun w).2.out = w.out ++ dryRunLines := by
  simp only [runDryRun, foldl_print_out, print_out, dryRunLines]
  simp

set_option maxRecDepth 1000000 in
theorem dryRunLines_listing :
    listedDirectories dryRunLines = spekkaDirectories ∧
    listedFiles dryRunLines = ".spekka/config.yaml" :: templates.map Prod.fst := by
  constructor <;> decide

set_option maxRecDepth 1000000 in
/-- Counterexample to C14 as stated: a real installation in an empty
directory writes `.spekka/standards/.gitkeep` and creates the directory
`.spekka`, and the dry run in the same directory lists neither. -/
theorem dry_run_listing_counterexample :
    (runInstall false false templates freshWorld).1 = none ∧
    freshWorld.fs.get ".spekka/standards/.gitkeep" = none ∧
    (runInstall false false templates freshWorld).2.fs.get ".spekka/standards/.gitkeep"
      = some (.file "") ∧
    ".spekka/standards/.gitkeep" ∉ listedFiles (runDryRun freshWorld).2.out ∧
    freshWorld.fs.get ".spekka" = none ∧
    (runInstall false false templates freshWorld).2.fs.get ".spekka" = some .dir ∧
    ".spekka" ∉ listedDirectories (runDryRun freshWorld).2.out := by
  refine ⟨?_, rfl, ?_, ?_, rfl, ?_, ?_⟩ <;> decide

/-- C14, amended: the directories the dry run lists are exactly the eight
manifest directories, and the files it lists are exactly
`.spekka/config.yaml` and the `README.md` of each manifest directory; after
a successful real installation each listed directory is a directory and
each listed file is a file. The `.gitkeep` files, which a real installation
also writes, are not listed. -/
theorem dry_run_lists (w : World) :
    listedDirectories ((runDryRun w).2.out.drop w.out.length) = spekkaDirectories ∧
    listedFiles ((runDryRun w).2.out.drop w.out.length)
      = ".spekka/config.yaml" :: spekkaDirectories.map (fun d => filepathJoin d "README.md") ∧
    (∀ (force : Bool) (order : List (String × String)) (w' : World),
      order.Perm templates → (runInstall force false order w').1 = none →
      (∀ d ∈ listedDirectories ((runDryRun w).2.out.drop w.out.length),
        (runInstall force false order w').2.fs.get d = some .dir) ∧
      (∀ p ∈ listedFiles ((runDryRun w).2.out.drop w.out.length),
        isFile ((runInstall force false order w').2.fs.get p) = true) ∧
      (∀ d ∈ spekkaDirectories,
        isFile ((runInstall force false order w').2.fs.get (filepathJoin d ".gitkeep")) = true ∧
        filepathJoin d ".gitkeep" ∉ listedFiles ((runDryRun w).2.out.drop w.out.length))) := by
  have hout : (runDryRun w).2.out.drop w.out.length = dryRunLines := by
    rw [runDryRun_out]
    exact List.drop_left' rfl
  rw [hout]
  obtain ⟨hd, hf⟩ := dryRunLines_listing
  rw [hd, hf]
  refine ⟨rfl, by decide, ?_⟩
  intro force order w' hperm hok
  rcases hb : afterBackup force w' with ⟨_ | e1, w1⟩
  swap
  · obtain ⟨v1, -, -, -, h1, -⟩ := runInstall_ok_steps force order w' hok
    rw [hb] at h1
    simp at h1
  obtain ⟨e1, e2, e3, e4, -⟩ := runInstall_effect force order w' w1 hperm hb hok
  refine ⟨e2, ?_, ?_⟩
  · intro p hp
    rcases List.mem_cons.mp hp with rfl | hp
    · rw [e1]; rfl
    · obtain ⟨e, he, rfl⟩ := List.mem_map.mp hp
      rw [e3 e he]; rfl
  · intro d hd'
    refine ⟨by rw [e4 d hd']; rfl, ?_⟩
    revert d
    decide

/-! ## Paths -/

theorem splitPathAux_no_sep (cs acc : List Char) (hacc : '/' ∉ acc) :
    ∀ s ∈ splitPathAux acc cs, '/' ∉ s.data := by
  induction cs generalizing acc with
  | nil => simpa [splitPathAux] using hacc
  | cons c cs ih =>
    rw [splitPathAux]
    split
    · intro s hs
      rcases List.mem_cons.mp hs with rfl | hs
      · exact hacc
      · exact ih [] (by simp) s hs
    · rename_i hc
      apply ih
      simp only [List.mem_append, List.mem_singleton, not_or]
      exact ⟨hacc, fun h => hc h.symm⟩

theorem splitPathAux_length (cs acc : List Char) :
    (splitPathAux acc cs).length ≤ cs.length + 1 := by
  induction cs generalizing acc with
  | nil => simp [splitPathAux]
  | cons c cs ih =>
    rw [splitPathAux]
    split
    · simp only [List.length_cons]
      have := ih []
      omega
    · have := ih (acc ++ [c])
      simp only [List.length_cons]
      omega

theorem splitPathAux_sep (xs rest acc : List Char) (hxs : '/' ∉ xs) :
    splitPathAux acc (xs ++ '/' :: rest) = String.mk (acc ++ xs) :: splitPathAux [] rest := by
  induction xs generalizing acc with
  | nil => simp [splitPathAux]
  | cons x xs ih =>
    simp only [List.mem_cons, not_or] at hxs
    have hx : ¬ x = '/' := fun h => hxs.1 h.symm
    rw [List.cons_append, splitPathAux, if_neg hx, ih _ hxs.2]
    simp

theorem splitPathAux_last (xs acc : List Char) (hxs : '/' ∉ xs) :
    splitPathAux acc xs = [String.mk (acc ++ xs)] := by
  induction xs generalizing acc with
  | nil => simp [splitPathAux]
  | cons x xs ih =>
    simp only [List.mem_cons, not_or] at hxs
    have hx : ¬ x = '/' := fun h => hxs.1 h.symm
    rw [splitPathAux, if_neg hx, ih _ hxs.2]
    simp

theorem isName_iff (s : String) :
    isName s = true ↔ s ≠ "" ∧ s ≠ "." ∧ s ≠ ".." ∧ '/' ∉ s.data := by
  simp [isName, and_assoc]

theorem cleanElements_cons (rooted : Bool) (stack : List String) (seg : String)
    (rest : List String) :
    cleanElements rooted stack (seg :: rest) =
      if seg = "" ∨ seg = "." then cleanElements rooted stack rest
      else if seg = ".." then
        match stack with
        | [] =>
          if rooted then cleanElements rooted [] rest
          else cleanElements rooted [".."] rest
        | top :: below =>
          if top = ".." then cleanElements rooted (".." :: top :: below) rest
          else cleanElements rooted below rest
      else cleanElements rooted (seg :: stack) rest := by
  cases stack <;> rw [cleanElements]

theorem cleanElements_normal (rooted : Bool) (rest : List String) :
    ∀ (stack : List String) (k : Nat) (names : List String),
      stack = names ++ List.replicate k ".." → (∀ s ∈ names, isName s = true) →
      (rooted = true → k = 0) → (∀ s ∈ rest, '/' ∉ s.data) →
      NormalElems rooted (cleanElements rooted stack rest) ∧
        (cleanElements rooted stack rest).length ≤ stack.length + rest.length := by
  induction rest with
  | nil =>
    intro stack k names hs hn hk _
    subst hs
    refine ⟨⟨k, names.reverse, by simp [cleanElements], ?_, hk⟩,
      by simp [cleanElements]; omega⟩
    intro s hs
    exact hn s (List.mem_reverse.mp hs)
  | cons seg rest ih =>
    intro stack k names hs hn hk hrest
    have hrest' : ∀ s ∈ rest, '/' ∉ s.data := fun s h => hrest s (List.mem_cons_of_mem _ h)
    rw [cleanElements_cons]
    split
    · obtain ⟨h1, h2⟩ := ih stack k names hs hn hk hrest'
      exact ⟨h1, by simp only [List.length_cons]; omega⟩
    · rename_i hseg
      split
      · -- the segment is `..`
        cases names with
        | nil =>
          cases k with
          | zero =>
            simp only [List.replicate, List.append_nil] at hs
            subst hs
            simp only []
            split
            · obtain ⟨h1, h2⟩ := ih [] 0 [] rfl (by simp) (fun _ => rfl) hrest'
              exact ⟨h1, by simp only [List.length_cons] at h2 ⊢; omega⟩
            · rename_i hr
              obtain ⟨h1, h2⟩ := ih [".."] 1 [] rfl (by simp) (fun h => absurd h hr) hrest'
              exact ⟨h1, by simp only [List.length_cons, List.length_nil] at h2 ⊢; omega⟩
          | succ k' =>
            simp only [List.replicate, List.nil_append] at hs
            subst hs
            simp only [if_true]
            have hr : rooted = true → k' + 2 = 0 := fun h => absurd (hk h) (by omega)
            obtain ⟨h1, h2⟩ := ih (".." :: ".." :: List.replicate k' "..") (k' + 2) [] rfl
              (by simp) hr hrest'
            exact ⟨h1, by simp only [List.length_cons] at h2 ⊢; omega⟩
        | cons n ns =>
          simp only [List.cons_append] at hs
          subst hs
          have hnn : n ≠ ".." := ((isName_iff n).mp (hn n (List.mem_cons_self _ _))).2.2.1
          simp only [hnn, if_false]
          obtain ⟨h1, h2⟩ := ih (ns ++ List.replicate k "..") k ns rfl
            (fun s h => hn s (List.mem_cons_of_mem _ h)) hk hrest'
          exact ⟨h1, by simp only [List.length_cons] at h2 ⊢; omega⟩
      · rename_i hdd
        have hname : isName seg = true := by
          rw [isName_iff]
          exact ⟨fun h => hseg (Or.inl h), fun h => hseg (Or.inr h), hdd,
            hrest seg (List.mem_cons_self _ _)⟩
        subst hs
        obtain ⟨h1, h2⟩ := ih (seg :: (names ++ List.replicate k "..")) k (seg :: names) rfl
          (by
            intro s h
            rcases List.mem_cons.mp h with rfl | h
            · exact hname
            · exact hn s h) hk hrest'
        exact ⟨h1, by simp only [List.length_cons] at h2 ⊢; omega⟩

/-- Proper names pass through the element loop unchanged. -/
theorem cleanElements_names (rooted : Bool) (names rest stack : List String)
    (hn : ∀ s ∈ names, isName s = true) :
    cleanElements rooted stack (names ++ rest)
      = cleanElements rooted (names.reverse ++ stack) rest := by
  induction names generalizing stack with
  | nil => rfl
  | cons n ns ih =>
    obtain ⟨h1, h2, h3, -⟩ := (isName_iff n).mp (hn n (List.mem_cons_self _ _))
    rw [List.cons_append, cleanElements_cons]
    simp only [h1, h2, h3, or_self, if_false]
    rw [ih _ (fun s h => hn s (List.mem_cons_of_mem _ h))]
    simp

/-- Leading `..` elements of a relative path pile up. -/
theorem cleanElements_dotdots (k j : Nat) (rest : List String) :
    cleanElements false (List.replicate j "..") (List.replicate k ".." ++ rest)
      = cleanElements false (List.replicate (j + k) "..") rest := by
  induction k generalizing j with
  | zero => rfl
  | succ k ih =>
    have hd1 : ¬ (".." = "" ∨ ".." = ".") := by decide
    have hstep : cleanElements false (List.replicate j "..")
        (List.replicate (k + 1) ".." ++ rest)
        = cleanElements false (List.replicate (j + 1) "..") (List.replicate k ".." ++ rest) := by
      rw [List.replicate_succ, List.cons_append, cleanElements_cons]
      simp only [hd1, if_false, if_true]
      cases j with
      | zero => rfl
      | succ j => rfl
    rw [hstep, ih (j + 1)]
    congr 2
    omega

theorem cleanElements_skip (rooted : Bool) (stack rest : List String) :
    cleanElements rooted stack ("" :: rest) = cleanElements rooted stack rest := by
  rw [cleanElements_cons]
  simp

/-- Cleaning the elements of a cleaned path, with or without an empty
segment at the end, gives them back. -/
theorem cleanElements_normal_id (rooted : Bool) (elems : List String)
    (h : NormalElems rooted elems) :
    cleanElements rooted [] elems = elems ∧ cleanElements rooted [] (elems ++ [""]) = elems := by
  obtain ⟨k, names, rfl, hn, hk⟩ := h
  cases rooted with
  | true =>
    have hk0 := hk rfl
    subst hk0
    simp only [List.replicate, List.nil_append]
    constructor
    · have := cleanElements_names true names [] [] hn
      simp only [List.append_nil] at this
      rw [this]
      simp [cleanElements]
    · rw [cleanElements_names true names [""] [] hn, cleanElements_skip]
      simp [cleanElements]
  | false =>
    constructor
    · have h1 := cleanElements_dotdots k 0 names
      simp only [List.replicate, Nat.zero_add] at h1
      rw [h1]
      have h2 := cleanElements_names false names [] (List.replicate k "..") hn
      simp only [List.append_nil] at h2
      rw [h2]
      simp [cleanElements]
    · have h1 := cleanElements_dotdots k 0 (names ++ [""])
      simp only [List.replicate, Nat.zero_add] at h1
      rw [List.append_assoc, h1, cleanElements_names false names [""] _ hn, cleanElements_skip]
      simp [cleanElements]

theorem joinElements_snoc (elems : List String) (last : String) (h : elems ≠ []) :
    joinElements (elems ++ [last]) = joinElements elems ++ '/' :: last.data := by
  induction elems with
  | nil => exact absurd rfl h
  | cons a rest ih =>
    cases rest with
    | nil => simp [joinElements]
    | cons b rest =>
      have := ih (by simp)
      simp only [List.cons_append] at this ⊢
      simp only [joinElements, this, List.append_assoc, List.cons_append]

theorem NormalElems.no_sep {rooted : Bool} {elems : List String}
    (h : NormalElems rooted elems) : ∀ s ∈ elems, '/' ∉ s.data ∧ s ≠ "" := by
  obtain ⟨k, names, rfl, hn, -⟩ := h
  intro s hs
  rcases List.mem_append.mp hs with h1 | h1
  · obtain rfl := (List.mem_replicate.mp h1).2
    decide
  · obtain ⟨n1, -, -, n4⟩ := (isName_iff s).mp (hn s h1)
    exact ⟨n4, n1⟩

theorem NormalElems.init {rooted : Bool} {elems : List String} {last : String}
    (h : NormalElems rooted (elems ++ [last])) : NormalElems rooted elems := by
  obtain ⟨k, names, heq, hn, hk⟩ := h
  rcases List.eq_nil_or_concat names with rfl | ⟨ns, n, rfl⟩
  · simp only [List.append_nil] at heq
    cases k with
    | zero => simp at heq
    | succ k =>
      rw [List.replicate_succ'] at heq
      have := List.append_inj_left' heq (by simp)
      exact ⟨k, [], by simp [this], by simp, fun hr => absurd (hk hr) (by omega)⟩
  · rw [List.concat_eq_append, ← List.append_assoc] at heq
    have := List.append_inj_left' heq (by simp)
    refine ⟨k, ns, this, ?_, hk⟩
    intro s hs
    exact hn s (by simp [hs])

theorem splitPathAux_join (elems : List String) (rest : List Char)
    (hsep : ∀ s ∈ elems, '/' ∉ s.data) (hne : elems ≠ []) :
    splitPathAux [] (joinElements elems ++ '/' :: rest) = elems ++ splitPathAux [] rest := by
  induction elems with
  | nil => exact absurd rfl hne
  | cons a more ih =>
    have ha := hsep a (List.mem_cons_self _ _)
    cases more with
    | nil =>
      simp only [joinElements]
      rw [splitPathAux_sep _ _ _ ha]
      simp
    | cons b more =>
      have := ih (fun s h => hsep s (List.mem_cons_of_mem _ h)) (by simp)
      simp only [joinElements, List.append_assoc, List.cons_append]
      rw [splitPathAux_sep _ _ _ ha, this]
      simp

theorem dropWhile_append_all {α : Type} (p : α → Bool) (l m : List α)
    (h : ∀ x ∈ l, p x = true) : (l ++ m).dropWhile p = m.dropWhile p := by
  induction l with
  | nil => rfl
  | cons x xs ih =>
    have hx := h x (List.mem_cons_self _ _)
    simp only [List.cons_append, List.dropWhile_cons, hx, if_true]
    exact ih (fun y hy => h y (List.mem_cons_of_mem _ hy))

/-- The part of a path up to and including its last separator. -/
theorem dirPrefix_sep (xs ys : List Char) (hys : '/' ∉ ys) :
    ((xs ++ '/' :: ys).reverse.dropWhile (fun c => c ≠ '/')).reverse = xs ++ ['/'] := by
  have hall : ∀ x ∈ ys.reverse, (fun c : Char => decide (c ≠ '/')) x = true := by
    intro x hx
    have : x ≠ '/' := fun h => hys (h ▸ List.mem_reverse.mp hx)
    simpa using this
  rw [List.reverse_append, List.reverse_cons, List.append_assoc,
    dropWhile_append_all _ _ _ hall]
  simp

theorem dirPrefix_none (ys : List Char) (hys : '/' ∉ ys) :
    (ys.reverse.dropWhile (fun c => c ≠ '/')).reverse = [] := by
  have hall : ∀ x ∈ ys.reverse, (fun c : Char => decide (c ≠ '/')) x = true := by
    intro x hx
    have : x ≠ '/' := fun h => hys (h ▸ List.mem_reverse.mp hx)
    simpa using this
  have := dropWhile_append_all (fun c : Char => decide (c ≠ '/')) ys.reverse [] hall
  simp only [List.append_nil] at this
  rw [this]
  rfl

/-- On a cleaned path `filepath.Dir` removes the last element. -/
theorem Dir_renderPath (rooted : Bool) (elems : List String) (h : NormalElems rooted elems) :
    Dir (renderPath rooted elems) = renderPath rooted elems.dropLast := by
  rcases List.eq_nil_or_concat elems with rfl | ⟨init, last, rfl⟩
  · cases rooted <;> decide
  · rw [List.concat_eq_append] at h ⊢
    have hlast := (h.no_sep last (by simp)).1
    have hinit := h.init
    have hsep : ∀ s ∈ init, '/' ∉ s.data := fun s hs => (hinit.no_sep s hs).1
    obtain ⟨hid1, hid2⟩ := cleanElements_normal_id rooted init hinit
    simp only [List.dropLast_concat]
    cases hi : init with
    | nil =>
      subst hi
      cases rooted with
      | true =>
        have hp : ((renderPath true ([] ++ [last])).data.reverse.dropWhile
            (fun c => c ≠ '/')).reverse = ['/'] := by
          have := dirPrefix_sep [] last.data hlast
          simpa [renderPath, joinElements] using this
        rw [Dir, hp]
        decide
      | false =>
        have hp : ((renderPath false ([] ++ [last])).data.reverse.dropWhile
            (fun c => c ≠ '/')).reverse = [] := by
          have := dirPrefix_none last.data hlast
          simpa [renderPath, joinElements] using this
        rw [Dir, hp]
        decide
    | cons a more =>
      rw [← hi]
      have hne : init ≠ [] := by rw [hi]; simp
      have hjoin := joinElements_snoc init last hne
      cases rooted with
      | true =>
        have hp : ((renderPath true (init ++ [last])).data.reverse.dropWhile
            (fun c => c ≠ '/')).reverse = '/' :: joinElements init ++ ['/'] := by
          have := dirPrefix_sep ('/' :: joinElements init) last.data hlast
          simpa [renderPath, hjoin] using this
        rw [Dir, hp]
        have hsplit : splitPath (String.mk ('/' :: joinElements init ++ ['/']))
            = "" :: (init ++ [""]) := by
          have h1 := splitPathAux_sep [] (joinElements init ++ ['/']) [] (by simp)
          have h2 := splitPathAux_join init [] hsep hne
          simp only [splitPath]
          simp only [List.nil_append, List.cons_append] at h1 ⊢
          rw [h1, h2]
          simp [splitPathAux]
        have hroot : isRooted (String.mk ('/' :: joinElements init ++ ['/'])) = true := by
          simp [isRooted]
        rw [Clean, hroot, hsplit, cleanElements_skip, hid2]
      | false =>
        have hp : ((renderPath false (init ++ [last])).data.reverse.dropWhile
            (fun c => c ≠ '/')).reverse = joinElements init ++ ['/'] := by
          have := dirPrefix_sep (joinElements init) last.data hlast
          simpa [renderPath, hjoin] using this
        rw [Dir, hp]
        have hsplit : splitPath (String.mk (joinElements init ++ ['/'])) = init ++ [""] := by
          have h2 := splitPathAux_join init [] hsep hne
          simp only [splitPath]
          rw [h2]
          simp [splitPathAux]
        have hroot : isRooted (String.mk (joinElements init ++ ['/'])) = false := by
          have ha : '/' ∉ a.data ∧ a ≠ "" := hinit.no_sep a (by rw [hi]; simp)
          have hdata : a.data ≠ [] := fun h => ha.2 (String.ext h)
          rw [hi]
          cases hd : a.data with
          | nil => exact absurd hd hdata
          | cons c cs =>
            have hc : c ≠ '/' := fun h => ha.1 (by rw [hd, h]; simp)
            cases more <;> simp [isRooted, joinElements, hd, hc]
        rw [Clean, hroot, hsplit, hid2]

/-! ## The ancestor loop of `LoadConfig` ends -/

/-- `filepath.Clean` returns a cleaned path with at most one element per
segment of its argument. -/
theorem Clean_normal (x : String) :
    ∃ elems, Clean x = renderPath (isRooted x) elems ∧ NormalElems (isRooted x) elems ∧
      elems.length ≤ x.data.length + 1 := by
  have hsep := splitPathAux_no_sep x.data [] (by simp)
  obtain ⟨h1, h2⟩ := cleanElements_normal (isRooted x) (splitPath x) [] 0 [] rfl (by simp)
    (fun _ => rfl) hsep
  refine ⟨cleanElements (isRooted x) [] (splitPath x), rfl, h1, ?_⟩
  have := splitPathAux_length x.data []
  simp only [List.length_nil, Nat.zero_add, splitPath] at h2 ⊢
  omega

/-- `filepath.Dir` returns a cleaned path with no more elements than its
argument has characters, plus one. -/
theorem Dir_normal (p : String) :
    ∃ rooted elems, Dir p = renderPath rooted elems ∧ NormalElems rooted elems ∧
      elems.length ≤ p.length + 1 := by
  obtain ⟨elems, h1, h2, h3⟩ :=
    Clean_normal (String.mk (p.data.reverse.dropWhile (fun c => c ≠ '/')).reverse)
  refine ⟨_, elems, h1, h2, ?_⟩
  have hle : (p.data.reverse.dropWhile (fun c => decide (c ≠ '/'))).length ≤ p.data.length := by
    have := (List.dropWhile_sublist (fun c => decide (c ≠ '/')) (l := p.data.reverse)).length_le
    simpa using this
  simp only [List.length_reverse] at h3
  simp only [String.length]
  omega

theorem NormalElems.dropLast {rooted : Bool} {elems : List String}
    (h : NormalElems rooted elems) : NormalElems rooted elems.dropLast := by
  rcases List.eq_nil_or_concat elems with rfl | ⟨init, last, rfl⟩
  · exact h
  · rw [List.concat_eq_append] at h
    simpa using h.init

/-- From a cleaned path the loop ends within one iteration per element,
plus one. -/
theorem addAncestors_normal (host : Host) (fuel : Nat) :
    ∀ (rooted : Bool) (elems : List String) (v : Viper), NormalElems rooted elems →
      elems.length + 1 ≤ fuel →
      (addAncestors host fuel (renderPath rooted elems) v).isSome := by
  induction fuel with
  | zero => intro _ _ _ _ h; omega
  | succ fuel ih =>
    intro rooted elems v hn hlen
    rw [addAncestors]
    split
    · rfl
    · rename_i hne
      rw [Dir_renderPath rooted elems hn] at hne ⊢
      have hnonempty : elems ≠ [] := by
        rintro rfl
        exact hne rfl
      have hl : elems.dropLast.length + 1 ≤ fuel := by
        have := List.length_pos.mpr hnonempty
        simp only [List.length_dropLast]
        omega
      exact ih rooted elems.dropLast _ hn.dropLast hl

/-- The ancestor loop ends for every starting path within the iterations
`configuredViper` allows. -/
theorem addAncestors_isSome (host : Host) (p : String) (v : Viper) :
    (addAncestors host (p.length + 3) p v).isSome := by
  rw [addAncestors]
  split
  · rfl
  · obtain ⟨rooted, elems, h1, h2, h3⟩ := Dir_normal p
    rw [h1]
    exact addAncestors_normal host _ rooted elems _ h2 (by omega)

/-- More iterations than needed change nothing. -/
theorem addAncestors_mono (host : Host) (fuel : Nat) (p : String) (v v' : Viper)
    (h : addAncestors host fuel p v = some v') :
    addAncestors host (fuel + 1) p v = some v' := by
  induction fuel generalizing p v with
  | zero => simp [addAncestors] at h
  | succ fuel ih =>
    rw [addAncestors] at h ⊢
    split
    · rename_i heq
      simpa [← heq] using h
    · rename_i hne
      simp only [hne, if_false] at h
      exact ih _ _ h

theorem configuredViper_isSome (host : Host) (wd : String) :
    (configuredViper host wd).isSome := by
  have h := addAncestors_isSome host wd
    ((Viper.New.SetConfigName ".spekka").SetConfigType "yaml")
  obtain ⟨v, hv⟩ := Option.isSome_iff_exists.mp h
  simp only [configuredViper, hv]
  cases host.home <;> rfl

/-- `LoadConfig` always returns. -/
theorem LoadConfig_isSome (required : Bool) (lib : ViperLib) (host : Host) :
    (LoadConfig required lib host).isSome := by
  unfold LoadConfig
  cases hwd : host.getwd with
  | error err => rfl
  | ok wd =>
    have h := configuredViper_isSome host wd
    obtain ⟨v, hv⟩ := Option.isSome_iff_exists.mp h
    simp only [hv]
    cases hr : v.ReadInConfig lib host.files with
      | error e =>
        cases e with
        | notFound name locations => cases required <;> rfl
        | other err => rfl
      | ok settings =>
      simp only []
      cases lib.unmarshal settings <;> rfl

/-! ## The search paths of a clean absolute working directory -/

theorem splitPathAux_joinElements (elems : List String)
    (hsep : ∀ s ∈ elems, '/' ∉ s.data) (hne : elems ≠ []) :
    splitPathAux [] (joinElements elems) = elems := by
  induction elems with
  | nil => exact absurd rfl hne
  | cons a more ih =>
    have ha := hsep a (List.mem_cons_self _ _)
    cases more with
    | nil =>
      simp only [joinElements]
      rw [splitPathAux_last _ _ ha]
      simp
    | cons b more =>
      have := ih (fun s h => hsep s (List.mem_cons_of_mem _ h)) (by simp)
      simp only [joinElements]
      rw [splitPathAux_sep _ _ _ ha, this]
      simp

theorem joinElements_ne_nil (elems : List String) (hn : ∀ s ∈ elems, isName s = true)
    (hne : elems ≠ []) : joinElements elems ≠ [] := by
  cases elems with
  | nil => exact absurd rfl hne
  | cons a more =>
    have ha : a.data ≠ [] := fun h =>
      ((isName_iff a).mp (hn a (List.mem_cons_self _ _))).1 (String.ext h)
    cases more <;> simp [joinElements, ha]

/-- Different lists of names are different absolute paths. -/
theorem absPath_injective (x y : List String) (hx : ∀ s ∈ x, isName s = true)
    (hy : ∀ s ∈ y, isName s = true) (h : absPath x = absPath y) : x = y := by
  have hdata : joinElements x = joinElements y := by
    have := congrArg String.data h
    simpa [absPath, renderPath] using this
  have sepx : ∀ s ∈ x, '/' ∉ s.data := fun s hs => ((isName_iff s).mp (hx s hs)).2.2.2
  have sepy : ∀ s ∈ y, '/' ∉ s.data := fun s hs => ((isName_iff s).mp (hy s hs)).2.2.2
  by_cases hxe : x = []
  · by_cases hye : y = []
    · rw [hxe, hye]
    · exact absurd (hdata ▸ (by rw [hxe]; rfl)) (joinElements_ne_nil y hy hye)
  · by_cases hye : y = []
    · exact absurd (hdata.symm ▸ (by rw [hye]; rfl)) (joinElements_ne_nil x hx hxe)
    · rw [← splitPathAux_joinElements x sepx hxe, ← splitPathAux_joinElements y sepy hye, hdata]

theorem ancestorChain_snoc (init : List String) (last : String) :
    ancestorChain (init ++ [last]) = absPath (init ++ [last]) :: ancestorChain init := by
  simp [ancestorChain, List.inits_append, List.inits]

theorem mem_ancestorChain (comps : List String) (p : String) :
    p ∈ ancestorChain comps ↔ ∃ x, x <+: comps ∧ p = absPath x := by
  simp only [ancestorChain, List.mem_map, List.mem_reverse, List.mem_inits]
  constructor
  · rintro ⟨x, hx, rfl⟩; exact ⟨x, hx, rfl⟩
  · rintro ⟨x, hx, rfl⟩; exact ⟨x, hx, rfl⟩

/-- The search paths of a directory are pairwise different. -/
theorem ancestorChain_nodup (comps : List String) (hn : ∀ s ∈ comps, isName s = true) :
    (ancestorChain comps).Nodup := by
  induction comps using List.reverseRecOn with
  | nil => simp [ancestorChain]
  | append_singleton init last ih =>
    have hinit : ∀ s ∈ init, isName s = true := fun s hs => hn s (by simp [hs])
    rw [ancestorChain_snoc, List.nodup_cons]
    refine ⟨?_, ih hinit⟩
    intro hmem
    obtain ⟨x, hx, heq⟩ := (mem_ancestorChain init _).mp hmem
    have hxn : ∀ s ∈ x, isName s = true := fun s hs => hinit s (hx.subset hs)
    have := absPath_injective _ _ hn hxn heq
    have hlen := hx.length_le
    rw [← this] at hlen
    simp at hlen

/-! ## What viper does to a search path -/

/-- `os.Expand` leaves a text without `$` as it is. -/
theorem expandAux_id (mapping : String → String) (fuel : Nat) (s : List Char)
    (h : '$' ∉ s) : expandAux mapping fuel s = s := by
  induction fuel generalizing s with
  | zero => rfl
  | succ fuel ih =>
    cases s with
    | nil => rfl
    | cons c rest =>
      simp only [List.mem_cons, not_or] at h
      have hc : c ≠ '$' := fun e => h.1 e.symm
      rw [expandAux]
      simp only [hc, false_and, if_false]
      rw [ih rest h.2]

theorem ExpandEnv_id (host : Host) (s : String) (h : '$' ∉ s.data) :
    ExpandEnv host s = s := by
  unfold ExpandEnv Expand
  rw [expandAux_id _ _ _ h]

/-- An absolute path without `$` is cleaned by viper and not changed
otherwise. -/
theorem absPathify_rooted (host : Host) (p : String) (hr : isRooted p = true)
    (hd : '$' ∉ p.data) : absPathify host p = Clean p := by
  have h1 : p ≠ "$HOME" := by
    rintro rfl
    exact hd (by decide)
  have h2 : "$HOME/".data.isPrefixOf p.data = false := by
    cases hp : p.data with
    | nil => rfl
    | cons c cs =>
      rw [hp] at hd
      simp only [List.mem_cons, not_or] at hd
      have hc : c ≠ '$' := fun e => hd.1 e.symm
      have : ('$' == c) = false := by simpa using fun e => hc e.symm
      simp [List.isPrefixOf, this]
  unfold absPathify
  simp only [h1, h2, false_or, Bool.false_eq_true, if_false]
  rw [ExpandEnv_id host p hd]
  simp [hr]

theorem joinElements_no_dollar (elems : List String) (hd : ∀ s ∈ elems, '$' ∉ s.data) :
    '$' ∉ joinElements elems := by
  induction elems with
  | nil => simp [joinElements]
  | cons a more ih =>
    have ha := hd a (List.mem_cons_self _ _)
    cases more with
    | nil => simpa [joinElements] using ha
    | cons b more =>
      have := ih (fun s h => hd s (List.mem_cons_of_mem _ h))
      simp only [joinElements, List.mem_append, List.mem_cons, not_or]
      refine ⟨ha, by decide, ?_⟩
      simpa [joinElements] using this

/-- Cleaning a clean absolute path gives it back. -/
theorem Clean_absPath (comps : List String) (hn : ∀ s ∈ comps, isName s = true) :
    Clean (absPath comps) = absPath comps := by
  by_cases hne : comps = []
  · subst hne; decide
  · have hnorm : NormalElems true comps := ⟨0, comps, rfl, hn, fun _ => rfl⟩
    have hsep : ∀ s ∈ comps, '/' ∉ s.data := fun s hs => (hnorm.no_sep s hs).1
    have hroot : isRooted (absPath comps) = true := by
      simp [isRooted, absPath, renderPath]
    have hsplit : splitPath (absPath comps) = "" :: comps := by
      have := splitPathAux_sep [] (joinElements comps) [] (by simp)
      simp only [splitPath, absPath, renderPath, if_true]
      simp only [List.nil_append] at this
      rw [this, splitPathAux_joinElements comps hsep hne]
    unfold Clean
    rw [hroot, hsplit, cleanElements_skip, (cleanElements_normal_id true comps hnorm).1]
    rfl

/-- Viper stores a clean absolute path without `$` as it is. -/
theorem absPathify_absPath (host : Host) (comps : List String)
    (hn : ∀ s ∈ comps, isName s = true) (hd : ∀ s ∈ comps, '$' ∉ s.data) :
    absPathify host (absPath comps) = absPath comps := by
  have hroot : isRooted (absPath comps) = true := by
    simp [isRooted, absPath, renderPath]
  have hdollar : '$' ∉ (absPath comps).data := by
    have := joinElements_no_dollar comps hd
    simp only [absPath, renderPath, if_true, List.mem_cons, not_or]
    exact ⟨by decide, this⟩
  rw [absPathify_rooted host _ hroot hdollar, Clean_absPath comps hn]

theorem absPath_ne_empty (comps : List String) : absPath comps ≠ "" := by
  intro h
  have := congrArg String.data h
  simp [absPath, renderPath] at this

theorem AddConfigPath_absPath (host : Host) (v : Viper) (comps : List String)
    (hn : ∀ s ∈ comps, isName s = true) (hd : ∀ s ∈ comps, '$' ∉ s.data)
    (hnew : absPath comps ∉ v.configPaths) :
    v.AddConfigPath host (absPath comps)
      = { v with configPaths := v.configPaths ++ [absPath comps] } := by
  unfold Viper.AddConfigPath
  simp only [absPath_ne_empty, if_false, absPathify_absPath host comps hn hd, hnew]

/-- From a clean absolute path without `$` the loop adds the directory and
its ancestors, nearest first, and ends at the root, when none of them is
among the paths already there. -/
theorem addAncestors_absPath (host : Host) (comps : List String)
    (hn : ∀ s ∈ comps, isName s = true) (hd : ∀ s ∈ comps, '$' ∉ s.data) :
    ∀ (fuel : Nat) (v : Viper), comps.length + 1 ≤ fuel →
      (∀ p ∈ ancestorChain comps, p ∉ v.configPaths) →
      addAncestors host fuel (absPath comps) v
        = some { v with configPaths := v.configPaths ++ ancestorChain comps } := by
  induction comps using List.reverseRecOn with
  | nil =>
    intro fuel v hf hnew
    obtain ⟨f, rfl⟩ : ∃ f, fuel = f + 1 := ⟨fuel - 1, by simp at hf; omega⟩
    have hdir : absPath [] = Dir (absPath []) := by decide
    have hroot : absPath [] ∉ v.configPaths := hnew _ (by simp [ancestorChain])
    rw [addAncestors, AddConfigPath_absPath host v [] hn hd hroot]
    simp [← hdir, ancestorChain]
  | append_singleton init last ih =>
    intro fuel v hf hnew
    have hinit : ∀ s ∈ init, isName s = true := fun s hs => hn s (by simp [hs])
    have hdinit : ∀ s ∈ init, '$' ∉ s.data := fun s hs => hd s (by simp [hs])
    obtain ⟨f, rfl⟩ : ∃ f, fuel = f + 1 := ⟨fuel - 1, by simp at hf; omega⟩
    have hnorm : NormalElems true (init ++ [last]) := ⟨0, init ++ [last], rfl, hn, fun _ => rfl⟩
    have hdir : Dir (absPath (init ++ [last])) = absPath init := by
      have := Dir_renderPath true (init ++ [last]) hnorm
      simpa [absPath] using this
    have hne : absPath (init ++ [last]) ≠ absPath init := by
      intro h
      have := absPath_injective _ _ hn hinit h
      simp at this
    have hnd := ancestorChain_nodup (init ++ [last]) hn
    rw [ancestorChain_snoc, List.nodup_cons] at hnd
    rw [ancestorChain_snoc] at hnew
    have hfirst : absPath (init ++ [last]) ∉ v.configPaths := hnew _ (List.mem_cons_self _ _)
    rw [addAncestors, hdir, AddConfigPath_absPath host v _ hn hd hfirst]
    simp only [hne, if_false]
    rw [ih hinit hdinit f _ (by simp at hf; omega)]
    · simp [ancestorChain_snoc]
    · intro p hp
      simp only [List.mem_append, List.mem_singleton, not_or]
      refine ⟨hnew p (List.mem_cons_of_mem _ hp), ?_⟩
      rintro rfl
      exact hnd.1 hp

theorem addAncestors_mono_le (host : Host) (fuel fuel' : Nat) (p : String) (v v' : Viper)
    (hle : fuel ≤ fuel') (h : addAncestors host fuel p v = some v') :
    addAncestors host fuel' p v = some v' := by
  induction hle with
  | refl => exact h
  | step _ ih => exact addAncestors_mono _ _ _ _ _ ih

/-- With the iterations `configuredViper` allows, the loop gives the same
paths. -/
theorem addAncestors_absPath_fuel (host : Host) (comps : List String)
    (hn : ∀ s ∈ comps, isName s = true) (hd : ∀ s ∈ comps, '$' ∉ s.data)
    (v : Viper) (hnew : ∀ p ∈ ancestorChain comps, p ∉ v.configPaths) :
    addAncestors host ((absPath comps).length + 3) (absPath comps) v
      = some { v with configPaths := v.configPaths ++ ancestorChain comps } := by
  have h1 := addAncestors_absPath host comps hn hd (comps.length + 1) v (le_refl _) hnew
  obtain ⟨v', hv'⟩ := Option.isSome_iff_exists.mp (addAncestors_isSome host (absPath comps) v)
  have hmax1 := addAncestors_mono_le host _
    (max (comps.length + 1) ((absPath comps).length + 3)) _ _ _ (le_max_left _ _) h1
  have hmax2 := addAncestors_mono_le host _
    (max (comps.length + 1) ((absPath comps).length + 3)) _ _ _ (le_max_right _ _) hv'
  rw [hmax1] at hmax2
  rw [hv', ← hmax2]

/-- The search paths `LoadConfig` hands to viper for a clean absolute
working directory without `$`: the directory and its ancestors, then the
home directory unless it is one of them. -/
theorem configuredViper_absPath (host : Host) (comps : List String)
    (hn : ∀ s ∈ comps, isName s = true) (hd : ∀ s ∈ comps, '$' ∉ s.data) :
    configuredViper host (absPath comps)
      = some { configName := ".spekka", configType := "yaml",
               configPaths := ancestorChain comps ++ homePaths host (ancestorChain comps) } := by
  have h := addAncestors_absPath_fuel host comps hn hd
    ((Viper.New.SetConfigName ".spekka").SetConfigType "yaml")
    (by simp [Viper.New, Viper.SetConfigName, Viper.SetConfigType])
  simp only [configuredViper, h]
  cases hh : host.home with
  | error e => simp [homePaths, hh, Viper.New, Viper.SetConfigName, Viper.SetConfigType]
  | ok home =>
    by_cases he : home = ""
    · simp [homePaths, hh, he, Viper.New, Viper.SetConfigName, Viper.SetConfigType,
        Viper.AddConfigPath]
    · by_cases hm : absPathify host home ∈ ancestorChain comps
      · simp [homePaths, hh, he, hm, Viper.New, Viper.SetConfigName, Viper.SetConfigType,
          Viper.AddConfigPath]
      · simp [homePaths, hh, he, hm, Viper.New, Viper.SetConfigName, Viper.SetConfigType,
          Viper.AddConfigPath]

/-! ## `LoadConfig` -/

theorem contains_left (a b : String) : contains (a ++ b) a := by
  unfold contains
  exact ⟨[], b.data, by simp [String.data_append]⟩

/-- Name and type of the viper instance are those `LoadConfig` sets. -/
theorem AddConfigPath_name (v : Viper) (host : Host) (path : String) :
    (v.AddConfigPath host path).configName = v.configName ∧
    (v.AddConfigPath host path).configType = v.configType := by
  unfold Viper.AddConfigPath
  split
  · exact ⟨rfl, rfl⟩
  · simp only []
    split <;> exact ⟨rfl, rfl⟩

theorem addAncestors_name (host : Host) (fuel : Nat) (p : String) (v v' : Viper)
    (h : addAncestors host fuel p v = some v') :
    v'.configName = v.configName ∧ v'.configType = v.configType := by
  induction fuel generalizing p v with
  | zero => simp [addAncestors] at h
  | succ fuel ih =>
    rw [addAncestors] at h
    have hadd := AddConfigPath_name v host p
    split at h
    · obtain rfl := Option.some.inj h
      exact hadd
    · have := ih _ _ h
      exact ⟨this.1.trans hadd.1, this.2.trans hadd.2⟩

theorem configuredViper_name (host : Host) (wd : String) (v : Viper)
    (h : configuredViper host wd = some v) :
    v.configName = ".spekka" ∧ v.configType = "yaml" := by
  unfold configuredViper at h
  cases ha : addAncestors host (wd.length + 3) wd
      ((Viper.New.SetConfigName ".spekka").SetConfigType "yaml") with
  | none => simp [ha] at h
  | some v1 =>
    have h1 := addAncestors_name host _ _ _ _ ha
    simp only [ha] at h
    cases hh : host.home with
    | error e =>
      simp only [hh] at h
      obtain rfl := Option.some.inj h
      exact h1
    | ok home =>
      simp only [hh] at h
      obtain rfl := Option.some.inj h
      have h2 := AddConfigPath_name v1 host home
      exact ⟨h2.1.trans h1.1, h2.2.trans h1.2⟩

set_option maxRecDepth 1000000 in
/-- Counterexample to C11 as stated: the working directory `/work/project`
holds an empty file `.spekka.yml` and no directory searched holds a file
named `.spekka.yaml`. Viper tries the name `.spekka` with every extension
it supports, finds `.spekka.yml`, and `LoadConfig(true)` returns a `Config`
and no error instead of the not-found error. -/
theorem other_extension_counterexample :
    configuredViper ymlHost "/work/project"
      = some ⟨".spekka", "yaml", ["/work/project", "/work", "/", "/home/user"]⟩ ∧
    (∀ d ∈ ["/work/project", "/work", "/", "/home/user"],
      ymlHost.files (Join [d, ".spekka.yaml"]) = none) ∧
    ymlHost.files "/work/project/.spekka.yml" = some (.file "") ∧
    LoadConfig true (sampleLib supportedNames) ymlHost = some (some {}, none) := by
  refine ⟨?_, ?_, ?_, ?_⟩ <;> decide

/-- C11, amended: viper looks in every search path (the working directory,
its ancestors, the home directory) for `.spekka` with each extension it
supports and then for the bare name `.spekka`. When none of these is a
regular file in any search path, `LoadConfig(false)` returns a non-nil
`Config` equal to the zero value and no error, and `LoadConfig(true)`
returns a nil `Config` and an error saying that the configuration file
`.spekka.yaml` was not found. -/
theorem LoadConfig_not_found (lib : ViperLib) (host : Host) (wd : String)
    (hwd : host.getwd = .ok wd)
    (hnames : lib.fileNames ".spekka" "yaml" = supportedNames ".spekka" "yaml")
    (hnone : ∀ v, configuredViper host wd = some v →
      ∀ d ∈ v.configPaths, ∀ n ∈ supportedNames ".spekka" "yaml",
        isFile (host.files (Join [d, n])) = false) :
    supportedNames ".spekka" "yaml"
      = [".spekka.json", ".spekka.toml", ".spekka.yaml", ".spekka.yml", ".spekka.properties",
         ".spekka.props", ".spekka.prop", ".spekka.hcl", ".spekka.tfvars", ".spekka.dotenv",
         ".spekka.env", ".spekka.ini", ".spekka"] ∧
    LoadConfig false lib host = some (some {}, none) ∧
    (∃ err, LoadConfig true lib host = some (none, some err) ∧
      contains err.message "configuration file .spekka.yaml not found") ∧
    ({} : Config) = ⟨⟨"", ""⟩, ⟨"", []⟩, ⟨""⟩, ⟨""⟩, ⟨""⟩⟩ := by
  obtain ⟨v, hv⟩ := Option.isSome_iff_exists.mp (configuredViper_isSome host wd)
  obtain ⟨hname, htype⟩ := configuredViper_name host wd v hv
  have hfind : v.findConfigFile lib host.files = none := by
    unfold Viper.findConfigFile Viper.candidates
    rw [List.find?_eq_none]
    intro f hf
    obtain ⟨d, hd, hf⟩ := List.mem_flatMap.mp hf
    obtain ⟨n, hn, rfl⟩ := List.mem_map.mp hf
    rw [hname, htype, hnames] at hn
    simp [hnone v hv d hd n hn]
  have hread : v.ReadInConfig lib host.files = .error (.notFound v.configName v.configPaths) := by
    simp [Viper.ReadInConfig, hfind]
  refine ⟨by decide, ?_, ?_, rfl⟩
  · simp [LoadConfig, hwd, hv, hread]
  · refine ⟨_, by simp [LoadConfig, hwd, hv, hread]; rfl, ?_⟩
    simp only [Error.message]
    exact contains_left _ _

set_option maxRecDepth 1000000 in
/-- C11, amended, at work: the machine of the test `TestLoadConfig_NotFound`,
a working directory with no configuration file in reach. -/
theorem LoadConfig_not_found_witness :
    LoadConfig false (sampleLib supportedNames) bareHost = some (some {}, none) ∧
    (LoadConfig true (sampleLib supportedNames) bareHost).map
        (fun r => (r.1, r.2.map Error.message))
      = some (none, some
        "configuration file .spekka.yaml not found: Config File \".spekka\" Not Found in \"[/work/project /work / /home/user]\"") :=
  have h := LoadConfig_not_found (sampleLib supportedNames) bareHost "/work/project" rfl rfl
    (by
      intro v hv
      have hv' : v = ⟨".spekka", "yaml", ["/work/project", "/work", "/", "/home/user"]⟩ := by
        have : configuredViper bareHost "/work/project"
            = some ⟨".spekka", "yaml", ["/work/project", "/work", "/", "/home/user"]⟩ := by
          decide
        rw [this] at hv
        exact (Option.some.inj hv).symm
      subst hv'
      decide)
  ⟨h.2.1, by decide⟩

/-- C17: when the configuration file viper finds does not decode as YAML,
`LoadConfig` returns a nil `Config` and a non-nil error that wraps the
decoder's failure and carries its text, whether or not the file is
required; no `Config` is returned at all. -/
theorem LoadConfig_invalid_yaml (required : Bool) (lib : ViperLib) (host : Host)
    (wd : String) (v : Viper) (filename content : String) (err : Error)
    (hwd : host.getwd = .ok wd) (hv : configuredViper host wd = some v)
    (hfound : v.findConfigFile lib host.files = some filename)
    (hcontent : host.files filename = some (.file content))
    (hbad : lib.parse content = .error err) :
    LoadConfig required lib host
      = some (none, some (.wrap "failed to read configuration file: "
          (.wrap "While parsing config: " err))) ∧
    (Error.wrap "failed to read configuration file: "
      (.wrap "While parsing config: " err)).wraps err = true ∧
    contains (Error.wrap "failed to read configuration file: "
      (.wrap "While parsing config: " err)).message err.message := by
  have hread : v.ReadInConfig lib host.files
      = .error (.other (.wrap "While parsing config: " err)) := by
    simp [Viper.ReadInConfig, hfound, hcontent, hbad]
  refine ⟨by simp [LoadConfig, hwd, hv, hread], ?_, ?_⟩
  · cases err <;> simp [Error.wraps]
  · unfold contains
    exact ⟨("failed to read configuration file: " ++ "While parsing config: ").data, [],
      by simp [Error.message, String.data_append]⟩

set_option maxRecDepth 1000000 in
/-- Witness for C17: the machine of the test `TestLoadConfig_InvalidYAML`. -/
theorem LoadConfig_invalid_yaml_witness :
    (LoadConfig true (sampleLib supportedNames) brokenYamlHost).map
        (fun r => (r.1, r.2.map Error.message))
      = some (none, some
        "failed to read configuration file: While parsing config: yaml: line 3: mapping values are not allowed in this context") :=
  have h := LoadConfig_invalid_yaml true (sampleLib supportedNames) brokenYamlHost
    "/work/project" ⟨".spekka", "yaml", ["/work/project", "/work", "/", "/home/user"]⟩
    "/work/project/.spekka.yaml" invalidYaml
    (.text "yaml: line 3: mapping values are not allowed in this context")
    rfl (by decide) (by decide) rfl rfl
  by rw [h.1]; decide

set_option maxRecDepth 1000000 in
/-- C13, the code at the failing input: after a successful first
installation in the empty directory `/work/project`, the file the installer
wrote is `.spekka/config.yaml`; there is no `.spekka.yaml`, and
`LoadConfig(true)` run from that directory fails with the not-found error,
whether viper looks for `.spekka.yaml` alone or for `.spekka` with every
supported extension. -/
theorem install_then_LoadConfig_fails :
    (runInstall false false templates freshWorld).1 = none ∧
    isFile (installedHost.files "/work/project/.spekka/config.yaml") = true ∧
    installedHost.files "/work/project/.spekka.yaml" = none ∧
    LoadConfig true (sampleLib documentedNames) installedHost
      = some (none, some (.wrap "configuration file .spekka.yaml not found: "
          (.text "Config File \".spekka\" Not Found in \"[/work/project /work / /home/user]\""))) ∧
    LoadConfig true (sampleLib supportedNames) installedHost
      = some (none, some (.wrap "configuration file .spekka.yaml not found: "
          (.text "Config File \".spekka\" Not Found in \"[/work/project /work / /home/user]\""))) := by
  refine ⟨?_, ?_, ?_, ?_, ?_⟩ <;> decide

theorem ancestorChain_getElem (comps : List String) :
    ∀ k, k ≤ comps.length →
      (ancestorChain comps)[k]? = some (absPath (comps.take (comps.length - k))) := by
  induction comps using List.reverseRecOn with
  | nil =>
    intro k hk
    have : k = 0 := by simpa using hk
    subst this
    rfl
  | append_singleton init last ih =>
    intro k hk
    rw [ancestorChain_snoc]
    cases k with
    | zero =>
      have htake : List.take (init.length + 1) (init ++ [last]) = init ++ [last] :=
        List.take_of_length_le (by simp)
      simp [htake]
    | succ k =>
      simp only [List.length_append, List.length_singleton] at hk ⊢
      rw [List.getElem?_cons_succ, ih k (by omega)]
      congr 2
      rw [show init.length + 1 - (k + 1) = init.length - k by omega]
      exact (List.take_append_of_le_length (by omega)).symm

/-- The first search path that holds a configuration file wins. -/
theorem findConfigFile_first (lib : ViperLib) (files : String → Option Node) (v : Viper)
    (pre post : List String) (dir name : String)
    (hpaths : v.configPaths = pre ++ dir :: post)
    (hpre : ∀ d ∈ pre, ∀ n ∈ lib.fileNames v.configName v.configType,
      isFile (files (Join [d, n])) = false)
    (hname : name ∈ lib.fileNames v.configName v.configType)
    (hfile : isFile (files (Join [dir, name])) = true) :
    ∃ n ∈ lib.fileNames v.configName v.configType,
      v.findConfigFile lib files = some (Join [dir, n]) ∧
      isFile (files (Join [dir, n])) = true := by
  unfold Viper.findConfigFile Viper.candidates
  rw [hpaths, List.flatMap_append, List.flatMap_cons, List.find?_append, List.find?_append]
  have h1 : (pre.flatMap (fun dir =>
      (lib.fileNames v.configName v.configType).map (fun name => Join [dir, name]))).find?
      (fun f => isFile (files f)) = none := by
    rw [List.find?_eq_none]
    intro f hf
    obtain ⟨d, hd, hf⟩ := List.mem_flatMap.mp hf
    obtain ⟨n, hn, rfl⟩ := List.mem_map.mp hf
    simp [hpre d hd n hn]
  rw [h1]
  cases h2 : ((lib.fileNames v.configName v.configType).map (fun name => Join [dir, name])).find?
      (fun f => isFile (files f)) with
  | none =>
    rw [List.find?_eq_none] at h2
    have := h2 (Join [dir, name]) (List.mem_map.mpr ⟨name, hname, rfl⟩)
    simp [hfile] at this
  | some f =>
    obtain ⟨n, hn, rfl⟩ := List.mem_map.mp (List.mem_of_find?_eq_some h2)
    exact ⟨n, hn, by simp, by simpa using List.find?_some h2⟩

set_option maxRecDepth 1000000 in
/-- Counterexample to C18 as stated: the working directory
`/home/user/project` lies below the home directory `/home/user`. Viper
skips a path it already has, so the search paths end with the root and the
home directory does not follow it: it stays where the walk put it, second
in the list. -/
theorem home_above_counterexample :
    absPath ["home", "user", "project"] = "/home/user/project" ∧
    configuredViper homeProjectHost "/home/user/project"
      = some { configName := ".spekka", configType := "yaml",
               configPaths := ["/home/user/project", "/home/user", "/home", "/"] } ∧
    ancestorChain ["home", "user", "project"]
      = ["/home/user/project", "/home/user", "/home", "/"] ∧
    configuredViper homeProjectHost "/home/user/project"
      ≠ some { configName := ".spekka", configType := "yaml",
               configPaths := ancestorChain ["home", "user", "project"] ++ ["/home/user"] } := by
  refine ⟨?_, ?_, ?_, ?_⟩ <;> decide

/-- C18, amended: the ancestor loop of `LoadConfig` ends for every starting
path. For a clean absolute working directory `/c1/.../cn` without `$` the
search paths viper keeps are the directory itself, then each ancestor,
nearest first, each once, down to the root `/`, followed by the home
directory, made absolute and clean, when `os.UserHomeDir` gives one that is
not empty and not in the list already (for an absolute home directory
without `$`: when its cleaned path is neither the working directory nor an
ancestor of it); no path is in the list twice. Viper takes the
configuration file from the first search path that holds one, so a nearer
directory wins over a farther ancestor and over a home directory added at
the end. -/
theorem LoadConfig_search_paths (comps : List String) (host : Host)
    (hn : ∀ s ∈ comps, isName s = true) (hd : ∀ s ∈ comps, '$' ∉ s.data) :
    (∀ (p : String) (v : Viper), (addAncestors host (p.length + 3) p v).isSome = true) ∧
    configuredViper host (absPath comps)
      = some { configName := ".spekka", configType := "yaml",
               configPaths := ancestorChain comps ++ homePaths host (ancestorChain comps) } ∧
    (ancestorChain comps).length = comps.length + 1 ∧
    (∀ k, k ≤ comps.length →
      (ancestorChain comps)[k]? = some (absPath (comps.take (comps.length - k)))) ∧
    (ancestorChain comps).head? = some (absPath comps) ∧
    (ancestorChain comps).getLast? = some "/" ∧
    (ancestorChain comps ++ homePaths host (ancestorChain comps)).Nodup ∧
    (∀ home, host.home = .ok home → isRooted home = true → '$' ∉ home.data →
      homePaths host (ancestorChain comps)
        = if Clean home ∈ ancestorChain comps then [] else [Clean home]) ∧
    (∀ (lib : ViperLib) (v : Viper) (pre post : List String) (dir name : String),
      v.configPaths = pre ++ dir :: post →
      (∀ d ∈ pre, ∀ n ∈ lib.fileNames v.configName v.configType,
        isFile (host.files (Join [d, n])) = false) →
      name ∈ lib.fileNames v.configName v.configType →
      isFile (host.files (Join [dir, name])) = true →
      ∃ n ∈ lib.fileNames v.configName v.configType,
        v.findConfigFile lib host.files = some (Join [dir, n])) := by
  refine ⟨addAncestors_isSome host, configuredViper_absPath host comps hn hd, ?_,
    ancestorChain_getElem comps, ?_, ?_, ?_, ?_, ?_⟩
  · simp [ancestorChain, List.length_inits]
  · have := ancestorChain_getElem comps 0 (Nat.zero_le _)
    rw [List.head?_eq_getElem?]
    simpa using this
  · have h1 := ancestorChain_getElem comps comps.length (le_refl _)
    have hlen : (ancestorChain comps).length = comps.length + 1 := by
      simp [ancestorChain, List.length_inits]
    rw [List.getLast?_eq_getElem?, hlen]
    simp only [Nat.add_sub_cancel]
    rw [h1]
    simp
    decide
  · rw [List.nodup_append]
    refine ⟨ancestorChain_nodup comps hn, ?_, ?_⟩
    · unfold homePaths
      cases host.home with
      | error e => simp
      | ok home => simp only []; split <;> simp
    · intro p hp hq
      unfold homePaths at hq
      cases hh : host.home with
      | error e => simp [hh] at hq
      | ok home =>
        simp only [hh] at hq
        split at hq
        · simp at hq
        · rename_i hcond
          simp only [List.mem_singleton] at hq
          subst hq
          exact hcond (Or.inr hp)
  · intro home hh hr hdl
    have hne : home ≠ "" := by
      rintro rfl
      simp [isRooted] at hr
    simp only [homePaths, hh, absPathify_rooted host home hr hdl, hne, false_or]
  · intro lib v pre post dir name hpaths hpre hname hfile
    obtain ⟨n, hn', hfind, -⟩ :=
      findConfigFile_first lib host.files v pre post dir name hpaths hpre hname hfile
    exact ⟨n, hn', hfind⟩

set_option maxRecDepth 1000000 in
/-- C18, amended, at work: the working directory `/work/project` with the
home directory `/home/user`, which is added at the end. -/
theorem LoadConfig_search_paths_witness :
    absPath ["work", "project"] = "/work/project" ∧
    configuredViper bareHost "/work/project"
      = some { configName := ".spekka", configType := "yaml",
               configPaths := ["/work/project", "/work", "/", "/home/user"] } ∧
    homePaths bareHost (ancestorChain ["work", "project"]) = ["/home/user"] :=
  have h := LoadConfig_search_paths ["work", "project"] bareHost (by decide) (by decide)
  ⟨by decide,
    by rw [show "/work/project" = absPath ["work", "project"] by decide, h.2.1]; decide,
    by rw [h.2.2.2.2.2.2.2.1 "/home/user" rfl (by decide) (by decide)]; decide⟩

/-! ## The layout of the timestamp and the order of backup names -/

theorem fixedDigits_length (w n : Nat) : (fixedDigits w n).length = w := by
  induction w generalizing n with
  | zero => rfl
  | succ w ih => simp [fixedDigits, ih]

theorem fixedDigits_zero (w : Nat) : fixedDigits w 0 = List.replicate w '0' := by
  induction w with
  | zero => rfl
  | succ w ih =>
    simp only [fixedDigits, Nat.zero_div, Nat.zero_mod, ih]
    rw [List.replicate_succ']
    rfl

theorem fixedDigits_isDigit (w n : Nat) : ∀ c ∈ fixedDigits w n, c.isDigit = true := by
  induction w generalizing n with
  | zero => simp [fixedDigits]
  | succ w ih =>
    intro c hc
    simp only [fixedDigits, List.mem_append, List.mem_singleton] at hc
    rcases hc with hc | rfl
    · exact ih _ c hc
    · have h : n % 10 < 10 := Nat.mod_lt _ (by decide)
      revert h
      generalize n % 10 = r
      intro h
      interval_cases r <;> decide

theorem toDigitsCore_step (fuel n : Nat) (ds : List Char) :
    Nat.toDigitsCore 10 (fuel + 1) n ds =
      if n / 10 = 0 then Nat.digitChar (n % 10) :: ds
      else Nat.toDigitsCore 10 fuel (n / 10) (Nat.digitChar (n % 10) :: ds) := by
  simp [Nat.toDigitsCore]

/-- With enough fuel the digit loop of `strconv` yields the significant
places of `n`; the places in front of them are zeros. -/
theorem toDigitsCore_fixed (w : Nat) : ∀ (n fuel : Nat) (ds : List Char),
    n < 10 ^ (w + 1) → n < fuel →
    ∃ k, k ≤ w ∧ Nat.toDigitsCore 10 fuel n ds = fixedDigits (w + 1 - k) n ++ ds ∧
      fixedDigits (w + 1) n = List.replicate k '0' ++ fixedDigits (w + 1 - k) n := by
  induction w with
  | zero =>
    intro n fuel ds hn hf
    obtain ⟨f, rfl⟩ : ∃ f, fuel = f + 1 := ⟨fuel - 1, by omega⟩
    refine ⟨0, le_refl _, ?_, by simp⟩
    have h0 : n / 10 = 0 := by omega
    rw [toDigitsCore_step, if_pos h0]
    simp [fixedDigits]
  | succ w ih =>
    intro n fuel ds hn hf
    obtain ⟨f, rfl⟩ : ∃ f, fuel = f + 1 := ⟨fuel - 1, by omega⟩
    rw [toDigitsCore_step]
    by_cases h0 : n / 10 = 0
    · refine ⟨w + 1, le_refl _, ?_, ?_⟩
      · rw [if_pos h0]
        have : w + 1 + 1 - (w + 1) = 1 := by omega
        rw [this]
        simp [fixedDigits]
      · have : w + 1 + 1 - (w + 1) = 1 := by omega
        rw [this]
        rw [fixedDigits, h0, fixedDigits_zero]
        simp [fixedDigits]
    · rw [if_neg h0]
      have hq : n / 10 < 10 ^ (w + 1) := by
        apply Nat.div_lt_of_lt_mul
        rw [pow_succ] at hn
        omega
      have hfq : n / 10 < f := by omega
      obtain ⟨k, hk, e1, e2⟩ := ih (n / 10) f (Nat.digitChar (n % 10) :: ds) hq hfq
      refine ⟨k, by omega, ?_, ?_⟩
      · have : w + 1 + 1 - k = (w + 1 - k) + 1 := by omega
        rw [e1, this]
        simp [fixedDigits]
      · have : w + 1 + 1 - k = (w + 1 - k) + 1 := by omega
        rw [this]
        conv => lhs; rw [fixedDigits, e2]
        simp [fixedDigits]

/-- Go function `appendInt` of package `time`, on a number that fits the
width: exactly `width` places, padded with zeros. -/
theorem appendInt_data (w n : Nat) (hn : n < 10 ^ (w + 1)) :
    (appendInt n (w + 1)).data = fixedDigits (w + 1) n := by
  obtain ⟨k, hk, e1, e2⟩ := toDigitsCore_fixed w n (n + 1) [] hn (Nat.lt_succ_self n)
  have hd : Nat.toDigits 10 n = fixedDigits (w + 1 - k) n := by
    simpa [Nat.toDigits] using e1
  simp only [appendInt, hd, fixedDigits_length]
  have : w + 1 - (w + 1 - k) = k := by omega
  rw [this, e2]

theorem Format_data (t : Time) (h : t.InRange) :
    t.Format.data = layoutYYYYMMDD_HHMMSS t := by
  obtain ⟨hy, hmo, hd, hh, hmi, hs⟩ := h
  simp only [Time.Format, String.data_append, layoutYYYYMMDD_HHMMSS]
  rw [appendInt_data 3 t.year (by norm_num; omega), appendInt_data 1 t.month (by norm_num; omega),
    appendInt_data 1 t.day (by norm_num; omega), appendInt_data 1 t.hour (by norm_num; omega),
    appendInt_data 1 t.minute (by norm_num; omega), appendInt_data 1 t.second (by norm_num; omega)]
  simp

theorem digitChar_lt : ∀ b, b < 10 → ∀ a, a < b → Nat.digitChar a < Nat.digitChar b := by
  decide

theorem lex_append_of_length {a b : List Char} (x y : List Char)
    (h : List.Lex (· < ·) a b) (hl : a.length = b.length) :
    List.Lex (· < ·) (a ++ x) (b ++ y) := by
  induction h with
  | nil => simp at hl
  | cons _ ih => exact List.Lex.cons (ih (by simpa using hl))
  | rel hr => exact List.Lex.rel hr

/-- On numbers that fit the width, the order of the numbers is the
lexicographic order of their places. -/
theorem fixedDigits_lt (w : Nat) : ∀ n m, n < m → m < 10 ^ w →
    List.Lex (· < ·) (fixedDigits w n) (fixedDigits w m) := by
  induction w with
  | zero => intro n m h hm; simp at hm; omega
  | succ w ih =>
    intro n m h hm
    simp only [fixedDigits]
    by_cases hq : n / 10 = m / 10
    · rw [hq]
      apply List.Lex.append_left
      apply List.Lex.rel
      exact digitChar_lt _ (Nat.mod_lt _ (by decide)) _ (by omega)
    · apply lex_append_of_length
      · apply ih
        · omega
        · apply Nat.div_lt_of_lt_mul
          rw [pow_succ] at hm
          omega
      · simp [fixedDigits_length]

theorem fixedDigits_le (w n m : Nat) (h : n ≤ m) (hm : m < 10 ^ w) :
    fixedDigits w n = fixedDigits w m ∨
      List.Lex (· < ·) (fixedDigits w n) (fixedDigits w m) := by
  rcases Nat.eq_or_lt_of_le h with rfl | h
  · exact Or.inl rfl
  · exact Or.inr (fixedDigits_lt w n m h hm)

/-- The layout orders clock readings in range as `Time.le` does. -/
theorem layout_le (a b : Time) (hb : b.InRange) (h : a.le b) :
    layoutYYYYMMDD_HHMMSS a = layoutYYYYMMDD_HHMMSS b ∨
      List.Lex (· < ·) (layoutYYYYMMDD_HHMMSS a) (layoutYYYYMMDD_HHMMSS b) := by
  obtain ⟨hy, hmo, hd, hh, hmi, hs⟩ := hb
  have len := fixedDigits_length
  unfold layoutYYYYMMDD_HHMMSS
  rcases h with h | ⟨e, h⟩
  · exact Or.inr (lex_append_of_length _ _ (fixedDigits_lt 4 _ _ h (by norm_num; omega))
      (by simp [len]))
  rw [e]
  rcases h with h | ⟨e, h⟩
  · exact Or.inr (List.Lex.append_left _ (lex_append_of_length _ _
      (fixedDigits_lt 2 _ _ h (by norm_num; omega)) (by simp [len])) _)
  rw [e]
  rcases h with h | ⟨e, h⟩
  · exact Or.inr (List.Lex.append_left _ (List.Lex.append_left _ (lex_append_of_length _ _
      (fixedDigits_lt 2 _ _ h (by norm_num; omega)) (by simp [len])) _) _)
  rw [e]
  rcases h with h | ⟨e, h⟩
  · exact Or.inr (List.Lex.append_left _ (List.Lex.append_left _ (List.Lex.append_left _
      (List.Lex.cons (lex_append_of_length _ _
        (fixedDigits_lt 2 _ _ h (by norm_num; omega)) (by simp [len]))) _) _) _)
  rw [e]
  rcases h with h | ⟨e, h⟩
  · exact Or.inr (List.Lex.append_left _ (List.Lex.append_left _ (List.Lex.append_left _
      (List.Lex.cons (List.Lex.append_left _ (lex_append_of_length _ _
        (fixedDigits_lt 2 _ _ h (by norm_num; omega)) (by simp [len])) _)) _) _) _)
  rw [e]
  rcases fixedDigits_le 2 _ _ h (by norm_num; omega) with e | h
  · rw [e]; exact Or.inl rfl
  · exact Or.inr (List.Lex.append_left _ (List.Lex.append_left _ (List.Lex.append_left _
      (List.Lex.cons (List.Lex.append_left _ (List.Lex.append_left _ h _) _)) _) _) _)

set_option maxRecDepth 100000 in
/-- C21: the backup name is `.spekka/config.yaml.backup-` followed by the
clock reading in the layout `YYYYMMDD-HHMMSS`: fifteen characters, a
hyphen between eight and six decimal digits, every field padded with
zeros. For two readings `t1`, `t2` of one time zone with years up to 9999,
`t1` not after `t2`, the name for `t1` is lexicographically less than or
equal to the name for `t2`. -/
theorem backupName_sortable (t1 t2 : Time) (h1 : t1.InRange) (h2 : t2.InRange)
    (hle : t1.le t2) :
    (∀ t ∈ [t1, t2],
      (backupName t).data = ".spekka/config.yaml.backup-".data ++ layoutYYYYMMDD_HHMMSS t ∧
      (layoutYYYYMMDD_HHMMSS t).length = 15 ∧
      (∀ c ∈ (layoutYYYYMMDD_HHMMSS t).take 8, c.isDigit = true) ∧
      (layoutYYYYMMDD_HHMMSS t).get? 8 = some '-' ∧
      (∀ c ∈ (layoutYYYYMMDD_HHMMSS t).drop 9, c.isDigit = true)) ∧
    backupName t1 ≤ backupName t2 := by
  have hdata : ∀ t : Time, t.InRange →
      (backupName t).data = ".spekka/config.yaml.backup-".data ++ layoutYYYYMMDD_HHMMSS t := by
    intro t ht
    rw [backupName_data, Format_data t ht]
  constructor
  · intro t ht
    have hr : t.InRange := by
      simp only [List.mem_cons, List.mem_singleton, List.not_mem_nil, or_false] at ht
      rcases ht with rfl | rfl <;> assumption
    have len := fixedDigits_length
    have e8 : layoutYYYYMMDD_HHMMSS t =
        (fixedDigits 4 t.year ++ fixedDigits 2 t.month ++ fixedDigits 2 t.day) ++
          ('-' :: (fixedDigits 2 t.hour ++ fixedDigits 2 t.minute ++ fixedDigits 2 t.second)) := by
      simp [layoutYYYYMMDD_HHMMSS]
    have l8 : (fixedDigits 4 t.year ++ fixedDigits 2 t.month ++ fixedDigits 2 t.day).length = 8 := by
      simp [len]
    refine ⟨hdata t hr, by simp [layoutYYYYMMDD_HHMMSS, len], ?_, ?_, ?_⟩
    · rw [e8, List.take_left' l8]
      intro c hc
      simp only [List.mem_append] at hc
      rcases hc with (hc | hc) | hc <;> exact fixedDigits_isDigit _ _ c hc
    · rw [e8, List.get?_eq_getElem?, List.getElem?_append_right (by omega), l8]
      rfl
    · have : (9 : Nat) = (fixedDigits 4 t.year ++ fixedDigits 2 t.month ++
          fixedDigits 2 t.day).length + 1 := by rw [l8]
      rw [e8, this, List.drop_append]
      intro c hc
      simp only [List.drop_succ_cons, List.drop_zero, List.mem_append] at hc
      rcases hc with (hc | hc) | hc <;> exact fixedDigits_isDigit _ _ c hc
  · rcases layout_le t1 t2 h2 hle with e | hlt
    · have : backupName t1 = backupName t2 := by
        apply String.ext
        rw [hdata t1 h1, hdata t2 h2, e]
      exact le_of_eq this
    · apply le_of_lt
      rw [String.lt_iff_toList_lt]
      show List.Lex (· < ·) (backupName t1).data (backupName t2).data
      rw [hdata t1 h1, hdata t2 h2]
      exact List.Lex.append_left _ hlt _

/-- C21 at work: the names of 1999-12-31 23:59:59 and 2024-03-09 07:05:01. -/
theorem backupName_sortable_witness :
    (⟨1999, 12, 31, 23, 59, 59⟩ : Time).InRange ∧ sampleTime.InRange ∧
    (⟨1999, 12, 31, 23, 59, 59⟩ : Time).le sampleTime ∧
    backupName ⟨1999, 12, 31, 23, 59, 59⟩ ≤ backupName sampleTime :=
  ⟨by decide, by decide, by decide,
    (backupName_sortable ⟨1999, 12, 31, 23, 59, 59⟩ sampleTime (by decide) (by decide)
      (by decide)).2⟩

/-! ## Backup names and the second they are made in -/

theorem fixedDigits_injective (w n m : Nat) (hn : n < 10 ^ w) (hm : m < 10 ^ w)
    (h : fixedDigits w n = fixedDigits w m) : n = m := by
  rcases Nat.lt_trichotomy n m with hlt | heq | hgt
  · have := fixedDigits_lt w n m hlt hm
    rw [h] at this
    exact absurd this (lt_irrefl (fixedDigits w m))
  · exact heq
  · have := fixedDigits_lt w m n hgt hn
    rw [h] at this
    exact absurd this (lt_irrefl (fixedDigits w m))

/-- Clock readings in range with the same layout are the same reading. -/
theorem layout_injective (a b : Time) (ha : a.InRange) (hb : b.InRange)
    (h : layoutYYYYMMDD_HHMMSS a = layoutYYYYMMDD_HHMMSS b) : a = b := by
  obtain ⟨ay, amo, ad, ah, ami, as⟩ := ha
  obtain ⟨hy, hmo, hd, hh, hmi, hs⟩ := hb
  have len := fixedDigits_length
  unfold layoutYYYYMMDD_HHMMSS at h
  obtain ⟨e1, h⟩ := List.append_inj h (by simp [len])
  obtain ⟨e2, h⟩ := List.append_inj h (by simp [len])
  obtain ⟨e3, h⟩ := List.append_inj h (by simp [len])
  simp only [List.cons.injEq, true_and] at h
  obtain ⟨e4, h⟩ := List.append_inj h (by simp [len])
  obtain ⟨e5, e6⟩ := List.append_inj h (by simp [len])
  have f1 := fixedDigits_injective 4 _ _ (by norm_num; omega) (by norm_num; omega) e1
  have f2 := fixedDigits_injective 2 _ _ (by norm_num; omega) (by norm_num; omega) e2
  have f3 := fixedDigits_injective 2 _ _ (by norm_num; omega) (by norm_num; omega) e3
  have f4 := fixedDigits_injective 2 _ _ (by norm_num; omega) (by norm_num; omega) e4
  have f5 := fixedDigits_injective 2 _ _ (by norm_num; omega) (by norm_num; omega) e5
  have f6 := fixedDigits_injective 2 _ _ (by norm_num; omega) (by norm_num; omega) e6
  cases a; cases b
  simp only [Time.mk.injEq]
  exact ⟨f1, f2, f3, f4, f5, f6⟩

theorem backupName_injective (a b : Time) (ha : a.InRange) (hb : b.InRange)
    (h : backupName a = backupName b) : a = b := by
  apply layout_injective a b ha hb
  have h' := congrArg String.data h
  rw [backupName_data, backupName_data, Format_data a ha, Format_data b hb] at h'
  exact List.append_cancel_left h'

theorem config_not_backup : matchesBackupPattern ".spekka/config.yaml" = false := by
  decide

set_option maxRecDepth 1000000 in
/-- Counterexample to C22 as stated: two forced reinstalls half a second
apart, on the directory of the test `force reinstallation`. The instants
differ and the backup names are the same. The first run backs
`existing config` up; the second run succeeds as well, renames the
configuration file onto that backup, and `existing config` is in no file
any more. -/
theorem same_second_counterexample :
    firstInstant ≠ secondInstant ∧
    firstInstant.backupName = secondInstant.backupName ∧
    (runInstall true false templates (installedWorld.atInstant firstInstant)).1 = none ∧
    firstReinstall.fs.get firstInstant.backupName = some (.file "existing config") ∧
    secondReinstall.1 = none ∧
    secondReinstall.2.fs.get firstInstant.backupName ≠ some (.file "existing config") ∧
    (∀ e ∈ secondReinstall.2.fs.entries, e.2 ≠ .file "existing config") ∧
    backupFiles secondReinstall.2.fs = [".spekka/config.yaml.backup-20240309-070501"] := by
  refine ⟨by decide, rfl, ?_, ?_, ?_, ?_, ?_, ?_⟩ <;> decide

/-- C22, amended: backup names are unique to the second. Clock readings in
range (years up to 9999) that differ give different backup names. When
`.spekka/config.yaml` is a regular file and a forced installation (no dry
run) succeeds, every path matching `.spekka/config.yaml.backup-*` other
than the new backup name keeps its entry, so the backup of every other
second keeps its content; the new backup name holds the former
configuration file, whatever it held before. -/
theorem backups_of_other_seconds_kept (w : World) (order : List (String × String))
    (c : String)
    (hexists : stat w ".spekka/config.yaml" = .ok (.file c))
    (hperm : order.Perm templates)
    (hok : (runInstall true false order w).1 = none)
    (hnow : w.now.InRange) :
    (∀ t : Time, t.InRange → t ≠ w.now →
      backupName t ≠ backupName w.now ∧
      (runInstall true false order w).2.fs.get (backupName t) = w.fs.get (backupName t)) ∧
    (∀ p, matchesBackupPattern p = true → p ≠ backupName w.now →
      (runInstall true false order w).2.fs.get p = w.fs.get p) ∧
    (runInstall true false order w).2.fs.get (backupName w.now) = some (.file c) := by
  obtain ⟨w1, -, -, -, hb, -, -, -, -⟩ := runInstall_ok_steps true order w hok
  have hb' : backupExistingConfig w = (none, w1) := by simpa [afterBackup] using hb
  have hfs := backupExistingConfig_file w c hexists (by rw [hb'])
  rw [hb'] at hfs
  simp only [] at hfs
  obtain ⟨-, -, -, -, e5⟩ := runInstall_effect true order w w1 hperm hb hok
  have hkeep : ∀ p, matchesBackupPattern p = true → p ≠ backupName w.now →
      (runInstall true false order w).2.fs.get p = w.fs.get p := by
    intro p hp hne
    have hni : p ∉ installedPaths := fun hmem => by
      have := installedPaths_no_backup p hmem
      rw [hp] at this
      exact absurd this (by decide)
    have hcfg : p ≠ ".spekka/config.yaml" := by
      rintro rfl
      rw [config_not_backup] at hp
      exact absurd hp (by decide)
    rw [e5 p hni, hfs, FS.get_set, if_neg hne, FS.get_remove, if_neg hcfg]
  refine ⟨?_, hkeep, ?_⟩
  · intro t ht hne
    have hn : backupName t ≠ backupName w.now :=
      fun h => hne (backupName_injective t w.now ht hnow h)
    exact ⟨hn, hkeep _ (backupName_matches t) hn⟩
  · rw [e5 _ (backupName_not_installed _), hfs]
    simp [FS.get_set]

set_option maxRecDepth 1000000 in
/-- C22, amended, at work: the backup of 2020-01-01 00:00:00 survives a
forced reinstall at 2024-03-09 07:05:01. -/
theorem backups_of_other_seconds_kept_witness :
    stat backedUpWorld ".spekka/config.yaml" = .ok (.file "existing config") ∧
    (runInstall true false templates backedUpWorld).1 = none ∧
    backedUpWorld.now.InRange ∧
    (⟨2020, 1, 1, 0, 0, 0⟩ : Time).InRange ∧
    backupName ⟨2020, 1, 1, 0, 0, 0⟩ ≠ backupName backedUpWorld.now ∧
    (runInstall true false templates backedUpWorld).2.fs.get (backupName ⟨2020, 1, 1, 0, 0, 0⟩)
      = some (.file "older config") :=
  have h := backups_of_other_seconds_kept backedUpWorld templates "existing config" rfl
    (List.Perm.refl _) (by decide) (by decide)
  have h0 := h.1 ⟨2020, 1, 1, 0, 0, 0⟩ (by decide) (by decide)
  ⟨rfl, by decide, by decide, by decide, h0.1, by rw [h0.2]; rfl⟩

/-! ## The order of the template writes -/

theorem writeFile_ok_writable {w w1 : World} {p d : String} (h : writeFile w p d = .ok w1) :
    Writable w p := by
  unfold writeFile at h
  unfold Writable
  split at h
  · simp at h
  · rename_i hd
    split at h
    · simp at h
    · rename_i hr
      split at h
      · simp at h
      · rename_i hn
        refine ⟨by simpa using hd, hr, ?_⟩
        intro hg
        exact hn hg

theorem writeTemplates_append (L1 L2 : List (String × String)) (w : World) :
    writeTemplates (L1 ++ L2) w =
      match writeTemplates L1 w with
      | (some e, w1) => (some e, w1)
      | (none, w1) => writeTemplates L2 w1 := by
  induction L1 generalizing w with
  | nil => simp [writeTemplates]
  | cons e L1 ih =>
    obtain ⟨p, c⟩ := e
    simp only [List.cons_append, writeTemplates]
    cases h : writeFile w p c with
    | error errno => simp
    | ok w1 => simpa using ih w1

theorem writeGitkeeps_append (l1 l2 : List String) (w : World) :
    writeGitkeeps (l1 ++ l2) w =
      match writeGitkeeps l1 w with
      | (some e, w1) => (some e, w1)
      | (none, w1) => writeGitkeeps l2 w1 := by
  induction l1 generalizing w with
  | nil => simp [writeGitkeeps]
  | cons d l1 ih =>
    simp only [List.cons_append, writeGitkeeps]
    cases h : writeFile w (filepathJoin d ".gitkeep") "" with
    | error errno => simp
    | ok w1 => simpa using ih w1

/-- The template loop over distinct keys, none an ancestor of another,
succeeds exactly when every key can be written in the tree it starts from. -/
theorem writeTemplates_ok_iff (L : List (String × String)) (w : World)
    (hsep : ∀ e ∈ L, ∀ e' ∈ L, e'.1 ∉ ancestors e.1)
    (hnd : (L.map Prod.fst).Nodup) :
    (writeTemplates L w).1 = none ↔ ∀ e ∈ L, Writable w e.1 := by
  constructor
  · intro hok
    induction L generalizing w with
    | nil => simp
    | cons e L ih =>
      obtain ⟨p, c⟩ := e
      simp only [List.map_cons, List.nodup_cons] at hnd
      rw [writeTemplates] at hok
      cases h : writeFile w p c with
      | error errno => simp [h] at hok
      | ok w1 =>
        have hw := writeFile_ok h
        simp only [h] at hok
        have hrest := ih w1
          (fun e he e' he' => hsep e (List.mem_cons_of_mem _ he) e' (List.mem_cons_of_mem _ he'))
          hnd.2 hok
        intro e he
        rcases List.mem_cons.mp he with rfl | hmem
        · exact writeFile_ok_writable h
        · obtain ⟨r1, r2, r3⟩ := hrest e hmem
          have hne : e.1 ≠ p := fun heq =>
            hnd.1 (heq ▸ List.mem_map_of_mem Prod.fst hmem)
          have hanc : p ∉ ancestors e.1 :=
            hsep e (List.mem_cons_of_mem _ hmem) (p, c) (List.mem_cons_self _ _)
          subst hw
          refine ⟨r1, ?_, ?_⟩
          · simpa [resolveDir_set _ _ _ _ hanc] using r2
          · simpa [FS.get_set, hne] using r3
  · intro h
    exact writeTemplates_succeeds L w (fun e he => (h e he).1) (fun e he => (h e he).2.1)
      (fun e he => (h e he).2.2) hsep

theorem templates_nodup : (templates.map Prod.fst).Nodup := by decide

theorem gitkeeps_nodup : ((gitkeepEntries spekkaDirectories).map Prod.fst).Nodup := by decide

theorem gitkeeps_separate : ∀ e ∈ gitkeepEntries spekkaDirectories,
    ∀ e' ∈ gitkeepEntries spekkaDirectories, e'.1 ∉ ancestors e.1 := by decide

theorem gitkeeps_apart : ∀ e ∈ gitkeepEntries spekkaDirectories,
    e.1 ∉ templates.map Prod.fst ∧ ∀ a ∈ ancestors e.1, a ∉ templates.map Prod.fst := by
  decide

theorem templates_keys :
    templates.map Prod.fst = spekkaDirectories.map (fun dir => filepathJoin dir "README.md") := by
  decide

/-- Whether a marker file can be written is not changed by the template
loop. -/
theorem writable_after_templates (order : List (String × String)) (w : World)
    (hperm : order.Perm templates) :
    ∀ e ∈ gitkeepEntries spekkaDirectories,
      (Writable (writeTemplates order w).2 e.1 ↔ Writable w e.1) := by
  intro e he
  obtain ⟨a1, a2⟩ := gitkeeps_apart e he
  have hkey : ∀ q, q ∉ templates.map Prod.fst → q ∉ order.map Prod.fst :=
    fun q hq h => hq ((perm_keys hperm).mem_iff.mp h)
  have hres : resolveDir (writeTemplates order w).2.fs e.1 = resolveDir w.fs e.1 :=
    resolveDir_congr _ _ _ (fun a ha => writeTemplates_frame order w a (hkey a (a2 a ha)))
  unfold Writable
  rw [(writeTemplates_env order w).2.2, hres, writeTemplates_frame order w e.1 (hkey _ a1)]

/-- Which orders succeed: `createTemplateFiles` returns nil exactly when
every `README.md` and every `.gitkeep` can be written in the tree it starts
from, whatever the order. -/
theorem createTemplateFiles_ok_iff (order : List (String × String)) (w : World)
    (hperm : order.Perm templates) :
    (createTemplateFiles order w).1 = none ↔
      ((∀ e ∈ templates, Writable w e.1) ∧
        ∀ e ∈ gitkeepEntries spekkaDirectories, Writable w e.1) := by
  have hsep : ∀ e ∈ order, ∀ e' ∈ order, e'.1 ∉ ancestors e.1 := fun e he e' he' =>
    templates_separate e (hperm.mem_iff.mp he) e' (hperm.mem_iff.mp he')
  have hnd : (order.map Prod.fst).Nodup := (perm_keys hperm).nodup_iff.mpr templates_nodup
  have ht := writeTemplates_ok_iff order w hsep hnd
  have hall : (∀ e ∈ order, Writable w e.1) ↔ ∀ e ∈ templates, Writable w e.1 :=
    ⟨fun h e he => h e (hperm.mem_iff.mpr he), fun h e he => h e (hperm.mem_iff.mp he)⟩
  have hg := writable_after_templates order w hperm
  unfold createTemplateFiles
  rcases hwt : writeTemplates order w with ⟨_ | err, wt⟩
  · rw [hwt] at ht hg
    simp only [] at ht hg ⊢
    rw [(writeGitkeeps_eq spekkaDirectories wt).2,
      writeTemplates_ok_iff _ wt gitkeeps_separate gitkeeps_nodup, ← hall]
    constructor
    · intro h
      exact ⟨ht.mp trivial, fun e he => (hg e he).mp (h e he)⟩
    · intro h e he
      exact (hg e he).mpr (h.2 e he)
  · rw [hwt] at ht
    simp only [] at ht ⊢
    constructor
    · intro h; simp at h
    · intro h
      have := ht.mpr (hall.mpr h.1)
      simp at this

/-- What a successful `createTemplateFiles` leaves: every template at its
key, an empty `.gitkeep` in every manifest directory, and the rest of the
world as it was. -/
theorem createTemplateFiles_content (order : List (String × String)) (w : World)
    (hperm : order.Perm templates) (hok : (createTemplateFiles order w).1 = none) :
    (∀ e ∈ templates, (createTemplateFiles order w).2.fs.get e.1 = some (.file e.2)) ∧
    (∀ d ∈ spekkaDirectories,
      (createTemplateFiles order w).2.fs.get (filepathJoin d ".gitkeep") = some (.file "")) ∧
    (createTemplateFiles order w).2.out = w.out ∧
    (createTemplateFiles order w).2.now = w.now ∧
    (createTemplateFiles order w).2.deny = w.deny := by
  have hnd : (order.map Prod.fst).Nodup := (perm_keys hperm).nodup_iff.mpr templates_nodup
  have hcont := writeTemplates_content order w
  have henv := writeTemplates_env order w
  unfold createTemplateFiles at hok ⊢
  rcases hwt : writeTemplates order w with ⟨_ | err, wt⟩
  · rw [hwt] at hok hcont henv
    simp only [] at hok hcont henv ⊢
    have hgok := (writeGitkeeps_eq spekkaDirectories wt).2.mp hok
    have hgc := writeTemplates_content _ wt hgok gitkeeps_nodup
    have hge := writeTemplates_env (gitkeepEntries spekkaDirectories) wt
    rw [(writeGitkeeps_eq spekkaDirectories wt).1]
    refine ⟨?_, ?_, ?_, ?_, ?_⟩
    · intro e he
      have hk : e.1 ∉ (gitkeepEntries spekkaDirectories).map Prod.fst := by
        intro hmem
        obtain ⟨g, hg, hge⟩ := List.mem_map.mp hmem
        have := (gitkeeps_apart g hg).1
        rw [hge] at this
        exact this (List.mem_map_of_mem Prod.fst he)
      rw [writeTemplates_frame _ wt _ hk]
      exact hcont trivial hnd e (hperm.mem_iff.mpr he)
    · intro d hd
      exact hgc (filepathJoin d ".gitkeep", "")
        (by simp only [gitkeepEntries]; exact List.mem_map_of_mem _ hd)
    · rw [hge.1, henv.1]
    · rw [hge.2.1, henv.2.1]
    · rw [hge.2.2, henv.2.2]
  · rw [hwt] at hok
    simp at hok

theorem gitkeepEntries_keys (l : List String) :
    (gitkeepEntries l).map Prod.fst = l.map (fun d => filepathJoin d ".gitkeep") := by
  simp [gitkeepEntries, Function.comp_def]

theorem gitkeeps_not_ordered {order : List (String × String)} (hperm : order.Perm templates)
    {d : String} (hd : d ∈ spekkaDirectories) :
    filepathJoin d ".gitkeep" ∉ order.map Prod.fst := by
  intro h
  have hmem : (filepathJoin d ".gitkeep", "") ∈ gitkeepEntries spekkaDirectories := by
    simp only [gitkeepEntries]
    exact List.mem_map_of_mem _ hd
  exact (gitkeeps_apart _ hmem).1 ((perm_keys hperm).mem_iff.mp h)

/-- C23: the template writes do not depend on the order in which Go visits
the map. The keys of the map are the paths `dir/README.md` for the
directories of `spekkaDirectories`, one each. For any two orders `o1`, `o2`
of the map, `createTemplateFiles` returns nil under `o1` exactly when it
does under `o2`, and then both runs leave the same world: every path holds
the same entry (each key its template, each `dir/.gitkeep` the empty file,
every other path what it held), and output, clock and faults are as
before. When a template write fails after the writes before it succeeded,
the result is the error `failed to create template file <path>: ...`
naming that path, in the world those earlier writes left: no path outside
them has changed. When a `.gitkeep` write fails after all templates and
the markers before it were written, the result is the error
`failed to create .gitkeep in <dir>: ...` naming the directory, and the
`.gitkeep` of that and of every later directory is as it was. -/
theorem createTemplateFiles_order_insensitive (w : World) (o1 o2 : List (String × String))
    (h1 : o1.Perm templates) (h2 : o2.Perm templates) :
    templates.map Prod.fst
      = spekkaDirectories.map (fun dir => filepathJoin dir "README.md") ∧
    (templates.map Prod.fst).Nodup ∧
    ((createTemplateFiles o1 w).1 = none ↔ (createTemplateFiles o2 w).1 = none) ∧
    ((createTemplateFiles o1 w).1 = none →
      (∀ p, (createTemplateFiles o1 w).2.fs.get p = (createTemplateFiles o2 w).2.fs.get p) ∧
      (createTemplateFiles o1 w).2.out = (createTemplateFiles o2 w).2.out ∧
      (createTemplateFiles o1 w).2.now = (createTemplateFiles o2 w).2.now ∧
      (createTemplateFiles o1 w).2.deny = (createTemplateFiles o2 w).2.deny ∧
      (∀ e ∈ templates, (createTemplateFiles o1 w).2.fs.get e.1 = some (.file e.2)) ∧
      (∀ d ∈ spekkaDirectories,
        (createTemplateFiles o1 w).2.fs.get (filepathJoin d ".gitkeep") = some (.file "")) ∧
      (∀ q, q ∉ templates.map Prod.fst →
        q ∉ spekkaDirectories.map (fun d => filepathJoin d ".gitkeep") →
        (createTemplateFiles o1 w).2.fs.get q = w.fs.get q)) ∧
    (∀ pre p c post errno, o1 = pre ++ (p, c) :: post →
      (writeTemplates pre w).1 = none →
      writeFile (writeTemplates pre w).2 p c = .error errno →
      createTemplateFiles o1 w
        = (some (.wrap ("failed to create template file " ++ p ++ ": ")
            (.path "open" p errno)), (writeTemplates pre w).2) ∧
      contains (Error.wrap ("failed to create template file " ++ p ++ ": ")
        (.path "open" p errno)).message p ∧
      (∀ q, q ∉ pre.map Prod.fst → (createTemplateFiles o1 w).2.fs.get q = w.fs.get q)) ∧
    (∀ pre d post errno, spekkaDirectories = pre ++ d :: post →
      (writeTemplates o1 w).1 = none →
      (writeGitkeeps pre (writeTemplates o1 w).2).1 = none →
      writeFile (writeGitkeeps pre (writeTemplates o1 w).2).2 (filepathJoin d ".gitkeep") ""
        = .error errno →
      createTemplateFiles o1 w
        = (some (.wrap ("failed to create .gitkeep in " ++ d ++ ": ")
            (.path "open" (filepathJoin d ".gitkeep") errno)),
          (writeGitkeeps pre (writeTemplates o1 w).2).2) ∧
      contains (Error.wrap ("failed to create .gitkeep in " ++ d ++ ": ")
        (.path "open" (filepathJoin d ".gitkeep") errno)).message d ∧
      (∀ x ∈ d :: post, (createTemplateFiles o1 w).2.fs.get (filepathJoin x ".gitkeep")
        = w.fs.get (filepathJoin x ".gitkeep"))) := by
  have hiff : (createTemplateFiles o1 w).1 = none ↔ (createTemplateFiles o2 w).1 = none := by
    rw [createTemplateFiles_ok_iff o1 w h1, createTemplateFiles_ok_iff o2 w h2]
  refine ⟨templates_keys, templates_nodup, hiff, ?_, ?_, ?_⟩
  · intro hok1
    have hok2 := hiff.mp hok1
    obtain ⟨a1, a2, a3, a4, a5⟩ := createTemplateFiles_content o1 w h1 hok1
    obtain ⟨b1, b2, b3, b4, b5⟩ := createTemplateFiles_content o2 w h2 hok2
    have hframe : ∀ (o : List (String × String)), o.Perm templates →
        ∀ q, q ∉ templates.map Prod.fst →
        q ∉ spekkaDirectories.map (fun d => filepathJoin d ".gitkeep") →
        (createTemplateFiles o w).2.fs.get q = w.fs.get q := by
      intro o ho q hq1 hq2
      exact createTemplateFiles_frame o w q ho hq1 (by rw [gitkeepEntries_keys]; exact hq2)
    refine ⟨?_, by rw [a3, b3], by rw [a4, b4], by rw [a5, b5], a1, a2, hframe o1 h1⟩
    intro p
    by_cases hg : p ∈ spekkaDirectories.map (fun d => filepathJoin d ".gitkeep")
    · obtain ⟨d, hd, rfl⟩ := List.mem_map.mp hg
      rw [a2 d hd, b2 d hd]
    · by_cases ht : p ∈ templates.map Prod.fst
      · obtain ⟨e, he, rfl⟩ := List.mem_map.mp ht
        rw [a1 e he, b1 e he]
      · rw [hframe o1 h1 p ht hg, hframe o2 h2 p ht hg]
  · intro pre p c post errno hsplit hpre hfail
    have hrun : createTemplateFiles o1 w
        = (some (.wrap ("failed to create template file " ++ p ++ ": ")
            (.path "open" p errno)), (writeTemplates pre w).2) := by
      unfold createTemplateFiles
      rw [hsplit, writeTemplates_append]
      rcases hp : writeTemplates pre w with ⟨_ | err, w1⟩
      · rw [hp] at hfail
        simp only [] at hfail ⊢
        simp [writeTemplates, hfail]
      · rw [hp] at hpre
        simp at hpre
    refine ⟨hrun, ?_, ?_⟩
    · simp only [Error.message]
      rw [String.append_assoc]
      exact contains_middle _ _ _
    · intro q hq
      rw [hrun]
      exact writeTemplates_frame pre w q hq
  · intro pre d post errno hsplit htpl hpre hfail
    have hrun : createTemplateFiles o1 w
        = (some (.wrap ("failed to create .gitkeep in " ++ d ++ ": ")
            (.path "open" (filepathJoin d ".gitkeep") errno)),
          (writeGitkeeps pre (writeTemplates o1 w).2).2) := by
      unfold createTemplateFiles
      rcases ht : writeTemplates o1 w with ⟨_ | err, wt⟩
      · rw [ht] at hpre hfail
        simp only [] at hpre hfail ⊢
        rw [hsplit, writeGitkeeps_append]
        rcases hp : writeGitkeeps pre wt with ⟨_ | err, w1⟩
        · rw [hp] at hfail
          simp only [] at hfail ⊢
          simp [writeGitkeeps, hfail]
        · rw [hp] at hpre
          simp at hpre
      · rw [ht] at htpl
        simp at htpl
    refine ⟨hrun, ?_, ?_⟩
    · simp only [Error.message]
      rw [String.append_assoc]
      exact contains_middle _ _ _
    · intro x hx
      have hxd : x ∈ spekkaDirectories := by
        rw [hsplit]
        exact List.mem_append_right _ hx
      have hnd := gitkeeps_nodup
      rw [gitkeepEntries_keys, hsplit, List.map_append, List.nodup_append] at hnd
      have hnot : filepathJoin x ".gitkeep" ∉ (gitkeepEntries pre).map Prod.fst := by
        rw [gitkeepEntries_keys]
        intro hmem
        exact hnd.2.2 hmem (List.mem_map_of_mem _ hx)
      rw [hrun]
      simp only []
      rw [(writeGitkeeps_eq pre _).1, writeTemplates_frame _ _ _ hnot,
        writeTemplates_frame o1 w _ (gitkeeps_not_ordered h1 hxd)]

set_option maxRecDepth 1000000 in
/-- C23 at work. In a directory prepared by `createDirectoryStructure` the
templates are written in source order and in the opposite order with the
same outcome. Where the `README.md` of the product cannot be written, the
run in source order stops there: the error names that file and the
`README.md` of the specs is not written. Where the `.gitkeep` of the specs
cannot be written, the error names the directory and the `.gitkeep` of the
tasks is not written. -/
theorem createTemplateFiles_order_insensitive_witness :
    reversedOrder.Perm templates ∧
    (createTemplateFiles templates preparedWorld).1 = none ∧
    (createTemplateFiles reversedOrder preparedWorld).1 = none ∧
    (∀ p, (createTemplateFiles templates preparedWorld).2.fs.get p
      = (createTemplateFiles reversedOrder preparedWorld).2.fs.get p) ∧
    (createTemplateFiles templates refusedTemplateWorld).1
      = some (.wrap "failed to create template file .spekka/product/README.md: "
          (.path "open" ".spekka/product/README.md" .EACCES)) ∧
    (createTemplateFiles templates refusedTemplateWorld).2.fs.get ".spekka/specs/README.md"
      = none ∧
    (createTemplateFiles templates refusedGitkeepWorld).1
      = some (.wrap "failed to create .gitkeep in .spekka/specs: "
          (.path "open" ".spekka/specs/.gitkeep" .EACCES)) ∧
    (createTemplateFiles templates refusedGitkeepWorld).2.fs.get ".spekka/tasks/.gitkeep"
      = none :=
  have h := createTemplateFiles_order_insensitive preparedWorld templates reversedOrder
    (List.Perm.refl _) (List.reverse_perm _)
  have hok : (createTemplateFiles templates preparedWorld).1 = none := by decide
  have g := (createTemplateFiles_order_insensitive refusedTemplateWorld templates templates
    (List.Perm.refl _) (List.Perm.refl _)).2.2.2.2.1
      (templates.take 1) ".spekka/product/README.md" getProductTemplate (templates.drop 2)
      .EACCES rfl (by decide) rfl
  have k := (createTemplateFiles_order_insensitive refusedGitkeepWorld templates templates
    (List.Perm.refl _) (List.Perm.refl _)).2.2.2.2.2
      (spekkaDirectories.take 2) ".spekka/specs" (spekkaDirectories.drop 3)
      .EACCES rfl (by decide) (by decide) rfl
  ⟨List.reverse_perm _, hok, h.2.2.1.mp hok, (h.2.2.2.1 hok).1,
    by rw [g.1]; decide, by rw [g.2.2 _ (by decide)]; rfl,
    by rw [k.1]; decide,
    by
      have e : filepathJoin ".spekka/tasks" ".gitkeep" = ".spekka/tasks/.gitkeep" := by decide
      have r := k.2.2 ".spekka/tasks" (by decide)
      rw [e] at r
      rw [r]; rfl⟩

end Spekka
